import Mathlib

/-!
# SLRU file-cache priority: shallow embedding

Embedding of `src/Interpreters/Cache/SLRUFileCachePriority.cpp`.

The segmented-LRU policy composes two `LRUFileCachePriority` queues.  The LRU
queue, the eviction-candidate container and the reserve statistics are declared
in other translation units; they are modelled here from the specification
(section 4.1) and every such definition says so in its doc comment.  The
functions of `SLRUFileCachePriority.cpp` itself are transcribed statement by
statement.

Conventions.
* A queue is a list of nodes, least recently used first.
* An `SLRUIterator` object lives in a heap `iterators : Nat → SLRUIterator`;
  its address is a natural number.  A list node records the address of the
  iterator that the segment metadata of its entry hands out
  (`candidate->getQueueIterator()`).
* A thrown exception is `Except.error`; a call that throws has no result state.
* `size_t` arithmetic is done in `Nat`; wrap-around at `2^64` is not modelled.
-/

namespace DB

/-- Exceptions raised by the policy and its queues. -/
inductive Exception
  /-- The `LOGICAL_ERROR` "Attempt to use invalid iterator" of `assertValid`. -/
  | INVALID_ITERATOR
  /-- An LRU queue refused an entry that violates its budgets. -/
  | LIMIT_EXCEEDED
  /-- An inner iterator that is null or does not point into its queue was dereferenced. -/
  | DANGLING_ITERATOR
deriving DecidableEq, Repr

/-- The two tiers of the policy. -/
inductive Tier
  | PROTECTED
  | PROBATIONARY
deriving DecidableEq, Repr

/-- Queue entry: `{key, offset, size, hits}` (the metadata handle is opaque and omitted). -/
structure Entry where
  key : Nat
  offset : Nat
  size : Nat
  hits : Nat
deriving DecidableEq, Repr

/-- List node of an LRU queue: the entry and the address of its queue iterator. -/
structure Node where
  it : Nat
  entry : Entry
deriving DecidableEq, Repr

/-- Releasable totals of a reservation attempt. -/
structure Stat where
  releasable_size : Nat
  releasable_count : Nat
deriving DecidableEq, Repr

/-- Modelled from the spec: `FileCacheReserveStat` is declared outside the sources;
section 4.1 says it accumulates releasable bytes and count.  The nesting
`stat.stat.releasable_size` is the one the policy source reads. -/
structure FileCacheReserveStat where
  stat : Stat
deriving DecidableEq, Repr

/-- A fresh statistics object. -/
def FileCacheReserveStat.empty : FileCacheReserveStat := ⟨⟨0, 0⟩⟩

/-- Modelled from the spec: `stat.update(size, kind, releasable = true)`. -/
def FileCacheReserveStat.update (st : FileCacheReserveStat) (size : Nat) : FileCacheReserveStat :=
  ⟨⟨st.stat.releasable_size + size, st.stat.releasable_count + 1⟩⟩

/-- Modelled from the spec: `EvictionCandidates` is declared outside the sources;
section 3 describes it as a set of `(key, [entries])`.  A candidate is named by the
address of its queue iterator.  Keys are kept in order of first insertion. -/
abbrev EvictionCandidates := List (Nat × List Nat)

/-- Modelled from the spec: `EvictionCandidates::add(locked_key, candidate)`: append the
candidate to the group of its key, creating the group when the key is new. -/
def EvictionCandidates.add : EvictionCandidates → Nat → Nat → EvictionCandidates
  | [], key, c => [(key, [c])]
  | (k, cs) :: rest, key, c =>
    if k = key then (k, cs ++ [c]) :: rest
    else (k, cs) :: EvictionCandidates.add rest key c

/-- All candidates in iteration order (`for [key, key_candidates]`, `for candidate`). -/
def EvictionCandidates.all (res : EvictionCandidates) : List Nat :=
  (res.map (fun kc => kc.2)).flatten

/-- Modelled from the spec: the LRU queue of section 3: entries from least to most
recently used, two budgets and two running totals. -/
structure LRUFileCachePriority where
  queue : List Node
  max_size : Nat
  max_elements : Nat
  current_size : Nat
  current_elements_num : Nat
deriving DecidableEq, Repr

namespace LRUFileCachePriority

/-- Constructor `LRUFileCachePriority(max_size, max_elements)`: an empty queue. -/
def create (max_size max_elements : Nat) : LRUFileCachePriority :=
  { queue := [], max_size := max_size, max_elements := max_elements,
    current_size := 0, current_elements_num := 0 }

/-- Byte limit of the queue. -/
def getSizeLimit (q : LRUFileCachePriority) : Nat := q.max_size

/-- Addresses of the iterators of the queued entries, LRU first. -/
def ids (q : LRUFileCachePriority) : List Nat := q.queue.map (fun n => n.it)

/-- Node an inner iterator points at. -/
def find (q : LRUFileCachePriority) (it : Nat) : Option Node :=
  q.queue.find? (fun n => n.it == it)

/-- Modelled from the spec: `can_fit(extra_bytes)` of section 4.1:
`cur_bytes + extra_bytes ≤ max_bytes AND cur_elements + 1 ≤ max_elements`. -/
def canFit (q : LRUFileCachePriority) (size : Nat) : Bool :=
  decide (q.current_size + size ≤ q.max_size) &&
    decide (q.current_elements_num + 1 ≤ q.max_elements)

/-- Modelled from the spec: `add(entry)` of section 4.1: appends the entry at the MRU
end and increments the totals; fails with `LIMIT_EXCEEDED` when the budgets that the
caller was to pre-check (`can_fit`) are violated. -/
def add (q : LRUFileCachePriority) (n : Node) : Except Exception LRUFileCachePriority :=
  if q.canFit n.entry.size then
    .ok { q with queue := q.queue ++ [n],
                 current_size := q.current_size + n.entry.size,
                 current_elements_num := q.current_elements_num + 1 }
  else .error .LIMIT_EXCEEDED

/-- Modelled from the spec: `remove(handle)` of section 4.1: unlinks the node and
decrements the totals. -/
def remove (q : LRUFileCachePriority) (it : Nat) : Except Exception LRUFileCachePriority :=
  match q.find it with
  | none => .error .DANGLING_ITERATOR
  | some n =>
    .ok { q with queue := q.queue.eraseP (fun m => m.it == it),
                 current_size := q.current_size - n.entry.size,
                 current_elements_num := q.current_elements_num - 1 }

/-- Modelled from the spec: `touch(handle)` of section 4.1: moves the entry to the MRU
end and increments its hit count. -/
def increasePriority (q : LRUFileCachePriority) (it : Nat) :
    Except Exception LRUFileCachePriority :=
  match q.find it with
  | none => .error .DANGLING_ITERATOR
  | some n =>
    .ok { q with queue := q.queue.eraseP (fun m => m.it == it) ++
                   [{ n with entry := { n.entry with hits := n.entry.hits + 1 } }] }

/-- Modelled from the spec: `resize(handle, delta)` of section 4.1: adjusts the entry
size and the byte total by a signed delta; does not evict. -/
def updateSize (q : LRUFileCachePriority) (it : Nat) (delta : Int) :
    Except Exception LRUFileCachePriority :=
  match q.find it with
  | none => .error .DANGLING_ITERATOR
  | some _ =>
    .ok { q with queue := q.queue.map (fun m =>
                   if m.it = it then
                     { m with entry := { m.entry with size := ((m.entry.size : Int) + delta).toNat } }
                   else m),
                 current_size := ((q.current_size : Int) + delta).toNat }

/-- Modelled from the spec: `move` of section 4.1, called in the source as
`probationary_queue.move(it, protected_queue, lock)`: the node is unlinked from `other`
and appended at the MRU end of the receiving queue, both totals are adjusted.
Returns the receiving queue and `other`. -/
def move (q : LRUFileCachePriority) (it : Nat) (other : LRUFileCachePriority) :
    Except Exception (LRUFileCachePriority × LRUFileCachePriority) :=
  match other.find it with
  | none => .error .DANGLING_ITERATOR
  | some n =>
    .ok ({ q with queue := q.queue ++ [n],
                  current_size := q.current_size + n.entry.size,
                  current_elements_num := q.current_elements_num + 1 },
         { other with queue := other.queue.eraseP (fun m => m.it == it),
                      current_size := other.current_size - n.entry.size,
                      current_elements_num := other.current_elements_num - 1 })

/-- The walk of `collect_candidates`: from LRU toward MRU, skipping the entry of the
reservee and entries that are not releasable, until the gathered bytes cover `size`. -/
def collectWalk (releasable : Nat → Bool) (reservee : Option Nat) (size : Nat) :
    List Node → Nat → FileCacheReserveStat → EvictionCandidates →
      Bool × FileCacheReserveStat × EvictionCandidates
  | [], gathered, stat, res => (decide (size ≤ gathered), stat, res)
  | n :: rest, gathered, stat, res =>
    if size ≤ gathered then (true, stat, res)
    else if reservee = some n.it then collectWalk releasable reservee size rest gathered stat res
    else if releasable n.it then
      collectWalk releasable reservee size rest (gathered + n.entry.size)
        (stat.update n.entry.size) (EvictionCandidates.add res n.entry.key n.it)
    else collectWalk releasable reservee size rest gathered stat res

/-- Modelled from the spec: `collect_candidates(want_bytes, stat, out, reservee, …)` of
section 4.1: walks the queue from LRU toward MRU, skips the reservee and non-releasable
entries, accumulates the chosen entries into `out` and their bytes and count into `stat`,
stops at the first selection whose cumulative size covers `want_bytes`, and returns
`true` iff enough releasable bytes were gathered.  A request that already fits needs no
bytes: as the caller in `increasePriority` puts it, the call is to "check if there is
enough space in [the] queue ... If not - we need to downgrade", and scenario 3 of the
spec promotes into an empty protected queue through it.  The finalize argument is not
touched by the queue and is left out. -/
def collectCandidatesForEviction (q : LRUFileCachePriority) (releasable : Nat → Bool)
    (size : Nat) (stat : FileCacheReserveStat) (res : EvictionCandidates)
    (reservee : Option Nat) : Bool × FileCacheReserveStat × EvictionCandidates :=
  if q.canFit size then (true, stat, res)
  else collectWalk releasable reservee size q.queue 0 stat res

end LRUFileCachePriority

/-- Heap object `SLRUIterator`.  `lru_iterator` is the owned inner LRU iterator: `none`
is the null pointer, `some t` an iterator of queue `t` at the node that carries this
iterator's address.  `is_protected` is the tier tag. -/
structure SLRUIterator where
  lru_iterator : Option Tier
  is_protected : Bool
deriving DecidableEq, Repr

/-- Type `FinalizeEvictionFunc`: `none` is the empty `std::function`; the only closure the
policy ever stores captures the downgrade candidates, so a set closure is that value. -/
abbrev FinalizeEvictionFunc := Option EvictionCandidates

/-- Rounding of a rational to the nearest integer, a tie going to the even one. -/
def roundHalfEven (q : ℚ) : ℤ :=
  if q - ⌊q⌋ < 1 / 2 then ⌊q⌋
  else if 1 / 2 < q - ⌊q⌋ then ⌊q⌋ + 1
  else if ⌊q⌋ % 2 = 0 then ⌊q⌋ else ⌊q⌋ + 1

/-- Exponent of the unit in the last place of a `double` of the magnitude of `x`: 53
significant bits, and `2^-1074` among the subnormal numbers. -/
def ulpExponent (x : ℚ) : ℤ := max (Int.log 2 |x| - 52) (-1074)

/-- The `double` nearest to `x` (IEEE 754 binary64, round to nearest, ties to even).  A
finite `double` is the rational it denotes; values of magnitude `2^1024` and above, the
infinities and NaN are not modelled: the totals are `size_t` and the clamped ratio lies
in `[0, 1]`. -/
def roundDouble (x : ℚ) : ℚ :=
  (roundHalfEven (x / (2 : ℚ) ^ ulpExponent x) : ℚ) * (2 : ℚ) ^ ulpExponent x

/-- Function `getRatio(total, ratio)` (lines 20-23):
`static_cast<size_t>(total * std::max(0.0, std::min(1.0, ratio)))`.  The `size_t` total is
converted to `double`, the product is a `double` product, and the cast truncates.  The
ratio is the value of a `double`.  (The cast of a value of `2^64` and above is undefined
in C++; the model yields the integer.) -/
def getRatio (total : Nat) (ratio : ℚ) : Nat :=
  ⌊roundDouble (roundDouble (total : ℚ) * max 0 (min 1 ratio))⌋.toNat

/-- State of the policy: the two queues and the heap of iterators handed out. -/
structure SLRUFileCachePriority where
  protected_queue : LRUFileCachePriority
  probationary_queue : LRUFileCachePriority
  iterators : Nat → SLRUIterator
  next_iterator : Nat

/-- Outcome of `collectCandidatesForEviction`: the return value, the policy, and the
three reference parameters as the call leaves them. -/
structure CollectResult where
  ok : Bool
  policy : SLRUFileCachePriority
  stat : FileCacheReserveStat
  res : EvictionCandidates
  finalize_eviction_func : FinalizeEvictionFunc

namespace SLRUFileCachePriority

/-- Constructor `SLRUFileCachePriority(max_size_, max_elements_, size_ratio)` (lines
26-37); `1 - size_ratio` is a `double` subtraction. -/
def create (max_size_ max_elements_ : Nat) (size_ratio : ℚ) : SLRUFileCachePriority :=
  { protected_queue :=
      LRUFileCachePriority.create (getRatio max_size_ size_ratio)
        (getRatio max_elements_ size_ratio),
    probationary_queue :=
      LRUFileCachePriority.create (getRatio max_size_ (roundDouble (1 - size_ratio)))
        (getRatio max_elements_ (roundDouble (1 - size_ratio))),
    iterators := fun _ => ⟨none, false⟩,
    next_iterator := 0 }

/-- Method `getSize`: the sum of both queues. -/
def getSize (s : SLRUFileCachePriority) : Nat :=
  s.protected_queue.current_size + s.probationary_queue.current_size

/-- Method `getElementsCount`: the sum of both queues. -/
def getElementsCount (s : SLRUFileCachePriority) : Nat :=
  s.protected_queue.current_elements_num + s.probationary_queue.current_elements_num

/-- The queue an inner iterator of tier `t` belongs to. -/
def queueOf (s : SLRUFileCachePriority) : Tier → LRUFileCachePriority
  | .PROTECTED => s.protected_queue
  | .PROBATIONARY => s.probationary_queue

/-- Store a queue back into the policy. -/
def withQueue (s : SLRUFileCachePriority) (t : Tier) (q : LRUFileCachePriority) :
    SLRUFileCachePriority :=
  match t with
  | .PROTECTED => { s with protected_queue := q }
  | .PROBATIONARY => { s with probationary_queue := q }

/-- The call `it.lru_iterator->increasePriority(lock)`. -/
def lruIncreasePriority (s : SLRUFileCachePriority) (it : Nat) :
    Except Exception SLRUFileCachePriority :=
  match (s.iterators it).lru_iterator with
  | none => .error .DANGLING_ITERATOR
  | some t =>
    match (s.queueOf t).increasePriority it with
    | .error e => .error e
    | .ok q => .ok (s.withQueue t q)

/-- The call `it.lru_iterator->remove(lock)`. -/
def lruRemove (s : SLRUFileCachePriority) (it : Nat) :
    Except Exception SLRUFileCachePriority :=
  match (s.iterators it).lru_iterator with
  | none => .error .DANGLING_ITERATOR
  | some t =>
    match (s.queueOf t).remove it with
    | .error e => .error e
    | .ok q => .ok (s.withQueue t q)

/-- The call `it.lru_iterator->updateSize(size)`. -/
def lruUpdateSize (s : SLRUFileCachePriority) (it : Nat) (size : Int) :
    Except Exception SLRUFileCachePriority :=
  match (s.iterators it).lru_iterator with
  | none => .error .DANGLING_ITERATOR
  | some t =>
    match (s.queueOf t).updateSize it size with
    | .error e => .error e
    | .ok q => .ok (s.withQueue t q)

/-- The call `it.lru_iterator->getEntry()`. -/
def lruGetEntry (s : SLRUFileCachePriority) (it : Nat) : Except Exception Entry :=
  match (s.iterators it).lru_iterator with
  | none => .error .DANGLING_ITERATOR
  | some t =>
    match (s.queueOf t).find it with
    | none => .error .DANGLING_ITERATOR
    | some n => .ok n.entry

end SLRUFileCachePriority

namespace SLRUIterator

/-- Method `SLRUIterator::assertValid`: throws when `lru_iterator` is null. -/
def assertValid (s : SLRUFileCachePriority) (it : Nat) : Except Exception Unit :=
  match (s.iterators it).lru_iterator with
  | none => .error .INVALID_ITERATOR
  | some _ => .ok ()

/-- Method `SLRUIterator::getEntry`. -/
def getEntry (s : SLRUFileCachePriority) (it : Nat) : Except Exception Entry :=
  match assertValid s it with
  | .error e => .error e
  | .ok _ => s.lruGetEntry it

/-- Method `SLRUIterator::updateSize`. -/
def updateSize (s : SLRUFileCachePriority) (it : Nat) (size : Int) :
    Except Exception SLRUFileCachePriority :=
  match assertValid s it with
  | .error e => .error e
  | .ok _ => s.lruUpdateSize it size

/-- Method `SLRUIterator::remove`: removes the entry from its queue and nulls `lru_iterator`. -/
def remove (s : SLRUFileCachePriority) (it : Nat) : Except Exception SLRUFileCachePriority :=
  match assertValid s it with
  | .error e => .error e
  | .ok _ =>
    match s.lruRemove it with
    | .error e => .error e
    | .ok s1 =>
      .ok { s1 with iterators :=
              Function.update s1.iterators it { s1.iterators it with lru_iterator := none } }

end SLRUIterator

namespace SLRUFileCachePriority

/-- Run `f` on the candidates of one key, in order, stopping at the first exception. -/
def forKeyCandidates (f : SLRUFileCachePriority → Nat → Except Exception SLRUFileCachePriority) :
    List Nat → SLRUFileCachePriority → Except Exception SLRUFileCachePriority
  | [], s => .ok s
  | c :: cs, s =>
    match f s c with
    | .error e => .error e
    | .ok s1 => forKeyCandidates f cs s1

/-- The loop nest `for [key, key_candidates] : candidates; for candidate : key_candidates`. -/
def forCandidates (f : SLRUFileCachePriority → Nat → Except Exception SLRUFileCachePriority) :
    EvictionCandidates → SLRUFileCachePriority → Except Exception SLRUFileCachePriority
  | [], s => .ok s
  | kc :: rest, s =>
    match forKeyCandidates f kc.2 s with
    | .error e => .error e
    | .ok s1 => forCandidates f rest s1

/-- Body of both downgrade loops:
`candidate_it->lru_iterator = probationary_queue.move(*candidate_it->lru_iterator, protected_queue, lk);`
`candidate_it->is_protected = false;`. -/
def downgrade (s : SLRUFileCachePriority) (candidate : Nat) :
    Except Exception SLRUFileCachePriority :=
  match (s.iterators candidate).lru_iterator with
  | none => .error .DANGLING_ITERATOR
  | some _ =>
    match s.probationary_queue.move candidate s.protected_queue with
    | .error e => .error e
    | .ok (probationary, protected_) =>
      .ok { s with protected_queue := protected_,
                   probationary_queue := probationary,
                   iterators := Function.update s.iterators candidate ⟨some .PROBATIONARY, false⟩ }

/-- Modelled from the spec: `EvictionCandidates::evict` is declared outside the sources;
an eviction removes each candidate from its queue through its queue iterator. -/
def evict (res : EvictionCandidates) (s : SLRUFileCachePriority) :
    Except Exception SLRUFileCachePriority :=
  forCandidates SLRUIterator.remove res s

/-- Invoke a finalize action; an empty one does nothing. -/
def runFinalize (finalize_eviction_func : FinalizeEvictionFunc) (s : SLRUFileCachePriority) :
    Except Exception SLRUFileCachePriority :=
  match finalize_eviction_func with
  | none => .ok s
  | some downgrade_candidates => forCandidates downgrade downgrade_candidates s

/-- Method `SLRUFileCachePriority::add`: the entry goes to the probationary queue and a new
iterator with `is_protected = false` is returned. -/
def add (s : SLRUFileCachePriority) (key offset size : Nat) :
    Except Exception (SLRUFileCachePriority × Nat) :=
  match s.probationary_queue.add ⟨s.next_iterator, ⟨key, offset, size, 0⟩⟩ with
  | .error e => .error e
  | .ok q =>
    .ok ({ s with probationary_queue := q,
                  iterators := Function.update s.iterators s.next_iterator
                    ⟨some .PROBATIONARY, false⟩,
                  next_iterator := s.next_iterator + 1 },
         s.next_iterator)

/-- Method `SLRUFileCachePriority::collectCandidatesForEviction` (lines 59-119). -/
def collectCandidatesForEviction (s : SLRUFileCachePriority) (releasable : Nat → Bool)
    (size : Nat) (stat : FileCacheReserveStat) (res : EvictionCandidates)
    (reservee : Option Nat) (finalize_eviction_func : FinalizeEvictionFunc) : CollectResult :=
  match reservee with
  | none =>
    let r := s.probationary_queue.collectCandidatesForEviction releasable size stat res reservee
    ⟨r.1, s, r.2.1, r.2.2, finalize_eviction_func⟩
  | some it =>
    if !(s.iterators it).is_protected then
      let r := s.probationary_queue.collectCandidatesForEviction releasable size stat res reservee
      ⟨r.1, s, r.2.1, r.2.2, finalize_eviction_func⟩
    else if s.protected_queue.canFit size then
      ⟨true, s, stat, res, finalize_eviction_func⟩
    else
      let d := s.protected_queue.collectCandidatesForEviction releasable size
        FileCacheReserveStat.empty [] reservee
      if !d.1 then ⟨false, s, stat, res, finalize_eviction_func⟩
      else
        let size_to_downgrade := d.2.1.stat.releasable_size
        if s.probationary_queue.canFit size_to_downgrade then
          ⟨true, s, stat, res, some d.2.2⟩
        else
          let r := s.probationary_queue.collectCandidatesForEviction releasable
            size_to_downgrade stat res reservee
          if !r.1 then ⟨false, s, r.2.1, r.2.2, finalize_eviction_func⟩
          else ⟨true, s, r.2.1, r.2.2, some d.2.2⟩

/-- Lines 186-202 of `increasePriority`: copy the entry, remove it from its queue, move
the downgrade candidates to the probationary queue, add the copy to the protected queue
and retarget the iterator. -/
def promote (s : SLRUFileCachePriority) (iterator : Nat)
    (downgrade_candidates : EvictionCandidates) : Except Exception SLRUFileCachePriority :=
  match SLRUIterator.getEntry s iterator with
  | .error e => .error e
  | .ok entry_copy =>
    match s.lruRemove iterator with
    | .error e => .error e
    | .ok s1 =>
      match forCandidates downgrade downgrade_candidates s1 with
      | .error e => .error e
      | .ok s2 =>
        match s2.protected_queue.add ⟨iterator, entry_copy⟩ with
        | .error e => .error e
        | .ok q =>
          .ok { s2 with protected_queue := q,
                        iterators := Function.update s2.iterators iterator
                          ⟨some .PROTECTED, true⟩ }

/-- Method `SLRUFileCachePriority::increasePriority(iterator, lock)` (lines 121-203). -/
def increasePriority (s : SLRUFileCachePriority) (releasable : Nat → Bool) (iterator : Nat) :
    Except Exception SLRUFileCachePriority :=
  if (s.iterators iterator).is_protected then
    s.lruIncreasePriority iterator
  else
    match SLRUIterator.getEntry s iterator with
    | .error e => .error e
    | .ok entry =>
      let size := entry.size
      if size > s.protected_queue.getSizeLimit then
        s.lruIncreasePriority iterator
      else
        let d := s.protected_queue.collectCandidatesForEviction releasable size
          FileCacheReserveStat.empty [] none
        if !d.1 then
          s.lruIncreasePriority iterator
        else
          let size_to_downgrade := d.2.1.stat.releasable_count
          let size_to_free :=
            if size_to_downgrade ≠ 0 ∧ size_to_downgrade > size then size_to_downgrade - size
            else 0
          if size_to_free ≠ 0 then
            let r := s.probationary_queue.collectCandidatesForEviction releasable size_to_free
              FileCacheReserveStat.empty [] none
            if !r.1 then
              s.lruIncreasePriority iterator
            else
              match evict r.2.2 s with
              | .error e => .error e
              | .ok s1 => promote s1 iterator d.2.2
          else
            promote s iterator d.2.2

end SLRUFileCachePriority

/-- Method `SLRUIterator::increasePriority`: returns the hit count read after the call. -/
def SLRUIterator.increasePriority (s : SLRUFileCachePriority) (releasable : Nat → Bool)
    (it : Nat) : Except Exception (SLRUFileCachePriority × Nat) :=
  match SLRUIterator.assertValid s it with
  | .error e => .error e
  | .ok _ =>
    match s.increasePriority releasable it with
    | .error e => .error e
    | .ok s1 =>
      match SLRUIterator.getEntry s1 it with
      | .error e => .error e
      | .ok entry => .ok (s1, entry.hits)

/-! ### The state a call leaves behind

An exception unwinds the call but does not undo the statements that ran before it.  The
functions below follow the same code as `promote` and `increasePriority` and yield the
state in which the call leaves the policy together with the exception, if one was thrown.
The calls into the queues and the validity check throw before they change anything. -/

namespace SLRUFileCachePriority

/-- The loop over the candidates of one key: the state it leaves and the exception that
ended it, if any. -/
def forKeyCandidatesRun
    (f : SLRUFileCachePriority → Nat → Except Exception SLRUFileCachePriority) :
    List Nat → SLRUFileCachePriority → SLRUFileCachePriority × Option Exception
  | [], s => (s, none)
  | c :: cs, s =>
    match f s c with
    | .error e => (s, some e)
    | .ok s1 => forKeyCandidatesRun f cs s1

/-- The loop nest over all candidates: the state it leaves and the exception that ended
it, if any. -/
def forCandidatesRun
    (f : SLRUFileCachePriority → Nat → Except Exception SLRUFileCachePriority) :
    EvictionCandidates → SLRUFileCachePriority → SLRUFileCachePriority × Option Exception
  | [], s => (s, none)
  | kc :: rest, s =>
    match forKeyCandidatesRun f kc.2 s with
    | (s1, some e) => (s1, some e)
    | (s1, none) => forCandidatesRun f rest s1

/-- Lines 186-202 of `increasePriority`, with the state they leave: a throw of
`protected_queue.add` at line 201 comes after the entry was removed from its queue (line
189) and the downgrade candidates were moved (lines 191-199), and before the iterator is
retargeted. -/
def promoteRun (s : SLRUFileCachePriority) (iterator : Nat)
    (downgrade_candidates : EvictionCandidates) : SLRUFileCachePriority × Option Exception :=
  match SLRUIterator.getEntry s iterator with
  | .error e => (s, some e)
  | .ok entry_copy =>
    match s.lruRemove iterator with
    | .error e => (s, some e)
    | .ok s1 =>
      match forCandidatesRun downgrade downgrade_candidates s1 with
      | (s2, some e) => (s2, some e)
      | (s2, none) =>
        match s2.protected_queue.add ⟨iterator, entry_copy⟩ with
        | .error e => (s2, some e)
        | .ok q =>
          ({ s2 with protected_queue := q,
                     iterators := Function.update s2.iterators iterator
                       ⟨some .PROTECTED, true⟩ }, none)

/-- The call `iterator.lru_iterator->increasePriority(lock)` with the state it leaves. -/
def lruIncreasePriorityRun (s : SLRUFileCachePriority) (iterator : Nat) :
    SLRUFileCachePriority × Option Exception :=
  match s.lruIncreasePriority iterator with
  | .error e => (s, some e)
  | .ok s1 => (s1, none)

/-- Method `SLRUFileCachePriority::increasePriority(iterator, lock)` (lines 121-203) with
the state it leaves. -/
def increasePriorityRun (s : SLRUFileCachePriority) (releasable : Nat → Bool)
    (iterator : Nat) : SLRUFileCachePriority × Option Exception :=
  if (s.iterators iterator).is_protected then
    s.lruIncreasePriorityRun iterator
  else
    match SLRUIterator.getEntry s iterator with
    | .error e => (s, some e)
    | .ok entry =>
      let size := entry.size
      if size > s.protected_queue.getSizeLimit then
        s.lruIncreasePriorityRun iterator
      else
        let d := s.protected_queue.collectCandidatesForEviction releasable size
          FileCacheReserveStat.empty [] none
        if !d.1 then
          s.lruIncreasePriorityRun iterator
        else
          let size_to_downgrade := d.2.1.stat.releasable_count
          let size_to_free :=
            if size_to_downgrade ≠ 0 ∧ size_to_downgrade > size then size_to_downgrade - size
            else 0
          if size_to_free ≠ 0 then
            let r := s.probationary_queue.collectCandidatesForEviction releasable size_to_free
              FileCacheReserveStat.empty [] none
            if !r.1 then
              s.lruIncreasePriorityRun iterator
            else
              match forCandidatesRun SLRUIterator.remove r.2.2 s with
              | (s1, some e) => (s1, some e)
              | (s1, none) => promoteRun s1 iterator d.2.2
          else
            promoteRun s iterator d.2.2

end SLRUFileCachePriority

/-- Method `SLRUIterator::increasePriority` with the state it leaves. -/
def SLRUIterator.increasePriorityRun (s : SLRUFileCachePriority) (releasable : Nat → Bool)
    (it : Nat) : SLRUFileCachePriority × Option Exception :=
  match SLRUIterator.assertValid s it with
  | .error e => (s, some e)
  | .ok _ =>
    match s.increasePriorityRun releasable it with
    | (s1, some e) => (s1, some e)
    | (s1, none) =>
      match SLRUIterator.getEntry s1 it with
      | .error e => (s1, some e)
      | .ok _ => (s1, none)

/-- The caller's use of an eviction plan (section 4.4 of the spec): collect with a fresh
statistics object, an empty candidate set and no finalize action; when the call returns
`true`, evict the returned candidates and then invoke the finalize action if one was
set.  When it returns `false` nothing is done. -/
def SLRUFileCachePriority.reserve (s : SLRUFileCachePriority) (releasable : Nat → Bool)
    (size : Nat) (reservee : Option Nat) : Except Exception SLRUFileCachePriority :=
  let r := s.collectCandidatesForEviction releasable size FileCacheReserveStat.empty [] reservee none
  if r.ok then
    match SLRUFileCachePriority.evict r.res r.policy with
    | .error e => .error e
    | .ok s1 => SLRUFileCachePriority.runFinalize r.finalize_eviction_func s1
  else .ok r.policy

/-- A call of the public interface. -/
inductive Call
  | add (key offset size : Nat)
  | touch (it : Nat)
  | resize (it : Nat) (delta : Int)
  | remove (it : Nat)
  | reserve (size : Nat) (reservee : Option Nat)

/-- Whether a call is a resize. -/
def Call.isResize : Call → Bool
  | .resize _ _ => true
  | _ => false

/-- One call on the policy, with the releasability of every segment at that time. -/
def step (s : SLRUFileCachePriority) (releasable : Nat → Bool) :
    Call → Except Exception SLRUFileCachePriority
  | .add key offset size =>
    match s.add key offset size with
    | .error e => .error e
    | .ok r => .ok r.1
  | .touch it =>
    match SLRUIterator.increasePriority s releasable it with
    | .error e => .error e
    | .ok r => .ok r.1
  | .resize it delta => SLRUIterator.updateSize s it delta
  | .remove it => SLRUIterator.remove s it
  | .reserve size reservee => s.reserve releasable size reservee

/-- States reachable from `s0` by calls that return normally and that the filter
`allowed` admits (it sees the state before, the call and the state after). -/
inductive ReachableVia (allowed : SLRUFileCachePriority → Call → SLRUFileCachePriority → Prop)
    (s0 : SLRUFileCachePriority) : SLRUFileCachePriority → Prop
  | init : ReachableVia allowed s0 s0
  | call {s s1 : SLRUFileCachePriority} (releasable : Nat → Bool) (c : Call) :
      ReachableVia allowed s0 s → step s releasable c = .ok s1 → allowed s c s1 →
        ReachableVia allowed s0 s1

/-- States reachable from `s0` by any calls that return normally. -/
def Reachable (s0 s : SLRUFileCachePriority) : Prop :=
  ReachableVia (fun _ _ _ => True) s0 s

/-- Filter: the call is not a resize. -/
def noResize : SLRUFileCachePriority → Call → SLRUFileCachePriority → Prop :=
  fun _ c _ => c.isResize = false

/-- Filter: the call is not a resize and it downgrades nothing, that is, no entry of the
protected queue is in the probationary queue afterwards. -/
def noResizeNoDowngrade : SLRUFileCachePriority → Call → SLRUFileCachePriority → Prop :=
  fun s c s1 => c.isResize = false ∧
    ∀ id ∈ s.protected_queue.ids, id ∉ s1.probationary_queue.ids

/-- An empty policy with 50 bytes and 50 elements per tier: what the constructor builds
from a total of 100 bytes, 100 elements and ratio 0.5. -/
def emptyPolicy50 : SLRUFileCachePriority :=
  { protected_queue := LRUFileCachePriority.create 50 50,
    probationary_queue := LRUFileCachePriority.create 50 50,
    iterators := fun _ => ⟨none, false⟩,
    next_iterator := 0 }

/-- Every segment is releasable. -/
def allReleasable : Nat → Bool := fun _ => true

/-- Every segment is releasable except the one at address `pinned`. -/
def allReleasableBut (pinned : Nat) : Nat → Bool := fun i => i != pinned

/-- Iterator heap of the scenarios: `A`, `B`, `C` at addresses 0, 1, 2, with `B` tagged
protected when `b_protected` holds. -/
def scenarioIterators (b_protected : Bool) : Nat → SLRUIterator := fun i =>
  if i = 1 then
    (if b_protected then ⟨some Tier.PROTECTED, true⟩ else ⟨some Tier.PROBATIONARY, false⟩)
  else if i = 0 ∨ i = 2 then ⟨some Tier.PROBATIONARY, false⟩
  else ⟨none, false⟩

/-- Scenario 1 of the spec: `A`, `B`, `C` of 30 bytes each in the probationary queue,
protected queue empty, 50 bytes per tier. -/
def scenario1 : SLRUFileCachePriority :=
  { protected_queue := LRUFileCachePriority.create 50 50,
    probationary_queue :=
      { queue := [⟨0, ⟨1, 0, 30, 0⟩⟩, ⟨1, ⟨2, 0, 30, 0⟩⟩, ⟨2, ⟨3, 0, 30, 0⟩⟩],
        max_size := 50, max_elements := 50, current_size := 90, current_elements_num := 3 },
    iterators := scenarioIterators false,
    next_iterator := 3 }

/-- State of scenario 4 of the spec: protected = `[B]`, probationary = `[A, C]`. -/
def scenario4 : SLRUFileCachePriority :=
  { protected_queue :=
      { queue := [⟨1, ⟨2, 0, 30, 0⟩⟩],
        max_size := 50, max_elements := 50, current_size := 30, current_elements_num := 1 },
    probationary_queue :=
      { queue := [⟨0, ⟨1, 0, 30, 0⟩⟩, ⟨2, ⟨3, 0, 30, 0⟩⟩],
        max_size := 50, max_elements := 50, current_size := 60, current_elements_num := 2 },
    iterators := scenarioIterators true,
    next_iterator := 3 }

/-- A policy whose only entry `B` (30 bytes, address 1) sits in the protected queue. -/
def protectedB : SLRUFileCachePriority :=
  { scenario4 with probationary_queue := LRUFileCachePriority.create 50 50 }

/-- The limits of `q1` are those of `q` and its totals are not larger. -/
def LRUFileCachePriority.Shrinks (q q1 : LRUFileCachePriority) : Prop :=
  q1.max_size = q.max_size ∧ q1.max_elements = q.max_elements ∧
    q1.current_size ≤ q.current_size ∧ q1.current_elements_num ≤ q.current_elements_num

/-- Both totals within the limits. -/
def LRUFileCachePriority.Budget (q : LRUFileCachePriority) : Prop :=
  q.current_size ≤ q.max_size ∧ q.current_elements_num ≤ q.max_elements

/-- The iterator object of an entry that sits in tier `t`. -/
def tagOf (t : Tier) : SLRUIterator := ⟨some t, decide (t = Tier.PROTECTED)⟩

/-- Consistency of the iterator heap `H` with the queue contents `Q` (addresses per tier).
`x` is an iterator that is alive but whose entry is in transit between the queues, as
happens inside `increasePriority` between the removal from the probationary queue and
the insertion into the protected one. -/
structure InvCore (Q : Tier → List Nat) (H : Nat → SLRUIterator) (next : Nat)
    (x : Option Nat) : Prop where
  nodup : ∀ t, (Q t).Nodup
  tag : ∀ t id, id ∈ Q t → H id = tagOf t
  live : ∀ id, (H id).lru_iterator ≠ none → (∃ t, id ∈ Q t) ∨ x = some id
  detached : ∀ id, x = some id → (∀ t, id ∉ Q t) ∧ (H id).lru_iterator ≠ none
  fresh : ∀ id, next ≤ id → (H id).lru_iterator = none

/-- Addresses queued in each tier. -/
def SLRUFileCachePriority.queueIds (s : SLRUFileCachePriority) : Tier → List Nat :=
  fun t => (s.queueOf t).ids

/-- Well-formedness of a policy state: every queued entry has a live iterator that is
tagged with the tier the entry is in and whose inner iterator belongs to that queue, no
address is queued twice, and every live iterator has its entry queued (except `x`). -/
def SLRUFileCachePriority.Inv (x : Option Nat) (s : SLRUFileCachePriority) : Prop :=
  InvCore s.queueIds s.iterators s.next_iterator x

/-- Both queues shrink (keep their limits, totals not larger). -/
def SLRUFileCachePriority.Shrinks (s s1 : SLRUFileCachePriority) : Prop :=
  ∀ t, (s.queueOf t).Shrinks (s1.queueOf t)

/-- A full protected queue `[X, R]` (30 and 20 bytes, addresses 0 and 1) over an empty
probationary queue, 50 bytes per tier. -/
def fullProtected : SLRUFileCachePriority :=
  { protected_queue :=
      { queue := [⟨0, ⟨1, 0, 30, 0⟩⟩, ⟨1, ⟨2, 0, 20, 0⟩⟩],
        max_size := 50, max_elements := 50, current_size := 50, current_elements_num := 2 },
    probationary_queue := LRUFileCachePriority.create 50 50,
    iterators := fun i => if i = 0 ∨ i = 1 then ⟨some Tier.PROTECTED, true⟩ else ⟨none, false⟩,
    next_iterator := 2 }

/-- Lines 162-165 of `increasePriority`: the number of bytes the probationary queue is
asked to free, computed from the statistics of the downgrade candidates and the size of
the promoted entry. -/
def SLRUFileCachePriority.sizeToFree (downgrade_stat : FileCacheReserveStat) (size : Nat) :
    Nat :=
  let size_to_downgrade := downgrade_stat.stat.releasable_count
  if size_to_downgrade ≠ 0 ∧ size_to_downgrade > size then size_to_downgrade - size else 0

/-- The three conditions under which `increasePriority`, for a probationary entry of
`size` bytes, only touches the entry within its queue (lines 135, 151 and 174): the entry
is larger than the protected limit, the protected queue yields no downgrade plan, or the
probationary queue cannot free the shortfall. -/
def SLRUFileCachePriority.fallsBack (s : SLRUFileCachePriority) (releasable : Nat → Bool)
    (size : Nat) : Bool :=
  decide (size > s.protected_queue.getSizeLimit) ||
    (!(s.protected_queue.collectCandidatesForEviction releasable size
        FileCacheReserveStat.empty [] none).1 ||
      (decide (SLRUFileCachePriority.sizeToFree
          (s.protected_queue.collectCandidatesForEviction releasable size
            FileCacheReserveStat.empty [] none).2.1 size ≠ 0) &&
        !(s.probationary_queue.collectCandidatesForEviction releasable
            (SLRUFileCachePriority.sizeToFree
              (s.protected_queue.collectCandidatesForEviction releasable size
                FileCacheReserveStat.empty [] none).2.1 size)
            FileCacheReserveStat.empty [] none).1))

/-- Scenario 6 of the spec: ratio 0.2 of 100 bytes, so the protected queue holds at most
20 bytes and the probationary queue 80; `E` (30 bytes, address 0) is in the probationary
queue. -/
def scenario6 : SLRUFileCachePriority :=
  { protected_queue := LRUFileCachePriority.create 20 20,
    probationary_queue :=
      { queue := [⟨0, ⟨1, 0, 30, 0⟩⟩],
        max_size := 80, max_elements := 80, current_size := 30, current_elements_num := 1 },
    iterators := fun i => if i = 0 then ⟨some Tier.PROBATIONARY, false⟩ else ⟨none, false⟩,
    next_iterator := 1 }

/-- A policy with 50 bytes per tier holding `X` (30 bytes, address 0) in the protected
queue and `B` (30 bytes, address 1) in the probationary queue. -/
def oneEach : SLRUFileCachePriority :=
  { protected_queue :=
      { queue := [⟨0, ⟨1, 0, 30, 0⟩⟩],
        max_size := 50, max_elements := 50, current_size := 30, current_elements_num := 1 },
    probationary_queue :=
      { queue := [⟨1, ⟨2, 0, 30, 0⟩⟩],
        max_size := 50, max_elements := 50, current_size := 30, current_elements_num := 1 },
    iterators := fun i =>
      if i = 0 then ⟨some Tier.PROTECTED, true⟩
      else if i = 1 then ⟨some Tier.PROBATIONARY, false⟩
      else ⟨none, false⟩,
    next_iterator := 2 }

/-- No segment is releasable. -/
def nothingReleasable : Nat → Bool := fun _ => false

/-- An empty policy with 2 bytes and 2 elements per tier: what the constructor builds
from a total of 4 bytes, 4 elements and ratio 0.5. -/
def emptyPolicy2 : SLRUFileCachePriority :=
  { protected_queue := LRUFileCachePriority.create 2 2,
    probationary_queue := LRUFileCachePriority.create 2 2,
    iterators := fun _ => ⟨none, false⟩,
    next_iterator := 0 }

/-- Total size of the entries of a list that a walk may collect: those that are releasable
and are not the reservee. -/
def LRUFileCachePriority.releasableBytes (releasable : Nat → Bool) (reservee : Option Nat) :
    List Node → Nat
  | [] => 0
  | n :: rest =>
    (if reservee ≠ some n.it ∧ releasable n.it = true then n.entry.size else 0) +
      LRUFileCachePriority.releasableBytes releasable reservee rest

/-- A node with its hit count erased. -/
def Node.forgetHits (n : Node) : Node := { n with entry := { n.entry with hits := 0 } }

/-- A queue with the hit counts of its entries erased. -/
def LRUFileCachePriority.forgetHits (q : LRUFileCachePriority) : LRUFileCachePriority :=
  { q with queue := q.queue.map Node.forgetHits }

/-- Two policy states that differ at most in the hit counts of their entries: same
entries in the same order in each queue, same totals and limits, same iterators. -/
def SLRUFileCachePriority.SameUpToHits (s s1 : SLRUFileCachePriority) : Prop :=
  s.protected_queue.forgetHits = s1.protected_queue.forgetHits ∧
  s.probationary_queue.forgetHits = s1.probationary_queue.forgetHits ∧
  s.iterators = s1.iterators ∧ s.next_iterator = s1.next_iterator

/-- The nodes a walk collects, in walk order (the candidates of
`LRUFileCachePriority.collectWalk`, before they are grouped by key). -/
def LRUFileCachePriority.walkNodes (releasable : Nat → Bool) (reservee : Option Nat)
    (size : Nat) : List Node → Nat → List Node
  | [], _ => []
  | n :: rest, gathered =>
    if size ≤ gathered then []
    else if reservee = some n.it then
      LRUFileCachePriority.walkNodes releasable reservee size rest gathered
    else if releasable n.it then
      n :: LRUFileCachePriority.walkNodes releasable reservee size rest (gathered + n.entry.size)
    else LRUFileCachePriority.walkNodes releasable reservee size rest gathered

/-- Sum of the sizes of a list of nodes. -/
def totalSize (l : List Node) : Nat := (l.map (fun n => n.entry.size)).sum

/-- The byte total of a queue is the sum of the sizes of its entries (the first invariant
of section 3 of the spec). -/
def LRUFileCachePriority.SizeConsistent (q : LRUFileCachePriority) : Prop :=
  q.current_size = totalSize q.queue

/-- A full protected queue `[X, R]` (30 and 20 bytes, addresses 0 and 1) over a
probationary queue `[Y]` (40 bytes, address 2), 50 bytes per tier. -/
def bothTiersBusy : SLRUFileCachePriority :=
  { protected_queue :=
      { queue := [⟨0, ⟨1, 0, 30, 0⟩⟩, ⟨1, ⟨2, 0, 20, 0⟩⟩],
        max_size := 50, max_elements := 50, current_size := 50, current_elements_num := 2 },
    probationary_queue :=
      { queue := [⟨2, ⟨3, 0, 40, 0⟩⟩],
        max_size := 50, max_elements := 50, current_size := 40, current_elements_num := 1 },
    iterators := fun i =>
      if i = 0 ∨ i = 1 then ⟨some Tier.PROTECTED, true⟩
      else if i = 2 then ⟨some Tier.PROBATIONARY, false⟩
      else ⟨none, false⟩,
    next_iterator := 3 }

/-! ## The inline key/value extractor: reading a key

`InlineEscapingKeyStateHandler.cpp`.  The input `file` is a list of characters and a
position is an index into it.  The enumeration of states, the configuration record, the
character finder and the reader of escape sequences are declared in headers outside the
sources. -/

/-- The states named by `InlineEscapingKeyStateHandler.cpp` (the enumeration `State`). -/
inductive State where
  | WAITING_KEY
  | READING_KEY
  | READING_ENCLOSED_KEY
  | READING_KV_DELIMITER
  | WAITING_VALUE
  | END
  deriving DecidableEq

/-- The pair `{position, state}` the handlers return. -/
structure NextState where
  position_in_string : Nat
  state : State
  deriving DecidableEq

/-- The record `ExtractorConfiguration`, with the fields in the order of the structured
binding `[key_value_delimiter, pair_delimiters, quoting_characters]`; the two character
sets are only asked for membership. -/
structure ExtractorConfiguration where
  key_value_delimiter : Char
  pair_delimiters : List Char
  quoting_characters : List Char

/-- Function `buildReadRuntimeConfig` (lines 22-36): the escape character, the key-value
delimiter, the quoting characters and the pair delimiters. -/
def buildReadRuntimeConfig (ESCAPE_CHARACTER : Char)
    (configuration : ExtractorConfiguration) : List Char :=
  [ESCAPE_CHARACTER, configuration.key_value_delimiter] ++ configuration.quoting_characters
    ++ configuration.pair_delimiters

/-- Function `buildReadEnclosedRuntimeConfig` (lines 38-49): the escape character and the
quoting characters. -/
def buildReadEnclosedRuntimeConfig (ESCAPE_CHARACTER : Char)
    (configuration : ExtractorConfiguration) : List Char :=
  [ESCAPE_CHARACTER] ++ configuration.quoting_characters

namespace BoundsSafeCharacterFinder

/-- First index, counted from `i`, of a character of `needles` in a list. -/
def find_first_from (needles : List Char) : List Char → Nat → Option Nat
  | [], _ => none
  | c :: rest, i => if needles.contains c then some i else find_first_from needles rest (i + 1)

/-- Modelled from the spec: `find_first(file, pos, needles)` is declared in
`CharacterFinder.h`, outside the sources; it yields the least index at or after `pos`
that holds one of the needles, and nothing when there is none (in particular when `pos`
is not inside `file`). -/
def find_first (file : List Char) (pos : Nat) (needles : List Char) : Option Nat :=
  if pos < file.length then find_first_from needles (file.drop pos) pos else none

end BoundsSafeCharacterFinder

/-- The characters `file[a], …, file[b-1]` that the loops
`for (auto i = pos; i < character_position; i++) key.push_back(file[i]);` append. -/
def slice (file : List Char) (a b : Nat) : List Char := (file.drop a).take (b - a)

namespace InlineEscapingKeyStateHandler

/-- The loop of `InlineEscapingKeyStateHandler::read` (lines 104-149); `fuel` bounds the
number of iterations.  `ESCAPE_CHARACTER` is the constant of `EscapedCharacterReader`
and `escaped_read file character_position` its function `read`, which returns the
position after the escape sequence and the characters it stands for; both are declared
outside the sources. -/
def readLoop (configuration : ExtractorConfiguration) (ESCAPE_CHARACTER : Char)
    (escaped_read : List Char → Nat → Nat × List Char) (file : List Char) :
    Nat → Nat → List Char → Option (NextState × List Char)
  | 0, _, _ => none
  | fuel + 1, pos, key =>
    match BoundsSafeCharacterFinder.find_first file pos
        (buildReadRuntimeConfig ESCAPE_CHARACTER configuration) with
    | none => some (⟨file.length, State.END⟩, key)
    | some character_position =>
      let character := file.getD character_position (Char.ofNat 0)
      let next_pos := character_position + 1
      if character == ESCAPE_CHARACTER then
        let key1 := key ++ slice file pos character_position
        let r := escaped_read file character_position
        if r.2.isEmpty then some (⟨r.1, State.WAITING_KEY⟩, key1)
        else readLoop configuration ESCAPE_CHARACTER escaped_read file fuel r.1 (key1 ++ r.2)
      else if character == configuration.key_value_delimiter then
        some (⟨next_pos, State.WAITING_VALUE⟩, key ++ slice file pos character_position)
      else if configuration.pair_delimiters.contains character then
        some (⟨next_pos, State.WAITING_KEY⟩, key)
      else readLoop configuration ESCAPE_CHARACTER escaped_read file fuel next_pos key

/-- Method `InlineEscapingKeyStateHandler::read` (lines 90-154): clears `key` and runs the
loop; the result is the returned `NextState` and the final `key`.  Every iteration that
continues moves `pos` past the character it found, so `file.length + 1` iterations are
enough when the escape reader moves forward. -/
def read (configuration : ExtractorConfiguration) (ESCAPE_CHARACTER : Char)
    (escaped_read : List Char → Nat → Nat × List Char) (file : List Char) (pos : Nat) :
    Option (NextState × List Char) :=
  readLoop configuration ESCAPE_CHARACTER escaped_read file (file.length + 1) pos []

/-- The loop of `InlineEscapingKeyStateHandler::readEnclosed` (lines 164-209). -/
def readEnclosedLoop (configuration : ExtractorConfiguration) (ESCAPE_CHARACTER : Char)
    (escaped_read : List Char → Nat → Nat × List Char) (file : List Char) :
    Nat → Nat → List Char → Option (NextState × List Char)
  | 0, _, _ => none
  | fuel + 1, pos, key =>
    match BoundsSafeCharacterFinder.find_first file pos
        (buildReadEnclosedRuntimeConfig ESCAPE_CHARACTER configuration) with
    | none => some (⟨file.length, State.END⟩, key)
    | some character_position =>
      let character := file.getD character_position (Char.ofNat 0)
      let next_pos := character_position + 1
      if character == ESCAPE_CHARACTER then
        let key1 := key ++ slice file pos character_position
        let r := escaped_read file character_position
        if r.2.isEmpty then some (⟨r.1, State.WAITING_KEY⟩, key1)
        else
          readEnclosedLoop configuration ESCAPE_CHARACTER escaped_read file fuel r.1
            (key1 ++ r.2)
      else if configuration.quoting_characters.contains character then
        let key1 := key ++ slice file pos character_position
        if key1.isEmpty then some (⟨next_pos, State.WAITING_KEY⟩, key1)
        else some (⟨next_pos, State.READING_KV_DELIMITER⟩, key1)
      else readEnclosedLoop configuration ESCAPE_CHARACTER escaped_read file fuel next_pos key

/-- Method `InlineEscapingKeyStateHandler::readEnclosed` (lines 156-212). -/
def readEnclosed (configuration : ExtractorConfiguration) (ESCAPE_CHARACTER : Char)
    (escaped_read : List Char → Nat → Nat × List Char) (file : List Char) (pos : Nat) :
    Option (NextState × List Char) :=
  readEnclosedLoop configuration ESCAPE_CHARACTER escaped_read file (file.length + 1) pos []

end InlineEscapingKeyStateHandler

/-- Index `i` of `file` holds a character that satisfies `P`. -/
def holds (P : Char → Bool) (file : List Char) (i : Nat) : Bool :=
  match file[i]? with
  | some c => P c
  | none => false

/-- The character is the key-value delimiter or a pair delimiter. -/
def ExtractorConfiguration.isDelimiter (configuration : ExtractorConfiguration)
    (c : Char) : Bool :=
  c == configuration.key_value_delimiter || configuration.pair_delimiters.contains c

/-- A sample configuration: `:` between key and value, `,` between pairs, `*` quotes. -/
def sampleConfiguration : ExtractorConfiguration := ⟨':', [','], ['*']⟩

/-- An escape reader that consumes the escape character and the one after it and yields
that character. -/
def sampleEscapedRead (file : List Char) (pos : Nat) : Nat × List Char :=
  (pos + 2, (file.drop (pos + 1)).take 1)

/-- The input `a*key:v,` for `read`: a stray quoting character at index 1, the key-value
delimiter at index 5. -/
def plainSample : List Char := ['a', '*', 'k', 'e', 'y', ':', 'v', ',']

/-- The input `key*:v` for `readEnclosed`: the closing quoting character at index 3. -/
def enclosedSample : List Char := ['k', 'e', 'y', '*', ':', 'v']

/-! ## Theorems -/

/-- C4: whenever `add` succeeds, the new entry is the MRU entry of the probationary queue
(whatever its size), the returned iterator is tagged probationary and the protected queue
is unchanged. -/
theorem add_enters_probationary (s s1 : SLRUFileCachePriority) (key offset size it : Nat)
    (h : s.add key offset size = .ok (s1, it)) :
    s1.probationary_queue.queue = s.probationary_queue.queue ++ [⟨it, ⟨key, offset, size, 0⟩⟩] ∧
    s1.probationary_queue.current_size = s.probationary_queue.current_size + size ∧
    s1.probationary_queue.current_elements_num = s.probationary_queue.current_elements_num + 1 ∧
    s1.iterators it = ⟨some Tier.PROBATIONARY, false⟩ ∧
    s1.protected_queue = s.protected_queue := by
  unfold SLRUFileCachePriority.add LRUFileCachePriority.add at h
  split at h
  · contradiction
  · rename_i q hq
    split at hq
    · injection hq with hq
      injection h with h
      injection h with h1 h2
      subst h1 h2 hq
      simp
    · contradiction

/-- C4 at a concrete input: adding a 30-byte segment to the empty 50/50 policy. -/
theorem add_enters_probationary_witness :
    ∃ s1, emptyPolicy50.add 7 0 30 = .ok (s1, 0) ∧
      s1.probationary_queue.queue = [⟨0, ⟨7, 0, 30, 0⟩⟩] ∧
      s1.iterators 0 = ⟨some Tier.PROBATIONARY, false⟩ ∧
      s1.protected_queue = emptyPolicy50.protected_queue :=
  ⟨_, rfl, (add_enters_probationary emptyPolicy50 _ 7 0 30 0 rfl).1,
    (add_enters_probationary emptyPolicy50 _ 7 0 30 0 rfl).2.2.2.1,
    (add_enters_probationary emptyPolicy50 _ 7 0 30 0 rfl).2.2.2.2⟩

/-- C7: with `size = 0` the call returns `true`, leaves the candidate set and the
statistics as passed, and does not change the policy (queues and iterators). -/
theorem collect_zero_size (s : SLRUFileCachePriority) (releasable : Nat → Bool)
    (stat : FileCacheReserveStat) (res : EvictionCandidates) (reservee : Option Nat)
    (finalize_eviction_func : FinalizeEvictionFunc) :
    (s.collectCandidatesForEviction releasable 0 stat res reservee finalize_eviction_func).ok
        = true ∧
    (s.collectCandidatesForEviction releasable 0 stat res reservee finalize_eviction_func).res
        = res ∧
    (s.collectCandidatesForEviction releasable 0 stat res reservee finalize_eviction_func).stat
        = stat ∧
    (s.collectCandidatesForEviction releasable 0 stat res reservee finalize_eviction_func).policy
        = s := by
  have walk0 : ∀ (l : List Node) (st : FileCacheReserveStat) (r : EvictionCandidates)
      (rv : Option Nat),
      LRUFileCachePriority.collectWalk releasable rv 0 l 0 st r = (true, st, r) := by
    intro l st r rv
    cases l <;> simp [LRUFileCachePriority.collectWalk]
  have lru0 : ∀ (q : LRUFileCachePriority) (st : FileCacheReserveStat)
      (r : EvictionCandidates) (rv : Option Nat),
      q.collectCandidatesForEviction releasable 0 st r rv = (true, st, r) := by
    intro q st r rv
    unfold LRUFileCachePriority.collectCandidatesForEviction
    split
    · rfl
    · exact walk0 _ _ _ _
  unfold SLRUFileCachePriority.collectCandidatesForEviction
  cases reservee with
  | none => simp [lru0]
  | some it =>
    have e0 : FileCacheReserveStat.empty.stat.releasable_size = 0 := rfl
    simp only [lru0, e0]
    by_cases hp : (s.iterators it).is_protected = true
    · by_cases hf : s.protected_queue.canFit 0 = true
      · simp [hp, hf]
      · by_cases hg : s.probationary_queue.canFit 0 = true
        · simp [hp, hf, hg]
        · simp [hp, hf, hg]
    · simp [hp]

/-- C8: for a reservee tagged protected, when the protected queue can fit `size` the call
returns `true` and leaves the policy, the statistics, the candidate set and the finalize
action exactly as they were passed. -/
theorem collect_protected_fits (s : SLRUFileCachePriority) (releasable : Nat → Bool)
    (size : Nat) (stat : FileCacheReserveStat) (res : EvictionCandidates) (it : Nat)
    (finalize_eviction_func : FinalizeEvictionFunc)
    (hp : (s.iterators it).is_protected = true)
    (hfit : s.protected_queue.canFit size = true) :
    s.collectCandidatesForEviction releasable size stat res (some it) finalize_eviction_func =
      ⟨true, s, stat, res, finalize_eviction_func⟩ := by
  simp [SLRUFileCachePriority.collectCandidatesForEviction, hp, hfit]

/-- C10: when the call returns `false`, the policy (both queues with their order and
totals, every iterator) is the one it was called on and the caller's finalize action is
still in place. -/
theorem collect_false_no_mutation (s : SLRUFileCachePriority) (releasable : Nat → Bool)
    (size : Nat) (stat : FileCacheReserveStat) (res : EvictionCandidates)
    (reservee : Option Nat) (finalize_eviction_func : FinalizeEvictionFunc)
    (h : (s.collectCandidatesForEviction releasable size stat res reservee
            finalize_eviction_func).ok = false) :
    (s.collectCandidatesForEviction releasable size stat res reservee
        finalize_eviction_func).policy = s ∧
    (s.collectCandidatesForEviction releasable size stat res reservee
        finalize_eviction_func).finalize_eviction_func = finalize_eviction_func := by
  unfold SLRUFileCachePriority.collectCandidatesForEviction at h ⊢
  cases reservee with
  | none => exact ⟨rfl, rfl⟩
  | some it =>
    simp only at h ⊢
    split
    · exact ⟨rfl, rfl⟩
    · split
      · exact ⟨rfl, rfl⟩
      · split
        · exact ⟨rfl, rfl⟩
        · split
          · rename_i h1 h2 h3 h4
            simp [h1, h2, h3, h4] at h
          · split
            · exact ⟨rfl, rfl⟩
            · rename_i h1 h2 h3 h4 h5
              simp [h1, h2, h3, h4, h5] at h

/-- C8 at a concrete input: a protected reservee asking for 10 more bytes while the
protected queue holds 30 of its 50 bytes. -/
theorem collect_protected_fits_witness :
    (protectedB.iterators 1).is_protected = true ∧
    protectedB.protected_queue.canFit 10 = true ∧
    protectedB.collectCandidatesForEviction allReleasable 10 FileCacheReserveStat.empty []
      (some 1) none = ⟨true, protectedB, FileCacheReserveStat.empty, [], none⟩ :=
  ⟨rfl, rfl, collect_protected_fits protectedB allReleasable 10 FileCacheReserveStat.empty []
    1 none rfl rfl⟩

/-- C10 at a concrete input: 60 bytes cannot be found in an empty 50-byte queue. -/
theorem collect_false_no_mutation_witness :
    (emptyPolicy50.collectCandidatesForEviction allReleasable 60 FileCacheReserveStat.empty []
        none none).ok = false ∧
    (emptyPolicy50.collectCandidatesForEviction allReleasable 60 FileCacheReserveStat.empty []
        none none).policy = emptyPolicy50 ∧
    (emptyPolicy50.collectCandidatesForEviction allReleasable 60 FileCacheReserveStat.empty []
        none none).finalize_eviction_func = none :=
  ⟨rfl, collect_false_no_mutation emptyPolicy50 allReleasable 60 FileCacheReserveStat.empty []
    none none rfl⟩

/-! ### Arithmetic in `double` -/

theorem roundHalfEven_intCast (z : ℤ) : roundHalfEven (z : ℚ) = z := by
  unfold roundHalfEven
  simp

theorem floor_le_roundHalfEven (q : ℚ) : ⌊q⌋ ≤ roundHalfEven q := by
  unfold roundHalfEven
  split_ifs <;> omega

theorem roundHalfEven_le (q : ℚ) : (roundHalfEven q : ℚ) ≤ q + 1 / 2 := by
  unfold roundHalfEven
  have h1 := Int.floor_le q
  split_ifs with h1 h2 h3
  · linarith
  · push_cast; linarith
  · linarith
  · push_cast
    have : q - ⌊q⌋ = 1 / 2 := le_antisymm (not_lt.mp h2) (not_lt.mp h1)
    linarith

theorem roundHalfEven_nonpos {q : ℚ} (h : q ≤ 0) : roundHalfEven q ≤ 0 := by
  have hf : ⌊q⌋ ≤ 0 := Int.floor_nonpos h
  unfold roundHalfEven
  have hfl := Int.floor_le q
  have hlt := Int.lt_floor_add_one q
  by_cases h0 : ⌊q⌋ = 0
  · have hq : q = 0 := by
      have : (0 : ℚ) ≤ q := by rw [h0] at hfl; simpa using hfl
      exact le_antisymm h this
    subst hq
    simp
  · have : ⌊q⌋ ≤ -1 := by omega
    split_ifs <;> omega

theorem two_zpow_pos (k : ℤ) : (0 : ℚ) < (2 : ℚ) ^ k := zpow_pos (by norm_num) k

theorem roundDouble_zero : roundDouble 0 = 0 := by
  unfold roundDouble
  simp [roundHalfEven]

theorem roundDouble_nonneg {x : ℚ} (h : 0 ≤ x) : 0 ≤ roundDouble x := by
  unfold roundDouble
  have hq : 0 ≤ x / (2 : ℚ) ^ ulpExponent x := div_nonneg h (two_zpow_pos _).le
  have h1 : 0 ≤ ⌊x / (2 : ℚ) ^ ulpExponent x⌋ := Int.floor_nonneg.mpr hq
  have h2 := floor_le_roundHalfEven (x / (2 : ℚ) ^ ulpExponent x)
  have h3 : (0 : ℚ) ≤ (roundHalfEven (x / (2 : ℚ) ^ ulpExponent x) : ℚ) := by
    exact_mod_cast le_trans h1 h2
  exact mul_nonneg h3 (two_zpow_pos _).le

theorem roundDouble_nonpos {x : ℚ} (h : x ≤ 0) : roundDouble x ≤ 0 := by
  unfold roundDouble
  have hq : x / (2 : ℚ) ^ ulpExponent x ≤ 0 := div_nonpos_of_nonpos_of_nonneg h (two_zpow_pos _).le
  have h3 : (roundHalfEven (x / (2 : ℚ) ^ ulpExponent x) : ℚ) ≤ 0 := by
    exact_mod_cast roundHalfEven_nonpos hq
  exact mul_nonpos_of_nonpos_of_nonneg h3 (two_zpow_pos _).le

/-- A value that is a whole number of units in the last place is a `double`. -/
theorem roundDouble_exact (x : ℚ) (z : ℤ) (h : x = z * (2 : ℚ) ^ ulpExponent x) :
    roundDouble x = x := by
  unfold roundDouble
  have hq : x / (2 : ℚ) ^ ulpExponent x = z := by
    rw [div_eq_iff (two_zpow_pos _).ne']
    exact h
  rw [hq, roundHalfEven_intCast]
  exact h.symm

theorem ulpExponent_natCast (n : ℕ) : ulpExponent (n : ℚ) = max ((Nat.log 2 n : ℤ) - 52) (-1074) := by
  unfold ulpExponent
  rw [abs_of_nonneg (Nat.cast_nonneg n), Int.log_natCast]

theorem roundDouble_natCast (n : ℕ) (h : n < 2 ^ 53) : roundDouble (n : ℚ) = n := by
  have hlog : Nat.log 2 n ≤ 52 := by
    rcases Nat.eq_zero_or_pos n with h0 | h0
    · subst h0; simp
    · have := Nat.log_lt_of_lt_pow h0.ne' h
      omega
  have hu : ulpExponent (n : ℚ) = (Nat.log 2 n : ℤ) - 52 := by
    rw [ulpExponent_natCast]
    exact max_eq_left (by omega)
  apply roundDouble_exact (n : ℚ) ((n * 2 ^ (52 - Nat.log 2 n) : ℕ) : ℤ)
  rw [hu]
  have h2 : ((Nat.log 2 n : ℤ) - 52) = -((52 - Nat.log 2 n : ℕ) : ℤ) := by
    omega
  rw [h2, zpow_neg, zpow_natCast]
  push_cast
  field_simp

theorem floor_mul_zpow_le (x : ℚ) (k : ℤ) :
    (⌊x / (2 : ℚ) ^ k⌋ : ℚ) * (2 : ℚ) ^ k ≤ roundHalfEven (x / (2 : ℚ) ^ k) * (2 : ℚ) ^ k := by
  have h : (⌊x / (2 : ℚ) ^ k⌋ : ℚ) ≤ roundHalfEven (x / (2 : ℚ) ^ k) := by
    exact_mod_cast floor_le_roundHalfEven _
  exact mul_le_mul_of_nonneg_right h (two_zpow_pos k).le

theorem one_le_roundDouble {x : ℚ} (h : 1 ≤ x) : 1 ≤ roundDouble x := by
  have hx : 0 < x := by linarith
  have he : 0 ≤ Int.log 2 x := by
    rw [Int.log_of_one_le_right 2 h]
    exact Int.natCast_nonneg _
  have hle : (2 : ℚ) ^ Int.log 2 x ≤ x := by
    have := Int.zpow_log_le_self (b := 2) (r := x) (by norm_num) hx
    simpa using this
  have hu : ulpExponent x ≤ Int.log 2 x := by
    unfold ulpExponent
    rw [abs_of_pos hx]
    exact max_le (by omega) (by omega)
  -- the quotient of the two powers is a whole number
  obtain ⟨d, hd⟩ := Int.eq_ofNat_of_zero_le (sub_nonneg.mpr hu)
  have hpow : (2 : ℚ) ^ Int.log 2 x = ((2 ^ d : ℕ) : ℚ) * (2 : ℚ) ^ ulpExponent x := by
    have : Int.log 2 x = (d : ℤ) + ulpExponent x := by omega
    rw [this, zpow_add₀ (by norm_num), zpow_natCast]
    push_cast
    rfl
  have hq : ((2 ^ d : ℕ) : ℚ) ≤ x / (2 : ℚ) ^ ulpExponent x := by
    rw [le_div_iff₀ (two_zpow_pos _)]
    rw [← hpow]
    exact hle
  have hfl : ((2 ^ d : ℕ) : ℤ) ≤ ⌊x / (2 : ℚ) ^ ulpExponent x⌋ := by
    rw [Int.le_floor]
    exact_mod_cast hq
  have hr : ((2 ^ d : ℕ) : ℤ) ≤ roundHalfEven (x / (2 : ℚ) ^ ulpExponent x) :=
    le_trans hfl (floor_le_roundHalfEven _)
  have hr2 : ((2 ^ d : ℕ) : ℚ) ≤ (roundHalfEven (x / (2 : ℚ) ^ ulpExponent x) : ℚ) := by
    exact_mod_cast hr
  have h1 : (1 : ℚ) ≤ (2 : ℚ) ^ Int.log 2 x := one_le_zpow₀ (by norm_num) he
  unfold roundDouble
  calc (1 : ℚ) ≤ (2 : ℚ) ^ Int.log 2 x := h1
    _ = ((2 ^ d : ℕ) : ℚ) * (2 : ℚ) ^ ulpExponent x := hpow
    _ ≤ _ := mul_le_mul_of_nonneg_right hr2 (two_zpow_pos _).le

/-- The error of rounding a positive value: at most half a unit in the last place, that
is `x * 2^-53`, or `2^-1075` among the subnormal numbers. -/
theorem roundDouble_le {x : ℚ} (h : 0 ≤ x) :
    roundDouble x ≤ x + x * (2 : ℚ) ^ (-53 : ℤ) + (2 : ℚ) ^ (-1075 : ℤ) := by
  rcases h.eq_or_lt with h0 | hx
  · subst h0
    rw [roundDouble_zero]
    have := two_zpow_pos (-1075)
    simp only [zero_mul, add_zero, zero_add]
    exact this.le
  have hle : (2 : ℚ) ^ Int.log 2 x ≤ x := by
    have := Int.zpow_log_le_self (b := 2) (r := x) (by norm_num) hx
    simpa using this
  have hr := roundHalfEven_le (x / (2 : ℚ) ^ ulpExponent x)
  have hp := two_zpow_pos (ulpExponent x)
  have h1 : roundDouble x ≤ x + (2 : ℚ) ^ ulpExponent x / 2 := by
    unfold roundDouble
    have := mul_le_mul_of_nonneg_right hr hp.le
    rw [add_mul, div_mul_cancel₀ _ hp.ne'] at this
    linarith
  have h2 : (2 : ℚ) ^ ulpExponent x / 2 ≤ x * (2 : ℚ) ^ (-53 : ℤ) + (2 : ℚ) ^ (-1075 : ℤ) := by
    unfold ulpExponent
    rw [abs_of_pos hx]
    rcases le_total (Int.log 2 x - 52) (-1074) with hc | hc
    · rw [max_eq_right hc]
      have e : (2 : ℚ) ^ (-1074 : ℤ) / 2 = (2 : ℚ) ^ (-1075 : ℤ) := by
        rw [show (-1074 : ℤ) = -1075 + 1 by norm_num, zpow_add₀ (by norm_num)]
        simp
      rw [e]
      have := mul_nonneg hx.le (two_zpow_pos (-53)).le
      linarith
    · rw [max_eq_left hc]
      have e : (2 : ℚ) ^ (Int.log 2 x - 52) / 2 = (2 : ℚ) ^ Int.log 2 x * (2 : ℚ) ^ (-53 : ℤ) := by
        rw [show Int.log 2 x - 52 = Int.log 2 x + -53 + 1 by ring, zpow_add₀ (by norm_num),
          zpow_add₀ (by norm_num)]
        simp
      rw [e]
      have := mul_le_mul_of_nonneg_right hle (two_zpow_pos (-53)).le
      have := two_zpow_pos (-1075)
      linarith
  calc roundDouble x ≤ x + (2 : ℚ) ^ ulpExponent x / 2 := h1
    _ ≤ x + (x * (2 : ℚ) ^ (-53 : ℤ) + (2 : ℚ) ^ (-1075 : ℤ)) := add_le_add_left h2 x
    _ = x + x * (2 : ℚ) ^ (-53 : ℤ) + (2 : ℚ) ^ (-1075 : ℤ) := (add_assoc _ _ _).symm

theorem getRatio_eq_of_natCast (total m : ℕ) (ratio : ℚ) (ht : total < 2 ^ 53)
    (hm : m < 2 ^ 53) (h : (total : ℚ) * max 0 (min 1 ratio) = m) :
    getRatio total ratio = m := by
  unfold getRatio
  rw [roundDouble_natCast total ht, h, roundDouble_natCast m hm]
  simp

theorem roundDouble_one_half : roundDouble (1 / 2) = 1 / 2 := by
  have hu : ulpExponent (1 / 2) = -53 := by
    unfold ulpExponent
    have : |(1 / 2 : ℚ)| = ((2 : ℕ) : ℚ) ^ (-1 : ℤ) := by
      rw [abs_of_pos (by norm_num)]
      norm_num
    rw [this, Int.log_zpow (by norm_num)]
    norm_num
  apply roundDouble_exact (1 / 2) (2 ^ 52)
  rw [hu]
  norm_num

theorem getRatio_100_half : getRatio 100 (1 / 2) = 50 :=
  getRatio_eq_of_natCast 100 50 (1 / 2) (by norm_num) (by norm_num) (by norm_num)

theorem getRatio_100_one_sub_half : getRatio 100 (roundDouble (1 - 1 / 2)) = 50 := by
  rw [show (1 : ℚ) - 1 / 2 = 1 / 2 by norm_num, roundDouble_one_half]
  exact getRatio_100_half

/-- The constructor with 100 bytes, 100 elements and ratio 0.5 builds the 50/50 policy. -/
theorem create_100_half : SLRUFileCachePriority.create 100 100 (1 / 2) = emptyPolicy50 := by
  unfold SLRUFileCachePriority.create emptyPolicy50
  rw [getRatio_100_half, getRatio_100_one_sub_half]

/-- C3 at the failing input: in a policy with 50 bytes per tier, `X` (30 bytes) is added
and promoted, then `B` (30 bytes) is added, so that protected = `[X]` and probationary =
`[B]`.  `touch(B)` promotes `B` (and demotes `X`); `B` is then the MRU entry of the
protected queue, but the hit count the touch returns and stores is still 0, the value
before the call. -/
theorem touch_promotion_keeps_hits :
    ∃ s, Reachable (SLRUFileCachePriority.create 100 100 (1 / 2)) s ∧
      s.protected_queue.queue = [⟨0, ⟨1, 0, 30, 0⟩⟩] ∧
      s.probationary_queue.queue = [⟨1, ⟨2, 0, 30, 0⟩⟩] ∧
      SLRUIterator.getEntry s 1 = .ok ⟨2, 0, 30, 0⟩ ∧
      ∃ s1, SLRUIterator.increasePriority s allReleasable 1 = .ok (s1, 0) ∧
        SLRUIterator.getEntry s1 1 = .ok ⟨2, 0, 30, 0⟩ ∧
        s1.protected_queue.queue = [⟨1, ⟨2, 0, 30, 0⟩⟩] ∧
        s1.probationary_queue.queue = [⟨0, ⟨1, 0, 30, 0⟩⟩] := by
  have h : ∃ sa, step (SLRUFileCachePriority.create 100 100 (1 / 2)) allReleasable
      (Call.add 1 0 30) = .ok sa ∧
      ∃ sb, step sa allReleasable (Call.touch 0) = .ok sb ∧
      ∃ s, step sb allReleasable (Call.add 2 0 30) = .ok s ∧
        s.protected_queue.queue = [⟨0, ⟨1, 0, 30, 0⟩⟩] ∧
        s.probationary_queue.queue = [⟨1, ⟨2, 0, 30, 0⟩⟩] ∧
        SLRUIterator.getEntry s 1 = .ok ⟨2, 0, 30, 0⟩ ∧
        ∃ s1, SLRUIterator.increasePriority s allReleasable 1 = .ok (s1, 0) ∧
          SLRUIterator.getEntry s1 1 = .ok ⟨2, 0, 30, 0⟩ ∧
          s1.protected_queue.queue = [⟨1, ⟨2, 0, 30, 0⟩⟩] ∧
          s1.probationary_queue.queue = [⟨0, ⟨1, 0, 30, 0⟩⟩] := by
    rw [create_100_half]
    exact ⟨_, rfl, _, rfl, _, rfl, rfl, rfl, rfl, _, rfl, rfl, rfl, rfl⟩
  obtain ⟨sa, ha, sb, hb, s, hs, h1, h2, h3, h4⟩ := h
  exact ⟨s, ReachableVia.call allReleasable (Call.add 2 0 30)
    (ReachableVia.call allReleasable (Call.touch 0)
      (ReachableVia.call allReleasable (Call.add 1 0 30) ReachableVia.init ha trivial)
      hb trivial) hs trivial, h1, h2, h3, h4⟩

/-- C6, refuted as stated: from protected = `[B]`, probationary = `[A, C]` (30 bytes each,
50 bytes per tier) `touch(A)` does not give protected = `[B, A]`, probationary = `[C]`. -/
theorem scenario4_not_as_claimed :
    ¬ ∃ s1 hits, SLRUIterator.increasePriority scenario4 allReleasable 0 = .ok (s1, hits) ∧
        s1.protected_queue.ids = [1, 0] ∧ s1.probationary_queue.ids = [2] := by
  rintro ⟨s1, hits, h, hp, -⟩
  have e : ∃ s2, SLRUIterator.increasePriority scenario4 allReleasable 0 = .ok (s2, 0) ∧
      s2.protected_queue.ids = [0] := ⟨_, rfl, rfl⟩
  obtain ⟨s2, h2, hp2⟩ := e
  rw [h2] at h
  injection h with h
  injection h with h _
  subst h
  rw [hp2] at hp
  exact absurd hp (by decide)

/-- C6 as amended: in the state of scenario 4, when `B` is releasable, `touch(A)` demotes
`B`: protected becomes `[A]`, probationary becomes `[C, B]`, `A` is tagged protected
and `B` probationary. -/
theorem scenario4_demotes_B (releasable : Nat → Bool) (hB : releasable 1 = true) :
    ∃ s1 hits, SLRUIterator.increasePriority scenario4 releasable 0 = .ok (s1, hits) ∧
      s1.protected_queue.queue = [⟨0, ⟨1, 0, 30, 0⟩⟩] ∧
      s1.probationary_queue.queue = [⟨2, ⟨3, 0, 30, 0⟩⟩, ⟨1, ⟨2, 0, 30, 0⟩⟩] ∧
      s1.iterators 0 = ⟨some Tier.PROTECTED, true⟩ ∧
      s1.iterators 1 = ⟨some Tier.PROBATIONARY, false⟩ ∧
      s1.iterators 2 = ⟨some Tier.PROBATIONARY, false⟩ := by
  have hd : scenario4.protected_queue.collectCandidatesForEviction releasable 30
      FileCacheReserveStat.empty [] none = (true, ⟨⟨30, 1⟩⟩, [(2, [1])]) := by
    simp [LRUFileCachePriority.collectCandidatesForEviction, LRUFileCachePriority.canFit,
      LRUFileCachePriority.collectWalk, scenario4, hB, FileCacheReserveStat.update,
      FileCacheReserveStat.empty, EvictionCandidates.add]
  have hi : SLRUFileCachePriority.increasePriority scenario4 releasable 0 =
      SLRUFileCachePriority.promote scenario4 0 [(2, [1])] := by
    have hg : SLRUIterator.getEntry scenario4 0 = .ok ⟨1, 0, 30, 0⟩ := rfl
    have ht : (scenario4.iterators 0).is_protected = false := rfl
    have hl : scenario4.protected_queue.getSizeLimit = 50 := rfl
    unfold SLRUFileCachePriority.increasePriority
    simp [hg, ht, hl, hd]
  have hs : SLRUIterator.assertValid scenario4 0 = .ok () := rfl
  unfold SLRUIterator.increasePriority
  rw [hs, hi]
  exact ⟨_, _, rfl, rfl, rfl, rfl, rfl, rfl⟩

/-- C6 as amended, at a concrete input: every segment releasable. -/
theorem scenario4_demotes_B_witness :
    allReleasable 1 = true ∧
    ∃ s1 hits, SLRUIterator.increasePriority scenario4 allReleasable 0 = .ok (s1, hits) ∧
      s1.protected_queue.queue = [⟨0, ⟨1, 0, 30, 0⟩⟩] ∧
      s1.probationary_queue.queue = [⟨2, ⟨3, 0, 30, 0⟩⟩, ⟨1, ⟨2, 0, 30, 0⟩⟩] ∧
      s1.iterators 0 = ⟨some Tier.PROTECTED, true⟩ ∧
      s1.iterators 1 = ⟨some Tier.PROBATIONARY, false⟩ ∧
      s1.iterators 2 = ⟨some Tier.PROBATIONARY, false⟩ :=
  ⟨rfl, scenario4_demotes_B allReleasable rfl⟩

/-! ### Queue-level facts -/

theorem ids_eraseP (l : List Node) (it : Nat) :
    (l.eraseP (fun m => m.it == it)).map (fun n => n.it) = (l.map (fun n => n.it)).erase it := by
  induction l with
  | nil => rfl
  | cons a l ih =>
    by_cases h : a.it = it
    · simp [List.eraseP_cons, h]
    · have h1 : (a.it == it) = false := by simpa using h
      simp [List.eraseP_cons, h1, List.erase_cons, ih]

theorem LRUFileCachePriority.find_some {q : LRUFileCachePriority} {it : Nat} {n : Node}
    (h : q.find it = some n) : n.it = it ∧ n ∈ q.queue := by
  unfold LRUFileCachePriority.find at h
  have h1 := List.find?_some h
  have h2 := List.mem_of_find?_eq_some h
  exact ⟨by simpa using h1, h2⟩

theorem LRUFileCachePriority.find_mem_ids {q : LRUFileCachePriority} {it : Nat} {n : Node}
    (h : q.find it = some n) : it ∈ q.ids := by
  obtain ⟨h1, h2⟩ := LRUFileCachePriority.find_some h
  unfold LRUFileCachePriority.ids
  exact List.mem_map.mpr ⟨n, h2, h1⟩

theorem LRUFileCachePriority.find_of_mem_ids {q : LRUFileCachePriority} {it : Nat}
    (h : it ∈ q.ids) : ∃ n, q.find it = some n := by
  unfold LRUFileCachePriority.ids at h
  obtain ⟨n, hn, hit⟩ := List.mem_map.mp h
  cases hf : q.find it with
  | some m => exact ⟨m, rfl⟩
  | none =>
    unfold LRUFileCachePriority.find at hf
    have := List.find?_eq_none.mp hf n hn
    simp [hit] at this

theorem LRUFileCachePriority.shrinks_refl (q : LRUFileCachePriority) : q.Shrinks q :=
  ⟨rfl, rfl, le_refl _, le_refl _⟩

theorem LRUFileCachePriority.shrinks_trans {q q1 q2 : LRUFileCachePriority}
    (h1 : q.Shrinks q1) (h2 : q1.Shrinks q2) : q.Shrinks q2 :=
  ⟨h2.1.trans h1.1, h2.2.1.trans h1.2.1, le_trans h2.2.2.1 h1.2.2.1,
    le_trans h2.2.2.2 h1.2.2.2⟩

theorem LRUFileCachePriority.shrinks_budget {q q1 : LRUFileCachePriority}
    (h : q.Shrinks q1) (hb : q.Budget) : q1.Budget := by
  unfold LRUFileCachePriority.Budget at *
  obtain ⟨a, b, c, d⟩ := h
  rw [a, b]
  exact ⟨le_trans c hb.1, le_trans d hb.2⟩

theorem LRUFileCachePriority.remove_ok {q q1 : LRUFileCachePriority} {it : Nat}
    (h : q.remove it = .ok q1) :
    it ∈ q.ids ∧ q1.ids = q.ids.erase it ∧ q.Shrinks q1 := by
  unfold LRUFileCachePriority.remove at h
  split at h
  · contradiction
  · rename_i n hn
    injection h with h
    subst h
    refine ⟨LRUFileCachePriority.find_mem_ids hn, ?_, rfl, rfl, ?_, ?_⟩
    · exact ids_eraseP _ _
    · exact Nat.sub_le _ _
    · exact Nat.sub_le _ _

theorem LRUFileCachePriority.increasePriority_ok {q q1 : LRUFileCachePriority} {it : Nat}
    (h : q.increasePriority it = .ok q1) :
    it ∈ q.ids ∧ q1.ids = q.ids.erase it ++ [it] ∧ q.Shrinks q1 := by
  unfold LRUFileCachePriority.increasePriority at h
  split at h
  · contradiction
  · rename_i n hn
    injection h with h
    subst h
    refine ⟨LRUFileCachePriority.find_mem_ids hn, ?_, rfl, rfl, le_refl _, le_refl _⟩
    have := (LRUFileCachePriority.find_some hn).1
    simp [LRUFileCachePriority.ids, ids_eraseP, this]

theorem LRUFileCachePriority.updateSize_ok {q q1 : LRUFileCachePriority} {it : Nat}
    {delta : Int} (h : q.updateSize it delta = .ok q1) :
    it ∈ q.ids ∧ q1.ids = q.ids := by
  unfold LRUFileCachePriority.updateSize at h
  split at h
  · contradiction
  · rename_i n hn
    injection h with h
    subst h
    refine ⟨LRUFileCachePriority.find_mem_ids hn, ?_⟩
    simp only [LRUFileCachePriority.ids, List.map_map]
    apply List.map_congr_left
    intro a _
    by_cases ha : a.it = it <;> simp [ha]

theorem LRUFileCachePriority.add_ok {q q1 : LRUFileCachePriority} {n : Node}
    (h : q.add n = .ok q1) :
    q1.ids = q.ids ++ [n.it] ∧ q1.Budget ∧
      q1.max_size = q.max_size ∧ q1.max_elements = q.max_elements := by
  unfold LRUFileCachePriority.add at h
  split at h
  · rename_i hf
    injection h with h
    subst h
    unfold LRUFileCachePriority.canFit at hf
    simp only [Bool.and_eq_true, decide_eq_true_eq] at hf
    exact ⟨by simp [LRUFileCachePriority.ids], hf, rfl, rfl⟩
  · contradiction

theorem LRUFileCachePriority.move_ok {q other q1 o1 : LRUFileCachePriority} {it : Nat}
    (h : q.move it other = .ok (q1, o1)) :
    it ∈ other.ids ∧ q1.ids = q.ids ++ [it] ∧ o1.ids = other.ids.erase it ∧
      other.Shrinks o1 ∧ q1.max_size = q.max_size ∧ q1.max_elements = q.max_elements := by
  unfold LRUFileCachePriority.move at h
  split at h
  · contradiction
  · rename_i n hn
    injection h with h
    injection h with h1 h2
    subst h1 h2
    have := (LRUFileCachePriority.find_some hn).1
    refine ⟨LRUFileCachePriority.find_mem_ids hn, by simp [LRUFileCachePriority.ids, this],
      ids_eraseP _ _, ⟨rfl, rfl, Nat.sub_le _ _, Nat.sub_le _ _⟩, rfl, rfl⟩

/-! ### The heap invariant under the elementary moves -/

theorem mem_erase_append_self {l : List Nat} {a b : Nat} (ha : a ∈ l) :
    b ∈ l.erase a ++ [a] ↔ b ∈ l := by
  by_cases hb : b = a
  · subst hb; simp [ha]
  · simp [hb, List.mem_erase_of_ne hb]

theorem nodup_erase_append_self {l : List Nat} {a : Nat} (h : l.Nodup) :
    (l.erase a ++ [a]).Nodup := by
  rw [List.nodup_append]
  refine ⟨h.erase a, List.nodup_singleton a, ?_⟩
  intro b hb hb2
  have : b = a := by simpa using hb2
  subst this
  exact (h.mem_erase_iff.mp hb).1 rfl

theorem tagOf_injective {t u : Tier} (h : tagOf t = tagOf u) : t = u := by
  unfold tagOf at h
  injection h with h1 _
  injection h1

theorem InvCore.mem_unique {Q : Tier → List Nat} {H : Nat → SLRUIterator} {next : Nat}
    {x : Option Nat} (inv : InvCore Q H next x) {t u : Tier} {id : Nat}
    (ht : id ∈ Q t) (hu : id ∈ Q u) : t = u :=
  tagOf_injective ((inv.tag t id ht).symm.trans (inv.tag u id hu))

theorem InvCore.mem_live {Q : Tier → List Nat} {H : Nat → SLRUIterator} {next : Nat}
    {x : Option Nat} (inv : InvCore Q H next x) {t : Tier} {id : Nat}
    (ht : id ∈ Q t) : (H id).lru_iterator = some t := by
  rw [inv.tag t id ht]; rfl

theorem InvCore.lt_next {Q : Tier → List Nat} {H : Nat → SLRUIterator} {next : Nat}
    {x : Option Nat} (inv : InvCore Q H next x) {id : Nat}
    (h : (H id).lru_iterator ≠ none) : id < next := by
  by_contra hlt
  exact h (inv.fresh id (Nat.le_of_not_lt hlt))

/-- An in-tier touch. -/
theorem InvCore.touch {Q : Tier → List Nat} {H : Nat → SLRUIterator} {next : Nat}
    {x : Option Nat} (inv : InvCore Q H next x) (t : Tier) {a : Nat} (ha : a ∈ Q t) :
    InvCore (Function.update Q t ((Q t).erase a ++ [a])) H next x := by
  have hmem : ∀ u id, id ∈ Function.update Q t ((Q t).erase a ++ [a]) u ↔ id ∈ Q u := by
    intro u id
    by_cases hu : u = t
    · subst hu; simp [mem_erase_append_self ha]
    · simp [Function.update_noteq hu]
  refine ⟨?_, ?_, ?_, ?_, inv.fresh⟩
  · intro u
    by_cases hu : u = t
    · subst hu; simpa using nodup_erase_append_self (inv.nodup u)
    · simpa [Function.update_noteq hu] using inv.nodup u
  · intro u id hid
    exact inv.tag u id ((hmem u id).mp hid)
  · intro id hid
    rcases inv.live id hid with ⟨u, hu⟩ | hx
    · exact Or.inl ⟨u, (hmem u id).mpr hu⟩
    · exact Or.inr hx
  · intro id hx
    refine ⟨fun u hu => (inv.detached id hx).1 u ((hmem u id).mp hu), (inv.detached id hx).2⟩

/-- Unlinking an entry while its iterator stays alive: the iterator becomes the one in
transit. -/
theorem InvCore.detach {Q : Tier → List Nat} {H : Nat → SLRUIterator} {next : Nat}
    (inv : InvCore Q H next none) (t : Tier) {a : Nat} (ha : a ∈ Q t) :
    InvCore (Function.update Q t ((Q t).erase a)) H next (some a) := by
  have hsub : ∀ u id, id ∈ Function.update Q t ((Q t).erase a) u → id ∈ Q u ∧ id ≠ a := by
    intro u id h
    by_cases hu : u = t
    · subst hu
      simp only [Function.update_same] at h
      have := (inv.nodup u).mem_erase_iff.mp h
      exact ⟨this.2, this.1⟩
    · rw [Function.update_noteq hu] at h
      refine ⟨h, ?_⟩
      rintro rfl
      exact hu (inv.mem_unique h ha)
  have hsup : ∀ u id, id ∈ Q u → id ≠ a → id ∈ Function.update Q t ((Q t).erase a) u := by
    intro u id h hne
    by_cases hu : u = t
    · subst hu
      simp only [Function.update_same]
      exact (inv.nodup u).mem_erase_iff.mpr ⟨hne, h⟩
    · rwa [Function.update_noteq hu]
  refine ⟨?_, ?_, ?_, ?_, inv.fresh⟩
  · intro u
    by_cases hu : u = t
    · subst hu; simpa using (inv.nodup u).erase a
    · simpa [Function.update_noteq hu] using inv.nodup u
  · intro u id hid
    exact inv.tag u id (hsub u id hid).1
  · intro id hid
    by_cases hne : id = a
    · exact Or.inr (by rw [hne])
    · rcases inv.live id hid with ⟨u, hu⟩ | hx
      · exact Or.inl ⟨u, hsup u id hu hne⟩
      · exact absurd hx (by simp)
  · intro id hx
    have : a = id := by simpa using hx
    subst this
    refine ⟨fun u hu => (hsub u a hu).2 rfl, ?_⟩
    rw [inv.mem_live ha]; simp

/-- Retargeting the iterator in transit to the tier its entry is appended to. -/
theorem InvCore.attach {Q : Tier → List Nat} {H : Nat → SLRUIterator} {next : Nat}
    {a : Nat} (inv : InvCore Q H next (some a)) (t : Tier) :
    InvCore (Function.update Q t (Q t ++ [a])) (Function.update H a (tagOf t)) next none := by
  have hout := (inv.detached a rfl).1
  have hmem : ∀ u id, id ∈ Function.update Q t (Q t ++ [a]) u ↔
      (id ∈ Q u ∨ (u = t ∧ id = a)) := by
    intro u id
    by_cases hu : u = t
    · subst hu; simp
    · simp [Function.update_noteq hu, hu]
  refine ⟨?_, ?_, ?_, ?_, ?_⟩
  · intro u
    by_cases hu : u = t
    · subst hu
      simp only [Function.update_same]
      rw [List.nodup_append]
      refine ⟨inv.nodup u, List.nodup_singleton a, ?_⟩
      intro b hb hb2
      have : b = a := by simpa using hb2
      subst this
      exact hout u hb
    · simpa [Function.update_noteq hu] using inv.nodup u
  · intro u id hid
    rcases (hmem u id).mp hid with h | ⟨hu, hida⟩
    · have hne : id ≠ a := by rintro rfl; exact hout u h
      rw [Function.update_noteq hne]
      exact inv.tag u id h
    · subst hu hida
      simp
  · intro id hid
    by_cases hne : id = a
    · subst hne
      exact Or.inl ⟨t, (hmem t id).mpr (Or.inr ⟨rfl, rfl⟩)⟩
    · rw [Function.update_noteq hne] at hid
      rcases inv.live id hid with ⟨u, hu⟩ | hx
      · exact Or.inl ⟨u, (hmem u id).mpr (Or.inl hu)⟩
      · exact absurd (by simpa using hx) (Ne.symm hne)
  · intro id hx
    exact absurd hx (by simp)
  · intro id hid
    have hlt := inv.lt_next (inv.detached a rfl).2
    have hne : id ≠ a := by omega
    rw [Function.update_noteq hne]
    exact inv.fresh id hid

/-- Nulling the inner iterator of the iterator in transit. -/
theorem InvCore.drop {Q : Tier → List Nat} {H : Nat → SLRUIterator} {next : Nat}
    {a : Nat} (inv : InvCore Q H next (some a)) (v : SLRUIterator)
    (hv : v.lru_iterator = none) :
    InvCore Q (Function.update H a v) next none := by
  have hout := (inv.detached a rfl).1
  refine ⟨inv.nodup, ?_, ?_, ?_, ?_⟩
  · intro u id hid
    have hne : id ≠ a := by rintro rfl; exact hout u hid
    rw [Function.update_noteq hne]
    exact inv.tag u id hid
  · intro id hid
    by_cases hne : id = a
    · subst hne
      simp [hv] at hid
    · rw [Function.update_noteq hne] at hid
      rcases inv.live id hid with ⟨u, hu⟩ | hx
      · exact Or.inl ⟨u, hu⟩
      · exact absurd (by simpa using hx) (Ne.symm hne)
  · intro id hx
    exact absurd hx (by simp)
  · intro id hid
    by_cases hne : id = a
    · subst hne; simp [hv]
    · rw [Function.update_noteq hne]
      exact inv.fresh id hid

/-- Moving a queued entry to the MRU end of another tier and retargeting its iterator. -/
theorem InvCore.move {Q : Tier → List Nat} {H : Nat → SLRUIterator} {next : Nat}
    {x : Option Nat} (inv : InvCore Q H next x) {src dst : Tier} (hne : dst ≠ src)
    {c : Nat} (hc : c ∈ Q src) :
    InvCore (Function.update (Function.update Q src ((Q src).erase c)) dst (Q dst ++ [c]))
      (Function.update H c (tagOf dst)) next x := by
  have hsd : src ≠ dst := fun h => hne h.symm
  have hcdst : c ∉ Q dst := fun h => hne (inv.mem_unique h hc)
  have hmem : ∀ u id,
      id ∈ Function.update (Function.update Q src ((Q src).erase c)) dst (Q dst ++ [c]) u ↔
        ((id ∈ Q u ∧ id ≠ c) ∨ (u = dst ∧ id = c)) := by
    intro u id
    by_cases hu : u = dst
    · subst hu
      simp only [Function.update_same, List.mem_append, List.mem_singleton, true_and]
      constructor
      · rintro (h | h)
        · exact Or.inl ⟨h, fun e => hcdst (e ▸ h)⟩
        · exact Or.inr h
      · rintro (h | h)
        · exact Or.inl h.1
        · exact Or.inr h
    · rw [Function.update_noteq hu]
      by_cases hu2 : u = src
      · subst hu2
        simp only [Function.update_same, hu, false_and, or_false]
        rw [(inv.nodup u).mem_erase_iff]
        exact And.comm
      · rw [Function.update_noteq hu2]
        simp only [hu, false_and, or_false]
        constructor
        · intro h
          exact ⟨h, fun e => hu2 (inv.mem_unique (e ▸ h) hc)⟩
        · exact fun h => h.1
  refine ⟨?_, ?_, ?_, ?_, ?_⟩
  · intro u
    by_cases hu : u = dst
    · subst hu
      simp only [Function.update_same]
      rw [List.nodup_append]
      refine ⟨inv.nodup u, List.nodup_singleton c, ?_⟩
      intro b hb hb2
      have : b = c := by simpa using hb2
      subst this
      exact hcdst hb
    · rw [Function.update_noteq hu]
      by_cases hu2 : u = src
      · subst hu2; simpa using (inv.nodup u).erase c
      · simpa [Function.update_noteq hu2] using inv.nodup u
  · intro u id hid
    rcases (hmem u id).mp hid with ⟨h, hidc⟩ | ⟨hu, hidc⟩
    · rw [Function.update_noteq hidc]
      exact inv.tag u id h
    · subst hu hidc
      simp
  · intro id hid
    by_cases hidc : id = c
    · subst hidc
      exact Or.inl ⟨dst, (hmem dst id).mpr (Or.inr ⟨rfl, rfl⟩)⟩
    · rw [Function.update_noteq hidc] at hid
      rcases inv.live id hid with ⟨u, hu⟩ | hx
      · exact Or.inl ⟨u, (hmem u id).mpr (Or.inl ⟨hu, hidc⟩)⟩
      · exact Or.inr hx
  · intro id hx
    have hd := inv.detached id hx
    have hidc : id ≠ c := by rintro rfl; exact hd.1 src hc
    refine ⟨?_, ?_⟩
    · intro u hu
      rcases (hmem u id).mp hu with ⟨h, _⟩ | ⟨_, h⟩
      · exact hd.1 u h
      · exact hidc h
    · rw [Function.update_noteq hidc]; exact hd.2
  · intro id hid
    have hlt : c < next := inv.lt_next (by rw [inv.mem_live hc]; simp)
    have hidc : id ≠ c := by omega
    rw [Function.update_noteq hidc]
    exact inv.fresh id hid

/-- Allocating a new iterator for an entry about to be queued. -/
theorem InvCore.alloc {Q : Tier → List Nat} {H : Nat → SLRUIterator} {next : Nat}
    (inv : InvCore Q H next none) (v : SLRUIterator) (hv : v.lru_iterator ≠ none) :
    InvCore Q (Function.update H next v) (next + 1) (some next) := by
  have hfree : ∀ u, next ∉ Q u := by
    intro u hu
    have := inv.fresh next (le_refl _)
    rw [inv.mem_live hu] at this
    simp at this
  refine ⟨inv.nodup, ?_, ?_, ?_, ?_⟩
  · intro u id hid
    have hne : id ≠ next := by rintro rfl; exact hfree u hid
    rw [Function.update_noteq hne]
    exact inv.tag u id hid
  · intro id hid
    by_cases hne : id = next
    · exact Or.inr (by rw [hne])
    · rw [Function.update_noteq hne] at hid
      rcases inv.live id hid with h | hx
      · exact Or.inl h
      · exact absurd hx (by simp)
  · intro id hx
    have : next = id := by simpa using hx
    subst this
    exact ⟨hfree, by simpa using hv⟩
  · intro id hid
    have hne : id ≠ next := by omega
    rw [Function.update_noteq hne]
    exact inv.fresh id (by omega)

/-! ### The heap invariant under the operations of the policy -/

theorem SLRUFileCachePriority.queueIds_withQueue (s : SLRUFileCachePriority) (t : Tier)
    (q : LRUFileCachePriority) :
    (s.withQueue t q).queueIds = Function.update s.queueIds t q.ids := by
  funext u
  cases t <;> cases u <;>
    simp [SLRUFileCachePriority.queueIds, SLRUFileCachePriority.withQueue,
      SLRUFileCachePriority.queueOf]

theorem SLRUFileCachePriority.iterators_withQueue (s : SLRUFileCachePriority) (t : Tier)
    (q : LRUFileCachePriority) :
    (s.withQueue t q).iterators = s.iterators ∧
      (s.withQueue t q).next_iterator = s.next_iterator := by
  cases t <;> exact ⟨rfl, rfl⟩

theorem SLRUFileCachePriority.lruIncreasePriority_inv {s s1 : SLRUFileCachePriority}
    {x : Option Nat} {it : Nat} (inv : s.Inv x) (h : s.lruIncreasePriority it = .ok s1) :
    s1.Inv x := by
  unfold SLRUFileCachePriority.lruIncreasePriority at h
  split at h
  · contradiction
  · rename_i t ht
    split at h
    · contradiction
    · rename_i q hq
      injection h with h
      subst h
      obtain ⟨hmem, hids, -⟩ := LRUFileCachePriority.increasePriority_ok hq
      unfold SLRUFileCachePriority.Inv
      rw [SLRUFileCachePriority.queueIds_withQueue, (s.iterators_withQueue t q).1,
        (s.iterators_withQueue t q).2, hids]
      exact InvCore.touch inv t hmem

theorem SLRUFileCachePriority.lruUpdateSize_inv {s s1 : SLRUFileCachePriority}
    {x : Option Nat} {it : Nat} {delta : Int} (inv : s.Inv x)
    (h : s.lruUpdateSize it delta = .ok s1) : s1.Inv x := by
  unfold SLRUFileCachePriority.lruUpdateSize at h
  split at h
  · contradiction
  · rename_i t ht
    split at h
    · contradiction
    · rename_i q hq
      injection h with h
      subst h
      obtain ⟨-, hids⟩ := LRUFileCachePriority.updateSize_ok hq
      unfold SLRUFileCachePriority.Inv
      rw [SLRUFileCachePriority.queueIds_withQueue, (s.iterators_withQueue t q).1,
        (s.iterators_withQueue t q).2, hids]
      have : Function.update s.queueIds t (s.queueOf t).ids = s.queueIds := by
        apply Function.update_eq_self
      rw [this]
      exact inv

theorem SLRUFileCachePriority.lruRemove_inv {s s1 : SLRUFileCachePriority}
    {it : Nat} (inv : s.Inv none) (h : s.lruRemove it = .ok s1) :
    s1.Inv (some it) ∧ s1.iterators = s.iterators := by
  unfold SLRUFileCachePriority.lruRemove at h
  split at h
  · contradiction
  · rename_i t ht
    split at h
    · contradiction
    · rename_i q hq
      injection h with h
      subst h
      obtain ⟨hmem, hids, -⟩ := LRUFileCachePriority.remove_ok hq
      refine ⟨?_, (s.iterators_withQueue t q).1⟩
      unfold SLRUFileCachePriority.Inv
      rw [SLRUFileCachePriority.queueIds_withQueue, (s.iterators_withQueue t q).1,
        (s.iterators_withQueue t q).2, hids]
      exact InvCore.detach inv t hmem

theorem SLRUIterator.remove_inv {s s1 : SLRUFileCachePriority} {it : Nat}
    (inv : s.Inv none) (h : SLRUIterator.remove s it = .ok s1) : s1.Inv none := by
  unfold SLRUIterator.remove at h
  split at h
  · contradiction
  · split at h
    · contradiction
    · rename_i s2 hs2
      injection h with h
      subst h
      obtain ⟨inv2, -⟩ := SLRUFileCachePriority.lruRemove_inv inv hs2
      exact InvCore.drop inv2 _ rfl

theorem SLRUFileCachePriority.downgrade_inv {s s1 : SLRUFileCachePriority}
    {x : Option Nat} {c : Nat} (inv : s.Inv x)
    (h : s.downgrade c = .ok s1) : s1.Inv x := by
  unfold SLRUFileCachePriority.downgrade at h
  split at h
  · contradiction
  · split at h
    · contradiction
    · rename_i probationary protected_ hm
      injection h with h
      subst h
      obtain ⟨hmem, hq, ho, -⟩ := LRUFileCachePriority.move_ok hm
      have hmv := @InvCore.move _ _ _ _ inv Tier.PROTECTED Tier.PROBATIONARY
        (by decide) _ hmem
      unfold SLRUFileCachePriority.Inv
      convert hmv using 1
      funext u
      cases u
      · simpa [SLRUFileCachePriority.queueIds, SLRUFileCachePriority.queueOf] using ho
      · simpa [SLRUFileCachePriority.queueIds, SLRUFileCachePriority.queueOf] using hq

theorem SLRUFileCachePriority.add_inv {s s1 : SLRUFileCachePriority}
    {key offset size it : Nat} (inv : s.Inv none)
    (h : s.add key offset size = .ok (s1, it)) : s1.Inv none := by
  unfold SLRUFileCachePriority.add at h
  split at h
  · contradiction
  · rename_i q hq
    injection h with h
    injection h with h1 h2
    subst h1
    obtain ⟨hids, -⟩ := LRUFileCachePriority.add_ok hq
    have ha := InvCore.attach
      (InvCore.alloc inv (tagOf Tier.PROBATIONARY) (by simp [tagOf])) Tier.PROBATIONARY
    unfold SLRUFileCachePriority.Inv
    convert ha using 1
    · funext u
      cases u
      · simp [SLRUFileCachePriority.queueIds, SLRUFileCachePriority.queueOf]
      · simpa [SLRUFileCachePriority.queueIds, SLRUFileCachePriority.queueOf] using hids
    · simp [tagOf]

/-- A property kept by the loop body is kept by the loop over one key. -/
theorem SLRUFileCachePriority.forKeyCandidates_keeps
    {f : SLRUFileCachePriority → Nat → Except Exception SLRUFileCachePriority}
    {P : SLRUFileCachePriority → Prop}
    (hf : ∀ s c s1, P s → f s c = .ok s1 → P s1) :
    ∀ (cs : List Nat) (s s1 : SLRUFileCachePriority),
      P s → SLRUFileCachePriority.forKeyCandidates f cs s = .ok s1 → P s1 := by
  intro cs
  induction cs with
  | nil =>
    intro s s1 hp h
    injection h with h
    exact h ▸ hp
  | cons c cs ih =>
    intro s s1 hp h
    unfold SLRUFileCachePriority.forKeyCandidates at h
    split at h
    · contradiction
    · rename_i s2 hs2
      exact ih s2 s1 (hf s c s2 hp hs2) h

/-- A property kept by the loop body is kept by the loop nest. -/
theorem SLRUFileCachePriority.forCandidates_keeps
    {f : SLRUFileCachePriority → Nat → Except Exception SLRUFileCachePriority}
    {P : SLRUFileCachePriority → Prop}
    (hf : ∀ s c s1, P s → f s c = .ok s1 → P s1) :
    ∀ (res : EvictionCandidates) (s s1 : SLRUFileCachePriority),
      P s → SLRUFileCachePriority.forCandidates f res s = .ok s1 → P s1 := by
  intro res
  induction res with
  | nil =>
    intro s s1 hp h
    injection h with h
    exact h ▸ hp
  | cons kc rest ih =>
    intro s s1 hp h
    unfold SLRUFileCachePriority.forCandidates at h
    split at h
    · contradiction
    · rename_i s2 hs2
      exact ih s2 s1 (SLRUFileCachePriority.forKeyCandidates_keeps hf kc.2 s s2 hp hs2) h

theorem SLRUFileCachePriority.evict_inv {s s1 : SLRUFileCachePriority}
    {res : EvictionCandidates} (inv : s.Inv none)
    (h : SLRUFileCachePriority.evict res s = .ok s1) : s1.Inv none :=
  SLRUFileCachePriority.forCandidates_keeps
    (fun _ _ _ hp hs => SLRUIterator.remove_inv hp hs) res s s1 inv h

theorem SLRUFileCachePriority.runFinalize_inv {s s1 : SLRUFileCachePriority}
    {fn : FinalizeEvictionFunc} (inv : s.Inv none)
    (h : SLRUFileCachePriority.runFinalize fn s = .ok s1) : s1.Inv none := by
  unfold SLRUFileCachePriority.runFinalize at h
  split at h
  · injection h with h
    exact h ▸ inv
  · exact SLRUFileCachePriority.forCandidates_keeps
      (fun _ _ _ hp hs => SLRUFileCachePriority.downgrade_inv hp hs) _ s s1 inv h

theorem SLRUFileCachePriority.promote_inv {s s1 : SLRUFileCachePriority} {it : Nat}
    {cands : EvictionCandidates} (inv : s.Inv none)
    (h : s.promote it cands = .ok s1) : s1.Inv none := by
  unfold SLRUFileCachePriority.promote at h
  split at h
  · contradiction
  · split at h
    · contradiction
    · rename_i s2 hs2
      split at h
      · contradiction
      · rename_i s3 hs3
        split at h
        · contradiction
        · rename_i q hq
          injection h with h
          subst h
          obtain ⟨inv2, -⟩ := SLRUFileCachePriority.lruRemove_inv inv hs2
          have inv3 : s3.Inv (some it) :=
            SLRUFileCachePriority.forCandidates_keeps
              (fun _ _ _ hp hs => SLRUFileCachePriority.downgrade_inv hp hs) _ s2 s3 inv2 hs3
          obtain ⟨hids, -⟩ := LRUFileCachePriority.add_ok hq
          have ha := InvCore.attach inv3 Tier.PROTECTED
          unfold SLRUFileCachePriority.Inv
          convert ha using 1
          · funext u
            cases u
            · simpa [SLRUFileCachePriority.queueIds, SLRUFileCachePriority.queueOf] using hids
            · simp [SLRUFileCachePriority.queueIds, SLRUFileCachePriority.queueOf]

/-- The ways `increasePriority` can return: an in-tier touch, or a promotion with the
downgrade candidates collected from the protected queue, possibly after evicting the
candidates collected from the probationary queue. -/
theorem SLRUFileCachePriority.increasePriority_cases {s s1 : SLRUFileCachePriority}
    {releasable : Nat → Bool} {it : Nat}
    (h : s.increasePriority releasable it = .ok s1) :
    s.lruIncreasePriority it = .ok s1 ∨
    ∃ entry, (s.iterators it).is_protected = false ∧
      SLRUIterator.getEntry s it = .ok entry ∧
      entry.size ≤ s.protected_queue.getSizeLimit ∧
      (s.protected_queue.collectCandidatesForEviction releasable entry.size
        FileCacheReserveStat.empty [] none).1 = true ∧
      (s.promote it (s.protected_queue.collectCandidatesForEviction releasable entry.size
          FileCacheReserveStat.empty [] none).2.2 = .ok s1 ∨
       ∃ size_to_free s2,
        (s.probationary_queue.collectCandidatesForEviction releasable size_to_free
          FileCacheReserveStat.empty [] none).1 = true ∧
        SLRUFileCachePriority.evict
          (s.probationary_queue.collectCandidatesForEviction releasable size_to_free
            FileCacheReserveStat.empty [] none).2.2 s = .ok s2 ∧
        s2.promote it (s.protected_queue.collectCandidatesForEviction releasable entry.size
          FileCacheReserveStat.empty [] none).2.2 = .ok s1) := by
  unfold SLRUFileCachePriority.increasePriority at h
  by_cases hp : (s.iterators it).is_protected = true
  · rw [if_pos hp] at h
    exact Or.inl h
  · rw [if_neg hp] at h
    cases hg : SLRUIterator.getEntry s it with
    | error e => rw [hg] at h; contradiction
    | ok entry =>
      rw [hg] at h
      simp only at h
      by_cases hsz : entry.size > s.protected_queue.getSizeLimit
      · rw [if_pos hsz] at h
        exact Or.inl h
      · rw [if_neg hsz] at h
        by_cases hd : (s.protected_queue.collectCandidatesForEviction releasable entry.size
            FileCacheReserveStat.empty [] none).1 = true
        · have hd1 : ¬ ((!(s.protected_queue.collectCandidatesForEviction releasable entry.size
              FileCacheReserveStat.empty [] none).1) = true) := by simp [hd]
          rw [if_neg hd1] at h
          generalize (if
              (s.protected_queue.collectCandidatesForEviction releasable entry.size
                  FileCacheReserveStat.empty [] none).2.1.stat.releasable_count ≠ 0 ∧
                (s.protected_queue.collectCandidatesForEviction releasable entry.size
                  FileCacheReserveStat.empty [] none).2.1.stat.releasable_count > entry.size
            then
              (s.protected_queue.collectCandidatesForEviction releasable entry.size
                  FileCacheReserveStat.empty [] none).2.1.stat.releasable_count - entry.size
            else 0) = size_to_free at h
          by_cases hfree : size_to_free ≠ 0
          · rw [if_pos hfree] at h
            by_cases hr : (s.probationary_queue.collectCandidatesForEviction releasable
                size_to_free FileCacheReserveStat.empty [] none).1 = true
            · have hr1 : ¬ ((!(s.probationary_queue.collectCandidatesForEviction releasable
                  size_to_free FileCacheReserveStat.empty [] none).1) = true) := by simp [hr]
              rw [if_neg hr1] at h
              cases he : SLRUFileCachePriority.evict
                  (s.probationary_queue.collectCandidatesForEviction releasable size_to_free
                    FileCacheReserveStat.empty [] none).2.2 s with
              | error e => rw [he] at h; contradiction
              | ok s2 =>
                rw [he] at h
                exact Or.inr ⟨entry, by simpa using hp, rfl, Nat.le_of_not_lt hsz, hd,
                  Or.inr ⟨size_to_free, s2, hr, he, h⟩⟩
            · have hr1 : (!(s.probationary_queue.collectCandidatesForEviction releasable
                  size_to_free FileCacheReserveStat.empty [] none).1) = true := by simpa using hr
              rw [if_pos hr1] at h
              exact Or.inl h
          · rw [if_neg hfree] at h
            exact Or.inr ⟨entry, by simpa using hp, rfl, Nat.le_of_not_lt hsz, hd, Or.inl h⟩
        · have hd1 : (!(s.protected_queue.collectCandidatesForEviction releasable entry.size
              FileCacheReserveStat.empty [] none).1) = true := by simpa using hd
          rw [if_pos hd1] at h
          exact Or.inl h

theorem SLRUFileCachePriority.increasePriority_inv {s s1 : SLRUFileCachePriority}
    {releasable : Nat → Bool} {it : Nat} (inv : s.Inv none)
    (h : s.increasePriority releasable it = .ok s1) : s1.Inv none := by
  rcases SLRUFileCachePriority.increasePriority_cases h with h | ⟨_, _, _, _, _, h | ⟨_, _, _, he, h⟩⟩
  · exact SLRUFileCachePriority.lruIncreasePriority_inv inv h
  · exact SLRUFileCachePriority.promote_inv inv h
  · exact SLRUFileCachePriority.promote_inv (SLRUFileCachePriority.evict_inv inv he) h

/-- The state a successful `SLRUIterator::increasePriority` leaves is the one
`SLRUFileCachePriority::increasePriority` returned. -/
theorem SLRUIterator.touch_ok {s s1 : SLRUFileCachePriority}
    {releasable : Nat → Bool} {it hits : Nat}
    (h : SLRUIterator.increasePriority s releasable it = .ok (s1, hits)) :
    (s.iterators it).lru_iterator ≠ none ∧ s.increasePriority releasable it = .ok s1 ∧
      ∃ entry, SLRUIterator.getEntry s1 it = .ok entry ∧ entry.hits = hits := by
  unfold SLRUIterator.increasePriority at h
  cases ha : SLRUIterator.assertValid s it with
  | error e => rw [ha] at h; contradiction
  | ok u =>
    rw [ha] at h
    simp only at h
    cases hi : s.increasePriority releasable it with
    | error e => rw [hi] at h; contradiction
    | ok s2 =>
      rw [hi] at h
      simp only at h
      cases hg : SLRUIterator.getEntry s2 it with
      | error e => rw [hg] at h; contradiction
      | ok entry =>
        rw [hg] at h
        injection h with h
        injection h with h1 h2
        subst h1
        refine ⟨?_, rfl, entry, hg, h2⟩
        unfold SLRUIterator.assertValid at ha
        intro hn
        rw [hn] at ha
        contradiction

theorem SLRUFileCachePriority.collect_policy (s : SLRUFileCachePriority)
    (releasable : Nat → Bool) (size : Nat) (stat : FileCacheReserveStat)
    (res : EvictionCandidates) (reservee : Option Nat) (fn : FinalizeEvictionFunc) :
    (s.collectCandidatesForEviction releasable size stat res reservee fn).policy = s := by
  unfold SLRUFileCachePriority.collectCandidatesForEviction
  cases reservee with
  | none => rfl
  | some it =>
    simp only
    repeat' split
    all_goals rfl

theorem SLRUFileCachePriority.reserve_inv {s s1 : SLRUFileCachePriority}
    {releasable : Nat → Bool} {size : Nat} {reservee : Option Nat} (inv : s.Inv none)
    (h : s.reserve releasable size reservee = .ok s1) : s1.Inv none := by
  unfold SLRUFileCachePriority.reserve at h
  simp only [SLRUFileCachePriority.collect_policy] at h
  split at h
  · split at h
    · contradiction
    · rename_i s2 hs2
      exact SLRUFileCachePriority.runFinalize_inv (SLRUFileCachePriority.evict_inv inv hs2) h
  · injection h with h
    exact h ▸ inv

theorem step_inv {s s1 : SLRUFileCachePriority} {releasable : Nat → Bool} {c : Call}
    (inv : s.Inv none) (h : step s releasable c = .ok s1) : s1.Inv none := by
  cases c with
  | add key offset size =>
    simp only [step] at h
    split at h
    · contradiction
    · rename_i r hr
      injection h with h
      subst h
      exact @SLRUFileCachePriority.add_inv s r.1 key offset size r.2 inv hr
  | touch it =>
    simp only [step] at h
    split at h
    · contradiction
    · rename_i r hr
      injection h with h
      subst h
      exact SLRUFileCachePriority.increasePriority_inv inv
        (@SLRUIterator.touch_ok s r.1 releasable it r.2 hr).2.1
  | resize it delta =>
    simp only [step, SLRUIterator.updateSize] at h
    split at h
    · contradiction
    · exact SLRUFileCachePriority.lruUpdateSize_inv inv h
  | remove it => exact SLRUIterator.remove_inv inv h
  | reserve size reservee => exact SLRUFileCachePriority.reserve_inv inv h

theorem SLRUFileCachePriority.create_inv (max_size max_elements : Nat) (ratio : ℚ) :
    (SLRUFileCachePriority.create max_size max_elements ratio).Inv none := by
  refine ⟨?_, ?_, ?_, ?_, ?_⟩
  · intro t; cases t <;> exact List.nodup_nil
  · intro t id hid
    cases t <;> simp [SLRUFileCachePriority.queueIds, SLRUFileCachePriority.queueOf,
      SLRUFileCachePriority.create, LRUFileCachePriority.create, LRUFileCachePriority.ids] at hid
  · intro id hid
    simp [SLRUFileCachePriority.create] at hid
  · intro id hx
    exact absurd hx (by simp)
  · intro id _
    rfl

theorem reachableVia_inv {allowed : SLRUFileCachePriority → Call → SLRUFileCachePriority → Prop}
    {s0 s : SLRUFileCachePriority} (h0 : s0.Inv none) (h : ReachableVia allowed s0 s) :
    s.Inv none := by
  induction h with
  | init => exact h0
  | call releasable c _ hstep _ ih => exact step_inv ih hstep

/-- The handle-tag invariant I3 between calls that return: in every state reached from a
freshly constructed policy by add, touch, resize, remove and collect-evict-finalize calls
that return normally, every live iterator (one whose inner iterator is not null) is
tagged protected exactly when its entry is in the protected queue and probationary
exactly when it is in the probationary queue; its inner iterator belongs to that same
queue. -/
theorem handle_tag_invariant (max_size max_elements : Nat) (size_ratio : ℚ)
    (s : SLRUFileCachePriority)
    (hreach : Reachable (SLRUFileCachePriority.create max_size max_elements size_ratio) s)
    (it : Nat) (hlive : (s.iterators it).lru_iterator ≠ none) :
    ((s.iterators it).is_protected = true ↔ it ∈ s.protected_queue.ids) ∧
    ((s.iterators it).is_protected = false ↔ it ∈ s.probationary_queue.ids) ∧
    ((s.iterators it).lru_iterator = some Tier.PROTECTED ↔ it ∈ s.protected_queue.ids) ∧
    ((s.iterators it).lru_iterator = some Tier.PROBATIONARY ↔
      it ∈ s.probationary_queue.ids) := by
  have inv : s.Inv none :=
    reachableVia_inv (SLRUFileCachePriority.create_inv max_size max_elements size_ratio) hreach
  have hP : it ∈ s.protected_queue.ids → s.iterators it = tagOf Tier.PROTECTED :=
    fun h => inv.tag Tier.PROTECTED it h
  have hB : it ∈ s.probationary_queue.ids → s.iterators it = tagOf Tier.PROBATIONARY :=
    fun h => inv.tag Tier.PROBATIONARY it h
  rcases inv.live it hlive with ⟨t, ht⟩ | hx
  · cases t with
    | PROTECTED =>
      have hin : it ∈ s.protected_queue.ids := ht
      have hout : it ∉ s.probationary_queue.ids := by
        intro h
        have := (hP hin).symm.trans (hB h)
        exact absurd (tagOf_injective this) (by decide)
      rw [hP hin]
      simp [tagOf, hin, hout]
    | PROBATIONARY =>
      have hin : it ∈ s.probationary_queue.ids := ht
      have hout : it ∉ s.protected_queue.ids := by
        intro h
        have := (hP h).symm.trans (hB hin)
        exact absurd (tagOf_injective this) (by decide)
      rw [hB hin]
      simp [tagOf, hin, hout]
  · exact absurd hx (by simp)

/-- The handle-tag invariant at a concrete input: a fresh policy (100 bytes, ratio 0.5)
after adding a 30-byte segment and touching it, which promotes it. -/
theorem handle_tag_invariant_witness :
    ∃ s, Reachable (SLRUFileCachePriority.create 100 100 (1 / 2)) s ∧
      (s.iterators 0).lru_iterator ≠ none ∧
      s.protected_queue.ids = [0] ∧
      ((s.iterators 0).is_protected = true ↔ 0 ∈ s.protected_queue.ids) := by
  have h1 : ∃ s, step (SLRUFileCachePriority.create 100 100 (1 / 2)) allReleasable
      (Call.add 1 0 30) = .ok s ∧ ∃ s1, step s allReleasable (Call.touch 0) = .ok s1 ∧
        (s1.iterators 0).lru_iterator ≠ none ∧ s1.protected_queue.ids = [0] := by
    rw [create_100_half]
    exact ⟨_, rfl, _, rfl, by decide, rfl⟩
  obtain ⟨s, hs, s1, hs1, hl, hids⟩ := h1
  have hr : Reachable (SLRUFileCachePriority.create 100 100 (1 / 2)) s1 :=
    ReachableVia.call allReleasable (Call.touch 0)
      (ReachableVia.call allReleasable (Call.add 1 0 30) ReachableVia.init hs trivial)
      hs1 trivial
  exact ⟨s1, hr, hl, hids,
    (handle_tag_invariant 100 100 (1 / 2) s1 hr 0 hl).1⟩

/-! ### Candidates and totals -/

theorem EvictionCandidates.mem_all_add (res : EvictionCandidates) (key c b : Nat) :
    b ∈ EvictionCandidates.all (EvictionCandidates.add res key c) ↔
      b ∈ EvictionCandidates.all res ∨ b = c := by
  induction res with
  | nil => simp [EvictionCandidates.add, EvictionCandidates.all]
  | cons kc rest ih =>
    obtain ⟨k, cs⟩ := kc
    unfold EvictionCandidates.add
    by_cases hk : k = key
    · simp only [hk, if_true]
      simp only [EvictionCandidates.all, List.map_cons, List.flatten_cons, List.mem_append,
        List.mem_singleton]
      tauto
    · simp only [hk, if_false]
      have ih2 : b ∈ (List.map (fun kc => kc.2) (EvictionCandidates.add rest key c)).flatten ↔
          b ∈ (List.map (fun kc => kc.2) rest).flatten ∨ b = c := ih
      simp only [EvictionCandidates.all, List.map_cons, List.flatten_cons, List.mem_append, ih2]
      tauto

/-- Every candidate the walk adds is a node of the walked list, is releasable and is not
the reservee. -/
theorem LRUFileCachePriority.collectWalk_mem (releasable : Nat → Bool) (reservee : Option Nat)
    (size : Nat) (l : List Node) :
    ∀ (gathered : Nat) (stat : FileCacheReserveStat) (res : EvictionCandidates) (b : Nat),
      b ∈ EvictionCandidates.all
          (LRUFileCachePriority.collectWalk releasable reservee size l gathered stat res).2.2 →
        b ∈ EvictionCandidates.all res ∨
          (b ∈ l.map (fun n => n.it) ∧ releasable b = true ∧ reservee ≠ some b) := by
  induction l with
  | nil =>
    intro gathered stat res b hb
    exact Or.inl hb
  | cons n rest ih =>
    intro gathered stat res b hb
    unfold LRUFileCachePriority.collectWalk at hb
    split at hb
    · exact Or.inl hb
    · split at hb
      · rcases ih _ _ _ b hb with h | h
        · exact Or.inl h
        · exact Or.inr ⟨List.mem_cons_of_mem _ h.1, h.2⟩
      · split at hb
        · rename_i hne hrel
          rcases ih _ _ _ b hb with h | h
          · rcases (EvictionCandidates.mem_all_add res _ _ b).mp h with h | h
            · exact Or.inl h
            · subst h
              exact Or.inr ⟨List.mem_cons_self _ _, hrel, hne⟩
          · exact Or.inr ⟨List.mem_cons_of_mem _ h.1, h.2⟩
        · rcases ih _ _ _ b hb with h | h
          · exact Or.inl h
          · exact Or.inr ⟨List.mem_cons_of_mem _ h.1, h.2⟩

theorem LRUFileCachePriority.collect_mem (q : LRUFileCachePriority) (releasable : Nat → Bool)
    (size : Nat) (stat : FileCacheReserveStat) (res : EvictionCandidates)
    (reservee : Option Nat) (b : Nat)
    (hb : b ∈ EvictionCandidates.all
      (q.collectCandidatesForEviction releasable size stat res reservee).2.2) :
    b ∈ EvictionCandidates.all res ∨
      (b ∈ q.ids ∧ releasable b = true ∧ reservee ≠ some b) := by
  unfold LRUFileCachePriority.collectCandidatesForEviction at hb
  split at hb
  · exact Or.inl hb
  · exact LRUFileCachePriority.collectWalk_mem releasable reservee size q.queue 0 stat res b hb

theorem SLRUFileCachePriority.forCandidates_eq_all
    (f : SLRUFileCachePriority → Nat → Except Exception SLRUFileCachePriority) :
    ∀ (res : EvictionCandidates) (s : SLRUFileCachePriority),
      SLRUFileCachePriority.forCandidates f res s =
        SLRUFileCachePriority.forKeyCandidates f (EvictionCandidates.all res) s := by
  have happ : ∀ (cs ds : List Nat) (s : SLRUFileCachePriority),
      SLRUFileCachePriority.forKeyCandidates f (cs ++ ds) s =
        match SLRUFileCachePriority.forKeyCandidates f cs s with
        | .error e => .error e
        | .ok s1 => SLRUFileCachePriority.forKeyCandidates f ds s1 := by
    intro cs
    induction cs with
    | nil => intro ds s; rfl
    | cons c cs ih =>
      intro ds s
      simp only [List.cons_append, SLRUFileCachePriority.forKeyCandidates]
      cases f s c with
      | error e => rfl
      | ok s1 => exact ih ds s1
  intro res
  induction res with
  | nil => intro s; rfl
  | cons kc rest ih =>
    intro s
    simp only [SLRUFileCachePriority.forCandidates, EvictionCandidates.all, List.map_cons,
      List.flatten_cons]
    rw [happ]
    cases SLRUFileCachePriority.forKeyCandidates f kc.2 s with
    | error e => rfl
    | ok s1 => exact ih s1

theorem SLRUFileCachePriority.queueOf_withQueue (s : SLRUFileCachePriority) (t u : Tier)
    (q : LRUFileCachePriority) :
    (s.withQueue t q).queueOf u = if u = t then q else s.queueOf u := by
  cases t <;> cases u <;> rfl

theorem SLRUFileCachePriority.policy_shrinks_refl (s : SLRUFileCachePriority) : s.Shrinks s :=
  fun _ => LRUFileCachePriority.shrinks_refl _

theorem SLRUFileCachePriority.policy_shrinks_trans {s s1 s2 : SLRUFileCachePriority}
    (h1 : s.Shrinks s1) (h2 : s1.Shrinks s2) : s.Shrinks s2 :=
  fun t => LRUFileCachePriority.shrinks_trans (h1 t) (h2 t)

theorem SLRUFileCachePriority.shrinks_withQueue (s : SLRUFileCachePriority) (t : Tier)
    (q : LRUFileCachePriority) (h : (s.queueOf t).Shrinks q) : s.Shrinks (s.withQueue t q) := by
  intro u
  rw [SLRUFileCachePriority.queueOf_withQueue]
  by_cases hu : u = t
  · subst hu; simpa using h
  · simp only [hu, if_false]; exact LRUFileCachePriority.shrinks_refl _

theorem SLRUFileCachePriority.lruIncreasePriority_shrinks {s s1 : SLRUFileCachePriority}
    {it : Nat} (h : s.lruIncreasePriority it = .ok s1) : s.Shrinks s1 := by
  unfold SLRUFileCachePriority.lruIncreasePriority at h
  split at h
  · contradiction
  · split at h
    · contradiction
    · rename_i q hq
      injection h with h
      subst h
      exact SLRUFileCachePriority.shrinks_withQueue _ _ _
        (LRUFileCachePriority.increasePriority_ok hq).2.2

theorem SLRUFileCachePriority.lruRemove_shrinks {s s1 : SLRUFileCachePriority}
    {it : Nat} (h : s.lruRemove it = .ok s1) : s.Shrinks s1 := by
  unfold SLRUFileCachePriority.lruRemove at h
  split at h
  · contradiction
  · split at h
    · contradiction
    · rename_i q hq
      injection h with h
      subst h
      exact SLRUFileCachePriority.shrinks_withQueue _ _ _
        (LRUFileCachePriority.remove_ok hq).2.2

theorem SLRUIterator.remove_shrinks {s s1 : SLRUFileCachePriority} {it : Nat}
    (h : SLRUIterator.remove s it = .ok s1) : s.Shrinks s1 := by
  unfold SLRUIterator.remove at h
  split at h
  · contradiction
  · split at h
    · contradiction
    · rename_i s2 hs2
      injection h with h
      subst h
      intro t
      have := SLRUFileCachePriority.lruRemove_shrinks hs2 t
      cases t <;> exact this

theorem SLRUFileCachePriority.evict_shrinks {s s1 : SLRUFileCachePriority}
    {res : EvictionCandidates} (h : SLRUFileCachePriority.evict res s = .ok s1) :
    s.Shrinks s1 :=
  SLRUFileCachePriority.forCandidates_keeps (P := fun s2 => s.Shrinks s2)
    (fun _ _ _ hp hs =>
      SLRUFileCachePriority.policy_shrinks_trans hp (SLRUIterator.remove_shrinks hs)) res s s1
    (SLRUFileCachePriority.policy_shrinks_refl s) h

/-- A run of downgrades appends the candidates to the probationary queue, shrinks the
protected queue and keeps the limits of the probationary queue. -/
theorem SLRUFileCachePriority.downgrades_ok :
    ∀ (cs : List Nat) (s s1 : SLRUFileCachePriority),
      SLRUFileCachePriority.forKeyCandidates SLRUFileCachePriority.downgrade cs s = .ok s1 →
        s1.probationary_queue.ids = s.probationary_queue.ids ++ cs ∧
        s.protected_queue.Shrinks s1.protected_queue ∧
        s1.probationary_queue.max_size = s.probationary_queue.max_size ∧
        s1.probationary_queue.max_elements = s.probationary_queue.max_elements := by
  intro cs
  induction cs with
  | nil =>
    intro s s1 h
    injection h with h
    subst h
    exact ⟨by simp, LRUFileCachePriority.shrinks_refl _, rfl, rfl⟩
  | cons c cs ih =>
    intro s s1 h
    unfold SLRUFileCachePriority.forKeyCandidates at h
    split at h
    · contradiction
    · rename_i s2 hs2
      obtain ⟨h1, h2, h3, h4⟩ := ih s2 s1 h
      unfold SLRUFileCachePriority.downgrade at hs2
      split at hs2
      · contradiction
      · split at hs2
        · contradiction
        · rename_i probationary protected_ hm
          injection hs2 with hs2
          subst hs2
          obtain ⟨-, hq, -, hsh, hm1, hm2⟩ := LRUFileCachePriority.move_ok hm
          simp only at h1 h2 h3 h4
          refine ⟨?_, LRUFileCachePriority.shrinks_trans hsh h2, h3.trans hm1, h4.trans hm2⟩
          rw [h1, hq]
          simp

/-- What a successful promotion does to the queues: the state after the removal of the
entry is a shrunk `s`, the downgrade candidates are appended to its probationary queue,
and the protected queue ends within its budget. -/
theorem SLRUFileCachePriority.promote_ok {s s1 : SLRUFileCachePriority} {it : Nat}
    {cands : EvictionCandidates} (h : s.promote it cands = .ok s1) :
    s1.protected_queue.Budget ∧
    s1.protected_queue.max_size = s.protected_queue.max_size ∧
    s1.protected_queue.max_elements = s.protected_queue.max_elements ∧
    ∃ s2, s.Shrinks s2 ∧
      s1.probationary_queue.ids = s2.probationary_queue.ids ++ EvictionCandidates.all cands ∧
      (EvictionCandidates.all cands = [] → s1.probationary_queue = s2.probationary_queue) := by
  unfold SLRUFileCachePriority.promote at h
  split at h
  · contradiction
  · split at h
    · contradiction
    · rename_i s2 hs2
      split at h
      · contradiction
      · rename_i s3 hs3
        split at h
        · contradiction
        · rename_i q hq
          injection h with h
          subst h
          rw [SLRUFileCachePriority.forCandidates_eq_all] at hs3
          obtain ⟨hids, hsh, -, -⟩ := SLRUFileCachePriority.downgrades_ok _ _ _ hs3
          obtain ⟨-, hb, hm1, hm2⟩ := LRUFileCachePriority.add_ok hq
          have hsh2 := SLRUFileCachePriority.lruRemove_shrinks hs2 Tier.PROTECTED
          refine ⟨hb, ?_, ?_, s2, SLRUFileCachePriority.lruRemove_shrinks hs2, hids, ?_⟩
          · exact hm1.trans (hsh.1.trans hsh2.1)
          · exact hm2.trans (hsh.2.1.trans hsh2.2.1)
          · intro hnil
            rw [hnil] at hs3
            injection hs3 with hs3
            subst hs3
            rfl

/-- The finalize action `collectCandidatesForEviction` leaves, when none was passed, is
either still unset or the downgrade candidates collected from the protected queue. -/
theorem SLRUFileCachePriority.collect_finalize (s : SLRUFileCachePriority)
    (releasable : Nat → Bool) (size : Nat) (stat : FileCacheReserveStat)
    (res : EvictionCandidates) (reservee : Option Nat) :
    (s.collectCandidatesForEviction releasable size stat res reservee none).finalize_eviction_func
        = none ∨
    (s.collectCandidatesForEviction releasable size stat res reservee none).finalize_eviction_func
        = some (s.protected_queue.collectCandidatesForEviction releasable size
            FileCacheReserveStat.empty [] reservee).2.2 := by
  unfold SLRUFileCachePriority.collectCandidatesForEviction
  cases reservee with
  | none => exact Or.inl rfl
  | some it =>
    simp only
    repeat' split
    all_goals first | exact Or.inl rfl | exact Or.inr rfl

theorem SLRUFileCachePriority.runFinalize_ok {s s1 : SLRUFileCachePriority}
    {fn : FinalizeEvictionFunc} (h : SLRUFileCachePriority.runFinalize fn s = .ok s1) :
    s.protected_queue.Shrinks s1.protected_queue ∧
    ((fn = none ∧ s1 = s) ∨
      ∃ cands, fn = some cands ∧
        s1.probationary_queue.ids = s.probationary_queue.ids ++ EvictionCandidates.all cands ∧
        (EvictionCandidates.all cands = [] → s1 = s)) := by
  unfold SLRUFileCachePriority.runFinalize at h
  split at h
  · injection h with h
    subst h
    exact ⟨LRUFileCachePriority.shrinks_refl _, Or.inl ⟨rfl, rfl⟩⟩
  · rename_i cands
    rw [SLRUFileCachePriority.forCandidates_eq_all] at h
    obtain ⟨hids, hsh, -, -⟩ := SLRUFileCachePriority.downgrades_ok _ _ _ h
    refine ⟨hsh, Or.inr ⟨cands, rfl, hids, ?_⟩⟩
    intro hnil
    rw [hnil] at h
    injection h with h
    exact h.symm

theorem step_protected_budget {s s1 : SLRUFileCachePriority} {releasable : Nat → Bool}
    {c : Call} (h : step s releasable c = .ok s1) (hc : c.isResize = false)
    (hb : s.protected_queue.Budget) : s1.protected_queue.Budget := by
  cases c with
  | add key offset size =>
    simp only [step] at h
    split at h
    · contradiction
    · rename_i r hr
      injection h with h
      subst h
      unfold SLRUFileCachePriority.add at hr
      split at hr
      · contradiction
      · injection hr with hr
        subst hr
        exact hb
  | touch it =>
    simp only [step] at h
    split at h
    · contradiction
    · rename_i r hr
      injection h with h
      subst h
      have hi := (@SLRUIterator.touch_ok s r.1 releasable it r.2 hr).2.1
      rcases SLRUFileCachePriority.increasePriority_cases hi with
        h | ⟨_, _, _, _, _, h | ⟨_, _, _, _, h⟩⟩
      · exact LRUFileCachePriority.shrinks_budget
          (SLRUFileCachePriority.lruIncreasePriority_shrinks h Tier.PROTECTED) hb
      · exact (SLRUFileCachePriority.promote_ok h).1
      · exact (SLRUFileCachePriority.promote_ok h).1
  | resize it delta => simp [Call.isResize] at hc
  | remove it =>
    exact LRUFileCachePriority.shrinks_budget (SLRUIterator.remove_shrinks h Tier.PROTECTED) hb
  | reserve size reservee =>
    simp only [step, SLRUFileCachePriority.reserve, SLRUFileCachePriority.collect_policy] at h
    split at h
    · split at h
      · contradiction
      · rename_i s2 hs2
        have h1 := LRUFileCachePriority.shrinks_budget
          (SLRUFileCachePriority.evict_shrinks hs2 Tier.PROTECTED) hb
        exact LRUFileCachePriority.shrinks_budget (SLRUFileCachePriority.runFinalize_ok h).1 h1
    · injection h with h
      exact h ▸ hb

theorem step_probationary_budget {s s1 : SLRUFileCachePriority} {releasable : Nat → Bool}
    {c : Call} (h : step s releasable c = .ok s1) (hc : noResizeNoDowngrade s c s1)
    (hb : s.probationary_queue.Budget) : s1.probationary_queue.Budget := by
  obtain ⟨hc, hnd⟩ := hc
  cases c with
  | add key offset size =>
    simp only [step] at h
    split at h
    · contradiction
    · rename_i r hr
      injection h with h
      subst h
      unfold SLRUFileCachePriority.add at hr
      split at hr
      · contradiction
      · rename_i q hq
        injection hr with hr
        subst hr
        exact (LRUFileCachePriority.add_ok hq).2.1
  | touch it =>
    simp only [step] at h
    split at h
    · contradiction
    · rename_i r hr
      injection h with h
      subst h
      have hi := (@SLRUIterator.touch_ok s r.1 releasable it r.2 hr).2.1
      have key : ∀ (s0 : SLRUFileCachePriority) (size : Nat), s.Shrinks s0 →
          s0.promote it (s.protected_queue.collectCandidatesForEviction releasable size
            FileCacheReserveStat.empty [] none).2.2 = .ok r.1 →
          r.1.probationary_queue.Budget := by
        intro s0 size hsh hp
        obtain ⟨-, -, -, s2, hsh2, hids, hnil⟩ := SLRUFileCachePriority.promote_ok hp
        have hempty : EvictionCandidates.all
            (s.protected_queue.collectCandidatesForEviction releasable size
              FileCacheReserveStat.empty [] none).2.2 = [] := by
          apply List.eq_nil_iff_forall_not_mem.mpr
          intro b hbm
          rcases LRUFileCachePriority.collect_mem _ _ _ _ _ _ b hbm with h0 | ⟨hP, -⟩
          · simp [EvictionCandidates.all] at h0
          · exact hnd b hP (by rw [hids]; exact List.mem_append_right _ hbm)
        rw [hnil hempty]
        exact LRUFileCachePriority.shrinks_budget
          (SLRUFileCachePriority.policy_shrinks_trans hsh hsh2 Tier.PROBATIONARY) hb
      rcases SLRUFileCachePriority.increasePriority_cases hi with
        h | ⟨e, _, _, _, _, h | ⟨_, s2, _, he, h⟩⟩
      · exact LRUFileCachePriority.shrinks_budget
          (SLRUFileCachePriority.lruIncreasePriority_shrinks h Tier.PROBATIONARY) hb
      · exact key s e.size (SLRUFileCachePriority.policy_shrinks_refl s) h
      · exact key s2 e.size (SLRUFileCachePriority.evict_shrinks he) h
  | resize it delta => simp [Call.isResize] at hc
  | remove it =>
    exact LRUFileCachePriority.shrinks_budget
      (SLRUIterator.remove_shrinks h Tier.PROBATIONARY) hb
  | reserve size reservee =>
    simp only [step, SLRUFileCachePriority.reserve, SLRUFileCachePriority.collect_policy] at h
    split at h
    · split at h
      · contradiction
      · rename_i s2 hs2
        have h1 := LRUFileCachePriority.shrinks_budget
          (SLRUFileCachePriority.evict_shrinks hs2 Tier.PROBATIONARY) hb
        rcases (SLRUFileCachePriority.runFinalize_ok h).2 with ⟨-, he⟩ | ⟨cands, hfn, hids, hnil⟩
        · exact he ▸ h1
        · rcases SLRUFileCachePriority.collect_finalize s releasable size
            FileCacheReserveStat.empty [] reservee with h0 | h0
          · rw [h0] at hfn; contradiction
          · rw [h0] at hfn
            injection hfn with hfn
            have hempty : EvictionCandidates.all cands = [] := by
              apply List.eq_nil_iff_forall_not_mem.mpr
              intro b hbm
              rw [← hfn] at hbm
              rcases LRUFileCachePriority.collect_mem _ _ _ _ _ _ b hbm with h0 | ⟨hP, -⟩
              · simp [EvictionCandidates.all] at h0
              · exact hnd b hP (by rw [hids, ← hfn]; exact List.mem_append_right _ hbm)
            exact (hnil hempty) ▸ h1
    · injection h with h
      exact h ▸ hb

/-- C1, refuted as stated: in a fresh policy (100 bytes, ratio 0.5) a 30-byte segment is
added and then resized by +100; both calls return normally and the probationary queue
holds 130 bytes against its limit of 50. -/
theorem budget_broken_by_resize :
    ∃ s, Reachable (SLRUFileCachePriority.create 100 100 (1 / 2)) s ∧
      s.probationary_queue.current_size = 130 ∧ s.probationary_queue.max_size = 50 ∧
      ¬ s.probationary_queue.Budget := by
  have h1 : ∃ s, step (SLRUFileCachePriority.create 100 100 (1 / 2)) allReleasable
      (Call.add 1 0 30) = .ok s ∧ ∃ s1, step s allReleasable (Call.resize 0 100) = .ok s1 ∧
        s1.probationary_queue.current_size = 130 ∧ s1.probationary_queue.max_size = 50 := by
    rw [create_100_half]
    exact ⟨_, rfl, _, rfl, rfl, rfl⟩
  obtain ⟨s, hs, s1, hs1, hc, hm⟩ := h1
  refine ⟨s1, ReachableVia.call allReleasable (Call.resize 0 100)
    (ReachableVia.call allReleasable (Call.add 1 0 30) ReachableVia.init hs trivial)
    hs1 trivial, hc, hm, ?_⟩
  unfold LRUFileCachePriority.Budget
  rw [hc, hm]
  omega

/-- C1 as amended (budget invariant I1): starting from a freshly constructed policy,
after every sequence of add, touch, remove and collect-evict-finalize calls that return
normally (no resize), the protected tier has `cur_bytes ≤ max_bytes` and
`cur_elements ≤ max_elements`; and so has the probationary tier as long as no call of the
sequence has downgraded an entry from the protected to the probationary queue. -/
theorem budget_invariant (max_size max_elements : Nat) (size_ratio : ℚ)
    (s : SLRUFileCachePriority) :
    (ReachableVia noResize (SLRUFileCachePriority.create max_size max_elements size_ratio) s →
      s.protected_queue.Budget) ∧
    (ReachableVia noResizeNoDowngrade
        (SLRUFileCachePriority.create max_size max_elements size_ratio) s →
      s.probationary_queue.Budget) := by
  constructor
  · intro h
    induction h with
    | init => exact ⟨Nat.zero_le _, Nat.zero_le _⟩
    | call releasable c _ hstep hallowed ih => exact step_protected_budget hstep hallowed ih
  · intro h
    induction h with
    | init => exact ⟨Nat.zero_le _, Nat.zero_le _⟩
    | call releasable c _ hstep hallowed ih => exact step_probationary_budget hstep hallowed ih

/-- C1 as amended, at a concrete input: a fresh policy (100 bytes, ratio 0.5) after adding
a 30-byte segment and touching it. -/
theorem budget_invariant_witness :
    ∃ s, ReachableVia noResize (SLRUFileCachePriority.create 100 100 (1 / 2)) s ∧
      ReachableVia noResizeNoDowngrade (SLRUFileCachePriority.create 100 100 (1 / 2)) s ∧
      s.protected_queue.current_size = 30 ∧
      s.protected_queue.Budget ∧ s.probationary_queue.Budget := by
  have h1 : ∃ s, step (SLRUFileCachePriority.create 100 100 (1 / 2)) allReleasable
      (Call.add 1 0 30) = .ok s ∧ s.probationary_queue.ids = [0] ∧
      ∃ s1, step s allReleasable (Call.touch 0) = .ok s1 ∧
        s1.protected_queue.current_size = 30 ∧ s.protected_queue.ids = [] ∧
        (SLRUFileCachePriority.create 100 100 (1 / 2)).protected_queue.ids = [] := by
    rw [create_100_half]
    exact ⟨_, rfl, rfl, _, rfl, rfl, rfl, rfl⟩
  obtain ⟨s, hs, -, s1, hs1, hc, he, he0⟩ := h1
  have r1 : ReachableVia noResize (SLRUFileCachePriority.create 100 100 (1 / 2)) s1 :=
    ReachableVia.call allReleasable (Call.touch 0)
      (ReachableVia.call allReleasable (Call.add 1 0 30) ReachableVia.init hs rfl) hs1 rfl
  have r2 : ReachableVia noResizeNoDowngrade
      (SLRUFileCachePriority.create 100 100 (1 / 2)) s1 :=
    ReachableVia.call allReleasable (Call.touch 0)
      (ReachableVia.call allReleasable (Call.add 1 0 30) ReachableVia.init hs
        ⟨rfl, by rw [he0]; simp⟩) hs1 ⟨rfl, by rw [he]; simp⟩
  exact ⟨s1, r1, r2, hc, (budget_invariant 100 100 (1 / 2) s1).1 r1,
    (budget_invariant 100 100 (1 / 2) s1).2 r2⟩

/-- C5: promotion into an empty protected tier.  When the protected queue is empty, the
entry `n` of a probationary iterator is no larger than the protected byte limit and the
protected element limit admits one element (scenario 3: limits that do not bind), the
touch succeeds for every releasability, removes `n` from the probationary queue (the
other entries keep their order), makes the protected queue `[n]`, tags the iterator
protected and changes no other iterator, so nothing is evicted or invalidated. -/
theorem promotion_into_empty_protected (s : SLRUFileCachePriority)
    (releasable : Nat → Bool) (it : Nat) (n : Node)
    (hq : s.protected_queue.queue = [])
    (hsz : s.protected_queue.current_size = 0)
    (hel : s.protected_queue.current_elements_num = 0)
    (hit : s.iterators it = ⟨some Tier.PROBATIONARY, false⟩)
    (hfind : s.probationary_queue.find it = some n)
    (hsize : n.entry.size ≤ s.protected_queue.max_size)
    (hme : 1 ≤ s.protected_queue.max_elements) :
    ∃ s1, SLRUIterator.increasePriority s releasable it = .ok (s1, n.entry.hits) ∧
      s1.protected_queue.queue = [n] ∧
      s1.protected_queue.current_size = n.entry.size ∧
      s1.probationary_queue.queue =
        s.probationary_queue.queue.eraseP (fun m => m.it == it) ∧
      s1.probationary_queue.current_size = s.probationary_queue.current_size - n.entry.size ∧
      s1.iterators = Function.update s.iterators it ⟨some Tier.PROTECTED, true⟩ := by
  have hnit : n.it = it := (LRUFileCachePriority.find_some hfind).1
  have hn : (⟨it, n.entry⟩ : Node) = n := by rw [← hnit]
  have hvalid : SLRUIterator.assertValid s it = .ok () := by
    simp [SLRUIterator.assertValid, hit]
  have hget : SLRUIterator.getEntry s it = .ok n.entry := by
    simp [SLRUIterator.getEntry, hvalid, SLRUFileCachePriority.lruGetEntry, hit,
      SLRUFileCachePriority.queueOf, hfind]
  have hfit : s.protected_queue.canFit n.entry.size = true := by
    simp [LRUFileCachePriority.canFit, hsz, hel, hsize, hme]
  have hd : s.protected_queue.collectCandidatesForEviction releasable n.entry.size
      FileCacheReserveStat.empty [] none = (true, FileCacheReserveStat.empty, []) := by
    simp [LRUFileCachePriority.collectCandidatesForEviction, hfit]
  have hrem : s.lruRemove it = .ok (s.withQueue Tier.PROBATIONARY
      { s.probationary_queue with
        queue := s.probationary_queue.queue.eraseP (fun m => m.it == it),
        current_size := s.probationary_queue.current_size - n.entry.size,
        current_elements_num := s.probationary_queue.current_elements_num - 1 }) := by
    simp [SLRUFileCachePriority.lruRemove, hit, SLRUFileCachePriority.queueOf,
      LRUFileCachePriority.remove, hfind]
  have hprom : s.promote it [] = .ok
      { s with
        protected_queue :=
          { s.protected_queue with queue := [n], current_size := n.entry.size,
                                   current_elements_num := 1 },
        probationary_queue :=
          { s.probationary_queue with
            queue := s.probationary_queue.queue.eraseP (fun m => m.it == it),
            current_size := s.probationary_queue.current_size - n.entry.size,
            current_elements_num := s.probationary_queue.current_elements_num - 1 },
        iterators := Function.update s.iterators it ⟨some Tier.PROTECTED, true⟩ } := by
    simp [SLRUFileCachePriority.promote, hget, hrem, SLRUFileCachePriority.forCandidates,
      SLRUFileCachePriority.withQueue, LRUFileCachePriority.add, hfit, hq, hsz, hel, hn]
  have hinc : s.increasePriority releasable it = s.promote it [] := by
    have hlim : ¬ n.entry.size > s.protected_queue.getSizeLimit := by
      simp [LRUFileCachePriority.getSizeLimit, hsize]
    unfold SLRUFileCachePriority.increasePriority
    simp only [hit, hget, hd]
    simp [hlim, FileCacheReserveStat.empty]
  refine ⟨{ s with
        protected_queue :=
          { s.protected_queue with queue := [n], current_size := n.entry.size,
                                   current_elements_num := 1 },
        probationary_queue :=
          { s.probationary_queue with
            queue := s.probationary_queue.queue.eraseP (fun m => m.it == it),
            current_size := s.probationary_queue.current_size - n.entry.size,
            current_elements_num := s.probationary_queue.current_elements_num - 1 },
        iterators := Function.update s.iterators it ⟨some Tier.PROTECTED, true⟩ },
    ?_, rfl, rfl, rfl, rfl, rfl⟩
  unfold SLRUIterator.increasePriority
  rw [hvalid, hinc, hprom]
  simp [SLRUIterator.getEntry, SLRUIterator.assertValid, SLRUFileCachePriority.lruGetEntry,
    SLRUFileCachePriority.queueOf, LRUFileCachePriority.find, hnit]

/-- C5 at a concrete input, scenario 3 of the spec: probationary `[A, B, C]`, protected
empty; `touch(B)` gives protected `[B]` and probationary `[A, C]`. -/
theorem promotion_into_empty_protected_witness :
    ∃ s1, SLRUIterator.increasePriority scenario1 allReleasable 1 = .ok (s1, 0) ∧
      s1.protected_queue.queue = [⟨1, ⟨2, 0, 30, 0⟩⟩] ∧
      s1.probationary_queue.queue = [⟨0, ⟨1, 0, 30, 0⟩⟩, ⟨2, ⟨3, 0, 30, 0⟩⟩] ∧
      s1.iterators 1 = ⟨some Tier.PROTECTED, true⟩ := by
  obtain ⟨s1, h1, h2, -, h3, -, h4⟩ :=
    promotion_into_empty_protected scenario1 allReleasable 1 ⟨1, ⟨2, 0, 30, 0⟩⟩
      rfl rfl rfl rfl rfl (by decide) (by decide)
  exact ⟨s1, h1, h2, h3, by rw [h4]; simp⟩

/-! ### The effect of a run of downgrades -/

theorem eraseP_eq_filter (l : List Node) (c : Nat) (h : (l.map (fun n => n.it)).Nodup) :
    l.eraseP (fun m => m.it == c) = l.filter (fun n => decide (n.it ≠ c)) := by
  induction l with
  | nil => rfl
  | cons a l ih =>
    have hnd : (l.map (fun n => n.it)).Nodup := (List.nodup_cons.mp h).2
    have hnot : a.it ∉ l.map (fun n => n.it) := (List.nodup_cons.mp h).1
    by_cases hac : a.it = c
    · have hall : ∀ n ∈ l, decide (n.it ≠ c) = true := by
        intro n hn
        have : n.it ≠ c := by
          intro e
          exact hnot (List.mem_map.mpr ⟨n, hn, by rw [e, hac]⟩)
        simpa using this
      have hself := List.filter_eq_self.mpr hall
      rw [List.eraseP_cons, List.filter_cons]
      simp only [hac, beq_self_eq_true, if_true, ne_eq, not_true_eq_false, decide_False]
      exact hself.symm
    · have h1 : (a.it == c) = false := by simpa using hac
      simp [List.eraseP_cons, h1, List.filter_cons, hac, ih hnd]

theorem find_eraseP_ne (l : List Node) (c b : Nat) (h : b ≠ c) :
    (l.eraseP (fun m => m.it == c)).find? (fun n => n.it == b) =
      l.find? (fun n => n.it == b) := by
  induction l with
  | nil => rfl
  | cons a l ih =>
    by_cases hac : a.it = c
    · have hab : (a.it == b) = false := by
        simp only [beq_eq_false_iff_ne, ne_eq]
        rw [hac]; exact fun e => h e.symm
      have hac1 : (a.it == c) = true := by simpa using hac
      rw [List.eraseP_cons, List.find?_cons]
      simp only [hac1, hab, cond_true]
    · have h1 : (a.it == c) = false := by simpa using hac
      rw [List.eraseP_cons]
      simp only [h1, cond_false]
      rw [List.find?_cons, List.find?_cons, ih]

/-- A run of downgrades over distinct entries of the protected queue succeeds; it removes
exactly these entries from the protected queue, appends them in order to the probationary
queue, moves their bytes and counts from one total to the other, and retargets exactly
their iterators. -/
theorem SLRUFileCachePriority.downgrades_effect :
    ∀ (cs : List Nat) (s : SLRUFileCachePriority) (x : Option Nat), s.Inv x → cs.Nodup →
      (∀ c ∈ cs, c ∈ s.protected_queue.ids) →
      ∃ s1, SLRUFileCachePriority.forKeyCandidates SLRUFileCachePriority.downgrade cs s
          = .ok s1 ∧
        (cs.filterMap s.protected_queue.find).map (fun n => n.it) = cs ∧
        s1.protected_queue.queue =
          s.protected_queue.queue.filter (fun n => decide (n.it ∉ cs)) ∧
        s1.probationary_queue.queue =
          s.probationary_queue.queue ++ cs.filterMap s.protected_queue.find ∧
        s1.protected_queue.current_size = s.protected_queue.current_size -
          ((cs.filterMap s.protected_queue.find).map (fun n => n.entry.size)).sum ∧
        s1.probationary_queue.current_size = s.probationary_queue.current_size +
          ((cs.filterMap s.protected_queue.find).map (fun n => n.entry.size)).sum ∧
        s1.protected_queue.current_elements_num =
          s.protected_queue.current_elements_num - cs.length ∧
        s1.probationary_queue.current_elements_num =
          s.probationary_queue.current_elements_num + cs.length ∧
        (∀ c, s1.iterators c =
          if c ∈ cs then ⟨some Tier.PROBATIONARY, false⟩ else s.iterators c) := by
  intro cs
  induction cs with
  | nil =>
    intro s x _ _ _
    exact ⟨s, rfl, rfl, by simp, by simp, by simp, by simp, by simp, by simp, by simp⟩
  | cons c cs ih =>
    intro s x inv hnd hmem
    have hc : c ∈ s.protected_queue.ids := hmem c (List.mem_cons_self _ _)
    obtain ⟨n, hn⟩ := LRUFileCachePriority.find_of_mem_ids hc
    have hnit : n.it = c := (LRUFileCachePriority.find_some hn).1
    have hlive : (s.iterators c).lru_iterator = some Tier.PROTECTED :=
      InvCore.mem_live inv (t := Tier.PROTECTED) hc
    have hstep : s.downgrade c = .ok
        { s with
          protected_queue :=
            { s.protected_queue with
              queue := s.protected_queue.queue.eraseP (fun m => m.it == c),
              current_size := s.protected_queue.current_size - n.entry.size,
              current_elements_num := s.protected_queue.current_elements_num - 1 },
          probationary_queue :=
            { s.probationary_queue with
              queue := s.probationary_queue.queue ++ [n],
              current_size := s.probationary_queue.current_size + n.entry.size,
              current_elements_num := s.probationary_queue.current_elements_num + 1 },
          iterators := Function.update s.iterators c ⟨some Tier.PROBATIONARY, false⟩ } := by
      simp [SLRUFileCachePriority.downgrade, hlive, LRUFileCachePriority.move, hn]
    have inv2 := SLRUFileCachePriority.downgrade_inv inv hstep
    have hcs : c ∉ cs := (List.nodup_cons.mp hnd).1
    have hnd2 : cs.Nodup := (List.nodup_cons.mp hnd).2
    have hfind2 : ∀ b, b ≠ c →
        LRUFileCachePriority.find
          { s.protected_queue with
            queue := s.protected_queue.queue.eraseP (fun m => m.it == c),
            current_size := s.protected_queue.current_size - n.entry.size,
            current_elements_num := s.protected_queue.current_elements_num - 1 } b =
        s.protected_queue.find b := by
      intro b hb
      exact find_eraseP_ne _ c b hb
    have hfm : cs.filterMap (LRUFileCachePriority.find
          { s.protected_queue with
            queue := s.protected_queue.queue.eraseP (fun m => m.it == c),
            current_size := s.protected_queue.current_size - n.entry.size,
            current_elements_num := s.protected_queue.current_elements_num - 1 }) =
        cs.filterMap s.protected_queue.find := by
      apply List.filterMap_congr
      intro b hb
      exact hfind2 b (fun e => hcs (e ▸ hb))
    have hmem2 : ∀ b ∈ cs, b ∈ LRUFileCachePriority.ids
          { s.protected_queue with
            queue := s.protected_queue.queue.eraseP (fun m => m.it == c),
            current_size := s.protected_queue.current_size - n.entry.size,
            current_elements_num := s.protected_queue.current_elements_num - 1 } := by
      intro b hb
      have hbc : b ≠ c := fun e => hcs (e ▸ hb)
      have : b ∈ s.protected_queue.ids := hmem b (List.mem_cons_of_mem _ hb)
      simp only [LRUFileCachePriority.ids, ids_eraseP]
      exact (List.mem_erase_of_ne hbc).mpr this
    obtain ⟨s1, h1, h2, h3, h4, h5, h6, h7, h8, h9⟩ := ih _ x inv2 hnd2 hmem2
    simp only [hfm] at h2 h4 h5 h6
    simp only at h3 h4 h5 h6 h7 h8 h9
    refine ⟨s1, ?_, ?_, ?_, ?_, ?_, ?_, ?_, ?_, ?_⟩
    · simp only [SLRUFileCachePriority.forKeyCandidates, hstep]
      exact h1
    · simp [List.filterMap_cons, hn, hnit, h2]
    · have hndP : (s.protected_queue.queue.map (fun n => n.it)).Nodup :=
        inv.nodup Tier.PROTECTED
      rw [h3, eraseP_eq_filter _ _ hndP, List.filter_filter]
      apply List.filter_congr
      intro a _
      by_cases hac : a.it = c <;> simp [hac]
    · simp [List.filterMap_cons, hn, h4]
    · simp only [List.filterMap_cons, hn, List.map_cons, List.sum_cons]
      rw [h5, Nat.sub_sub]
    · simp only [List.filterMap_cons, hn, List.map_cons, List.sum_cons]
      rw [h6]; omega
    · rw [h7]; simp only [List.length_cons]; omega
    · rw [h8]; simp only [List.length_cons]; omega
    · intro b
      rw [h9]
      by_cases hb : b ∈ cs
      · simp [hb]
      · by_cases hbc : b = c
        · subst hbc; simp [hb]
        · simp [hb, hbc, Function.update_noteq hbc]

theorem EvictionCandidates.perm_all_add (res : EvictionCandidates) (key c : Nat) :
    List.Perm (EvictionCandidates.all (EvictionCandidates.add res key c))
      (c :: EvictionCandidates.all res) := by
  induction res with
  | nil => simp [EvictionCandidates.add, EvictionCandidates.all]
  | cons kc rest ih =>
    obtain ⟨k, cs⟩ := kc
    unfold EvictionCandidates.add
    by_cases hk : k = key
    · simp only [hk, if_true, EvictionCandidates.all, List.map_cons, List.flatten_cons]
      rw [List.append_assoc]
      exact (List.perm_middle).trans (List.Perm.refl _)
    · simp only [hk, if_false]
      have ih2 : List.Perm (List.map (fun kc => kc.2) (EvictionCandidates.add rest key c)).flatten
          (c :: (List.map (fun kc => kc.2) rest).flatten) := ih
      simp only [EvictionCandidates.all, List.map_cons, List.flatten_cons]
      exact (List.Perm.append_left cs ih2).trans List.perm_middle

/-- The walk over a list without repeated addresses collects no candidate twice. -/
theorem LRUFileCachePriority.collectWalk_nodup (releasable : Nat → Bool)
    (reservee : Option Nat) (size : Nat) (l : List Node) :
    ∀ (gathered : Nat) (stat : FileCacheReserveStat) (res : EvictionCandidates),
      (l.map (fun n => n.it)).Nodup → (EvictionCandidates.all res).Nodup →
      (∀ b ∈ l.map (fun n => n.it), b ∉ EvictionCandidates.all res) →
      (EvictionCandidates.all
        (LRUFileCachePriority.collectWalk releasable reservee size l gathered stat res).2.2).Nodup
    := by
  induction l with
  | nil => intro gathered stat res _ h _; exact h
  | cons n rest ih =>
    intro gathered stat res hl hres hdis
    have hl2 : (rest.map (fun n => n.it)).Nodup := (List.nodup_cons.mp hl).2
    have hn : n.it ∉ rest.map (fun n => n.it) := (List.nodup_cons.mp hl).1
    have hdis2 : ∀ b ∈ rest.map (fun n => n.it), b ∉ EvictionCandidates.all res :=
      fun b hb => hdis b (List.mem_cons_of_mem _ hb)
    unfold LRUFileCachePriority.collectWalk
    split
    · exact hres
    · split
      · exact ih _ _ _ hl2 hres hdis2
      · split
        · apply ih _ _ _ hl2
          · rw [(EvictionCandidates.perm_all_add res _ _).nodup_iff, List.nodup_cons]
            exact ⟨hdis n.it (List.mem_cons_self _ _), hres⟩
          · intro b hb hb2
            rcases (EvictionCandidates.mem_all_add res _ _ b).mp hb2 with h | h
            · exact hdis2 b hb h
            · exact hn (h ▸ hb)
        · exact ih _ _ _ hl2 hres hdis2

theorem LRUFileCachePriority.collect_nodup (q : LRUFileCachePriority)
    (releasable : Nat → Bool) (size : Nat) (stat : FileCacheReserveStat)
    (reservee : Option Nat) (hq : q.ids.Nodup) :
    (EvictionCandidates.all
      (q.collectCandidatesForEviction releasable size stat [] reservee).2.2).Nodup := by
  unfold LRUFileCachePriority.collectCandidatesForEviction
  split
  · exact List.nodup_nil
  · exact LRUFileCachePriority.collectWalk_nodup releasable reservee size q.queue 0 stat []
      hq List.nodup_nil (fun _ _ h => by simp [EvictionCandidates.all] at h)

/-- C9 (finalize effect).  Let the reservee be tagged protected, let the protected queue
be unable to fit `size`, and let the call return `true`; `S` is the downgrade set
collected from the protected queue.  Then the finalize action is set to `S`, the reservee
is not in `S`, and invoking the action on a well-formed state `s2` whose protected queue
is the one of the call (the state of the call itself, or the one after the caller evicted
probationary candidates) removes exactly the entries of `S` from the protected queue,
appends them in order at the MRU end of the probationary queue, moves their total size
from `protected.current_size` to `probationary.current_size`, tags their iterators
probationary and leaves every other iterator as it was. -/
theorem finalize_effect (s s2 : SLRUFileCachePriority) (releasable : Nat → Bool)
    (size : Nat) (stat : FileCacheReserveStat) (res : EvictionCandidates) (it : Nat)
    (fn : FinalizeEvictionFunc)
    (hp : (s.iterators it).is_protected = true)
    (hnofit : s.protected_queue.canFit size = false)
    (hok : (s.collectCandidatesForEviction releasable size stat res (some it) fn).ok = true)
    (inv2 : s2.Inv none) (hq : s2.protected_queue = s.protected_queue) :
    (s.collectCandidatesForEviction releasable size stat res (some it) fn).finalize_eviction_func
      = some (s.protected_queue.collectCandidatesForEviction releasable size
          FileCacheReserveStat.empty [] (some it)).2.2 ∧
    it ∉ EvictionCandidates.all (s.protected_queue.collectCandidatesForEviction releasable size
          FileCacheReserveStat.empty [] (some it)).2.2 ∧
    ∃ s1 moved,
      SLRUFileCachePriority.runFinalize
        (s.collectCandidatesForEviction releasable size stat res (some it)
          fn).finalize_eviction_func s2 = .ok s1 ∧
      moved.map (fun n => n.it) =
        EvictionCandidates.all (s.protected_queue.collectCandidatesForEviction releasable size
          FileCacheReserveStat.empty [] (some it)).2.2 ∧
      (∀ n ∈ moved, n ∈ s.protected_queue.queue) ∧
      s1.protected_queue.queue =
        s2.protected_queue.queue.filter (fun n => decide (n.it ∉ moved.map (fun m => m.it))) ∧
      s1.probationary_queue.queue = s2.probationary_queue.queue ++ moved ∧
      s1.protected_queue.current_size =
        s2.protected_queue.current_size - (moved.map (fun n => n.entry.size)).sum ∧
      s1.probationary_queue.current_size =
        s2.probationary_queue.current_size + (moved.map (fun n => n.entry.size)).sum ∧
      (∀ c, s1.iterators c =
        if c ∈ moved.map (fun n => n.it) then ⟨some Tier.PROBATIONARY, false⟩
        else s2.iterators c) := by
  have hfn : (s.collectCandidatesForEviction releasable size stat res (some it)
      fn).finalize_eviction_func
      = some (s.protected_queue.collectCandidatesForEviction releasable size
          FileCacheReserveStat.empty [] (some it)).2.2 := by
    unfold SLRUFileCachePriority.collectCandidatesForEviction at hok ⊢
    simp only [hp, hnofit, Bool.not_true, Bool.false_eq_true, if_false] at hok ⊢
    split
    · rename_i h; simp [h] at hok
    · split
      · rfl
      · split
        · rename_i h1 h2 h3; simp [h1, h2, h3] at hok
        · rfl
  have hmemS : ∀ b ∈ EvictionCandidates.all
      (s.protected_queue.collectCandidatesForEviction releasable size
        FileCacheReserveStat.empty [] (some it)).2.2,
      b ∈ s.protected_queue.ids ∧ b ≠ it := by
    intro b hb
    rcases LRUFileCachePriority.collect_mem _ _ _ _ _ _ b hb with h0 | ⟨h1, -, h3⟩
    · simp [EvictionCandidates.all] at h0
    · exact ⟨h1, fun e => h3 (by rw [e])⟩
  have hndS := LRUFileCachePriority.collect_nodup s.protected_queue releasable size
    FileCacheReserveStat.empty (some it) (hq ▸ inv2.nodup Tier.PROTECTED)
  obtain ⟨s1, h1, h2, h3, h4, h5, h6, -, -, h9⟩ :=
    SLRUFileCachePriority.downgrades_effect _ s2 none inv2 hndS
      (fun c hc => hq ▸ (hmemS c hc).1)
  refine ⟨hfn, fun h => (hmemS it h).2 rfl, s1, _, ?_, h2, ?_, ?_, h4, h5, h6, ?_⟩
  · rw [hfn]
    simp only [SLRUFileCachePriority.runFinalize, SLRUFileCachePriority.forCandidates_eq_all]
    exact h1
  · intro n hn
    obtain ⟨c, -, hc⟩ := List.mem_filterMap.mp hn
    rw [← hq]
    exact (LRUFileCachePriority.find_some hc).2
  · rw [h2]; exact h3
  · rw [h2]; exact h9

theorem fullProtected_inv : fullProtected.Inv none := by
  refine ⟨?_, ?_, ?_, ?_, ?_⟩
  · intro t; cases t <;> decide
  · intro t id hid
    cases t with
    | PROTECTED =>
      have : id = 0 ∨ id = 1 := by
        simpa [SLRUFileCachePriority.queueIds, SLRUFileCachePriority.queueOf, fullProtected,
          LRUFileCachePriority.ids] using hid
      rcases this with h | h <;> subst h <;> rfl
    | PROBATIONARY =>
      simp [SLRUFileCachePriority.queueIds, SLRUFileCachePriority.queueOf, fullProtected,
        LRUFileCachePriority.ids, LRUFileCachePriority.create] at hid
  · intro id hid
    refine Or.inl ⟨Tier.PROTECTED, ?_⟩
    by_cases h : id = 0 ∨ id = 1
    · simpa [SLRUFileCachePriority.queueIds, SLRUFileCachePriority.queueOf, fullProtected,
        LRUFileCachePriority.ids] using h
    · simp [fullProtected, h] at hid
  · intro id hx
    exact absurd hx (by simp)
  · intro id hid
    have h : ¬ (id = 0 ∨ id = 1) := by
      have : 2 ≤ id := hid
      omega
    simp [fullProtected, h]

/-- C9 at a concrete input: protected `[X(30), R(20)]` is full and `R` asks for 10 more
bytes; `X` is the downgrade set, and the finalize action leaves protected `[R]` and
probationary `[X]`. -/
theorem finalize_effect_witness :
    (fullProtected.iterators 1).is_protected = true ∧
    fullProtected.protected_queue.canFit 10 = false ∧
    (fullProtected.collectCandidatesForEviction allReleasable 10 FileCacheReserveStat.empty []
      (some 1) none).ok = true ∧
    ∃ s1,
      SLRUFileCachePriority.runFinalize
        (fullProtected.collectCandidatesForEviction allReleasable 10 FileCacheReserveStat.empty
          [] (some 1) none).finalize_eviction_func fullProtected = .ok s1 ∧
      s1.protected_queue.queue = [⟨1, ⟨2, 0, 20, 0⟩⟩] ∧
      s1.probationary_queue.queue = [⟨0, ⟨1, 0, 30, 0⟩⟩] ∧
      s1.protected_queue.current_size = 20 ∧
      s1.probationary_queue.current_size = 30 ∧
      s1.iterators 0 = ⟨some Tier.PROBATIONARY, false⟩ ∧
      s1.iterators 1 = ⟨some Tier.PROTECTED, true⟩ := by
  obtain ⟨-, -, s1, moved, h1, h2, -, h4, h5, h6, h7, h8⟩ :=
    finalize_effect fullProtected fullProtected allReleasable 10 FileCacheReserveStat.empty []
      1 none rfl rfl rfl fullProtected_inv rfl
  have hS : EvictionCandidates.all
      (fullProtected.protected_queue.collectCandidatesForEviction allReleasable 10
        FileCacheReserveStat.empty [] (some 1)).2.2 = [0] := rfl
  rw [hS] at h2
  have hm : moved = [⟨0, ⟨1, 0, 30, 0⟩⟩] := by
    have hrun : SLRUFileCachePriority.runFinalize
        (fullProtected.collectCandidatesForEviction allReleasable 10 FileCacheReserveStat.empty
          [] (some 1) none).finalize_eviction_func fullProtected = .ok
        { fullProtected with
          protected_queue :=
            { queue := [⟨1, ⟨2, 0, 20, 0⟩⟩], max_size := 50, max_elements := 50,
              current_size := 20, current_elements_num := 1 },
          probationary_queue :=
            { queue := [⟨0, ⟨1, 0, 30, 0⟩⟩], max_size := 50, max_elements := 50,
              current_size := 30, current_elements_num := 1 },
          iterators := Function.update fullProtected.iterators 0
            ⟨some Tier.PROBATIONARY, false⟩ } := rfl
    rw [hrun] at h1
    injection h1 with h1
    subst h1
    simpa [fullProtected, LRUFileCachePriority.create] using h5.symm
  subst hm
  refine ⟨rfl, rfl, rfl, s1, h1, ?_, ?_, ?_, ?_, ?_, ?_⟩
  · rw [h4]; rfl
  · rw [h5]; rfl
  · rw [h6]; rfl
  · rw [h7]; rfl
  · rw [h8]; rfl
  · rw [h8]; rfl

/-! ### The limits of the two tiers -/

theorem getRatio_of_nonpos (total : Nat) (ratio : ℚ) (h : ratio ≤ 0) :
    getRatio total ratio = 0 := by
  unfold getRatio
  have h1 : min 1 ratio = ratio := min_eq_right (by linarith)
  rw [h1, max_eq_left h, mul_zero, roundDouble_zero]
  simp

theorem getRatio_of_one_le (total : Nat) (ratio : ℚ) (ht : total < 2 ^ 53) (h : 1 ≤ ratio) :
    getRatio total ratio = total := by
  have h1 : min 1 ratio = 1 := min_eq_left h
  apply getRatio_eq_of_natCast total total ratio ht ht
  rw [h1, max_eq_right (by norm_num), mul_one]

/-- Below `2^51` the two rounded products stay within the total. -/
theorem getRatio_add_le (total : Nat) (ratio : ℚ) (ht : total ≤ 2 ^ 51) :
    getRatio total ratio + getRatio total (roundDouble (1 - ratio)) ≤ total := by
  have ht53 : total < 2 ^ 53 := lt_of_le_of_lt ht (by norm_num)
  rcases le_total ratio 0 with h0 | h0
  · rw [getRatio_of_nonpos total ratio h0,
      getRatio_of_one_le total _ ht53 (one_le_roundDouble (by linarith))]
    omega
  rcases le_total 1 ratio with h1 | h1
  · rw [getRatio_of_one_le total ratio ht53 h1,
      getRatio_of_nonpos total _ (roundDouble_nonpos (by linarith))]
    omega
  -- a ratio strictly between 0 and 1: bound the three rounding errors
  have hc : max 0 (min 1 ratio) = ratio := by
    rw [min_eq_right h1, max_eq_right h0]
  unfold getRatio
  rw [roundDouble_natCast total ht53, hc]
  have hy0 : 0 ≤ roundDouble (1 - ratio) := roundDouble_nonneg (by linarith)
  have hyle := roundDouble_le (show 0 ≤ 1 - ratio by linarith)
  have hc0 : 0 ≤ max 0 (min 1 (roundDouble (1 - ratio))) := le_max_left _ _
  have hc1 : max 0 (min 1 (roundDouble (1 - ratio))) ≤ 1 := max_le (by norm_num) (min_le_left _ _)
  have hcy : max 0 (min 1 (roundDouble (1 - ratio))) ≤ roundDouble (1 - ratio) :=
    max_le hy0 (min_le_right _ _)
  generalize roundDouble (1 - ratio) = y at hy0 hyle hc0 hc1 hcy ⊢
  generalize max 0 (min 1 y) = c at hc0 hc1 hcy ⊢
  have hT : (total : ℚ) ≤ 2 ^ 51 := by exact_mod_cast ht
  have hT0 : (0 : ℚ) ≤ total := Nat.cast_nonneg _
  have ha0 : 0 ≤ (total : ℚ) * ratio := mul_nonneg hT0 h0
  have hb0 : 0 ≤ (total : ℚ) * c := mul_nonneg hT0 hc0
  have hA := roundDouble_le ha0
  have hB := roundDouble_le hb0
  have hA0 := roundDouble_nonneg ha0
  have hB0 := roundDouble_nonneg hb0
  have hu0 : (0 : ℚ) ≤ (2 : ℚ) ^ (-53 : ℤ) := (two_zpow_pos _).le
  have huv : (2 : ℚ) ^ (-53 : ℤ) = 1 / 2 ^ 53 := by norm_num
  have ht0 : (0 : ℚ) ≤ (2 : ℚ) ^ (-1075 : ℤ) := (two_zpow_pos _).le
  have htv : (2 : ℚ) ^ (-1075 : ℤ) ≤ 1 / 2 ^ 60 := by
    have : (2 : ℚ) ^ (-1075 : ℤ) ≤ (2 : ℚ) ^ (-60 : ℤ) :=
      zpow_le_zpow_right₀ (by norm_num) (by norm_num)
    refine le_trans this ?_
    norm_num
  generalize (2 : ℚ) ^ (-53 : ℤ) = u at hu0 huv hyle hA hB
  generalize (2 : ℚ) ^ (-1075 : ℤ) = t at ht0 htv hyle hA hB
  have hTu : (total : ℚ) * u ≤ 1 / 4 := by
    rw [huv]
    have := mul_le_mul_of_nonneg_right hT (show (0 : ℚ) ≤ 1 / 2 ^ 53 by norm_num)
    refine le_trans this ?_
    norm_num
  have hTt : (total : ℚ) * t ≤ 1 / 16 := by
    have h1 := mul_le_mul hT htv ht0 (by norm_num : (0 : ℚ) ≤ 2 ^ 51)
    refine le_trans h1 ?_
    norm_num
  have ht16 : t ≤ 1 / 16 := le_trans htv (by norm_num)
  -- crude bounds on the products
  have haT : (total : ℚ) * ratio ≤ total := by
    have := mul_le_mul_of_nonneg_left h1 hT0
    rwa [mul_one] at this
  have hbT : (total : ℚ) * c ≤ total := by
    have := mul_le_mul_of_nonneg_left hc1 hT0
    rwa [mul_one] at this
  have hau : (total : ℚ) * ratio * u ≤ 1 / 4 :=
    le_trans (mul_le_mul_of_nonneg_right haT hu0) hTu
  have hbu : (total : ℚ) * c * u ≤ 1 / 4 :=
    le_trans (mul_le_mul_of_nonneg_right hbT hu0) hTu
  have e1 : (total : ℚ) * c ≤ total * y := mul_le_mul_of_nonneg_left hcy hT0
  have e2 : (total : ℚ) * y ≤ total * ((1 - ratio) + (1 - ratio) * u + t) :=
    mul_le_mul_of_nonneg_left hyle hT0
  have e3 : (total : ℚ) * ((1 - ratio) * u) ≤ total * u := by
    have h3 : (1 - ratio) * u ≤ 1 * u := mul_le_mul_of_nonneg_right (by linarith) hu0
    rw [one_mul] at h3
    exact mul_le_mul_of_nonneg_left h3 hT0
  have e4 : (total : ℚ) * ((1 - ratio) + (1 - ratio) * u + t) =
      total - total * ratio + total * ((1 - ratio) * u) + total * t := by ring
  rw [e4] at e2
  generalize (total : ℚ) * ((1 - ratio) * u) = w1 at e2 e3
  generalize (total : ℚ) * ratio * u = w2 at hA hau
  generalize (total : ℚ) * c * u = w3 at hB hbu
  generalize (total : ℚ) * u = w4 at e3 hTu
  generalize (total : ℚ) * t = w5 at e2 hTt
  generalize (total : ℚ) * y = w6 at e1 e2
  have hsum : roundDouble ((total : ℚ) * ratio) + roundDouble ((total : ℚ) * c) < total + 1 := by
    generalize (total : ℚ) * ratio = a at *
    generalize (total : ℚ) * c = b at *
    linarith
  have hfa := Int.floor_le (roundDouble ((total : ℚ) * ratio))
  have hfb := Int.floor_le (roundDouble ((total : ℚ) * c))
  have hfa0 : 0 ≤ ⌊roundDouble ((total : ℚ) * ratio)⌋ := Int.floor_nonneg.mpr hA0
  have hfb0 : 0 ≤ ⌊roundDouble ((total : ℚ) * c)⌋ := Int.floor_nonneg.mpr hB0
  have hlt : ((⌊roundDouble ((total : ℚ) * ratio)⌋ + ⌊roundDouble ((total : ℚ) * c)⌋ : ℤ) : ℚ)
      < ((total + 1 : ℤ) : ℚ) := by
    push_cast
    linarith
  have hlt2 : ⌊roundDouble ((total : ℚ) * ratio)⌋ + ⌊roundDouble ((total : ℚ) * c)⌋
      < (total : ℤ) + 1 := by exact_mod_cast hlt
  omega

/-- A total that is not a `double`: the conversion rounds `2^53 + 3` up to `2^53 + 4`. -/
theorem getRatio_large : getRatio 9007199254740995 1 = 9007199254740996 := by
  have hu1 : ulpExponent (9007199254740995 : ℚ) = 1 := by
    have := ulpExponent_natCast 9007199254740995
    have hl : Nat.log 2 9007199254740995 = 53 := by
      rw [Nat.log_eq_iff (Or.inl (by norm_num))]
      norm_num
    rw [hl] at this
    simpa using this
  have hu2 : ulpExponent (9007199254740996 : ℚ) = 1 := by
    have := ulpExponent_natCast 9007199254740996
    have hl : Nat.log 2 9007199254740996 = 53 := by
      rw [Nat.log_eq_iff (Or.inl (by norm_num))]
      norm_num
    rw [hl] at this
    simpa using this
  have hf : ⌊(9007199254740995 : ℚ) / 2⌋ = 4503599627370497 := by
    rw [Int.floor_eq_iff]
    norm_num
  have h1 : roundDouble (9007199254740995 : ℚ) = 9007199254740996 := by
    unfold roundDouble roundHalfEven
    rw [hu1]
    simp only [zpow_one, hf]
    norm_num
  have h2 : roundDouble (9007199254740996 : ℚ) = 9007199254740996 := by
    apply roundDouble_exact _ 4503599627370498
    rw [hu2]
    norm_num
  unfold getRatio
  rw [min_self, max_eq_right (by norm_num), mul_one]
  have hc : ((9007199254740995 : ℕ) : ℚ) = (9007199254740995 : ℚ) := by norm_num
  rw [hc, h1, h2]
  have : ⌊(9007199254740996 : ℚ)⌋ = 9007199254740996 := by
    rw [Int.floor_eq_iff]
    norm_num
  rw [this]
  rfl

/-- C18, refuted as stated: the total is converted to `double` before it is multiplied.
For a total of `2^53 + 3` bytes and ratio 1 the conversion rounds to `2^53 + 4`, and the
protected limit is one byte more than the total, so the two limits exceed the total. -/
theorem tier_limit_exceeds_total :
    getRatio 9007199254740995 1 = 9007199254740996 ∧
    (SLRUFileCachePriority.create 9007199254740995 100 1).protected_queue.max_size =
      9007199254740995 + 1 ∧
    ¬ (getRatio 9007199254740995 1 + getRatio 9007199254740995 (roundDouble (1 - 1))
      ≤ 9007199254740995) := by
  refine ⟨getRatio_large, ?_, ?_⟩
  · show getRatio 9007199254740995 1 = 9007199254740995 + 1
    rw [getRatio_large]
  · rw [getRatio_large]
    omega

/-- C18 as amended: for totals up to `2^51` the tier limits never exceed the total
budget.  For every such total and every ratio (the value of a finite `double`, also below
0 and above 1), with the products and `1 - ratio` rounded to `double`,
`getRatio total ratio + getRatio total (1 - ratio) ≤ total`; a ratio `≤ 0` gives limits
`0` and `total`, a ratio `≥ 1` gives `total` and `0`; and the constructor, which uses
`getRatio` for bytes and for element counts alike, builds queues whose limits add up to
at most the totals. -/
theorem tier_limits_within_total (total max_elements : Nat) (ratio : ℚ)
    (ht : total ≤ 2 ^ 51) (he : max_elements ≤ 2 ^ 51) :
    getRatio total ratio + getRatio total (roundDouble (1 - ratio)) ≤ total ∧
    (ratio ≤ 0 →
      getRatio total ratio = 0 ∧ getRatio total (roundDouble (1 - ratio)) = total) ∧
    (1 ≤ ratio →
      getRatio total ratio = total ∧ getRatio total (roundDouble (1 - ratio)) = 0) ∧
    (SLRUFileCachePriority.create total max_elements ratio).protected_queue.max_size +
      (SLRUFileCachePriority.create total max_elements ratio).probationary_queue.max_size
        ≤ total ∧
    (SLRUFileCachePriority.create total max_elements ratio).protected_queue.max_elements +
      (SLRUFileCachePriority.create total max_elements ratio).probationary_queue.max_elements
        ≤ max_elements := by
  have ht53 : total < 2 ^ 53 := lt_of_le_of_lt ht (by norm_num)
  refine ⟨getRatio_add_le total ratio ht, ?_, ?_, getRatio_add_le total ratio ht,
    getRatio_add_le max_elements ratio he⟩
  · intro h
    exact ⟨getRatio_of_nonpos total ratio h,
      getRatio_of_one_le total _ ht53 (one_le_roundDouble (by linarith))⟩
  · intro h
    exact ⟨getRatio_of_one_le total ratio ht53 h,
      getRatio_of_nonpos total _ (roundDouble_nonpos (by linarith))⟩

/-- C18 as amended, at concrete inputs: a ratio below 0, one above 1, and a ratio of one
quarter of 100 bytes. -/
theorem tier_limits_within_total_witness :
    (getRatio 100 (-1) = 0 ∧ getRatio 100 (roundDouble (1 - (-1))) = 100) ∧
    (getRatio 100 2 = 100 ∧ getRatio 100 (roundDouble (1 - 2)) = 0) ∧
    getRatio 100 (1 / 4) + getRatio 100 (roundDouble (1 - 1 / 4)) ≤ 100 :=
  ⟨(tier_limits_within_total 100 100 (-1) (by norm_num) (by norm_num)).2.1 (by norm_num),
   (tier_limits_within_total 100 100 2 (by norm_num) (by norm_num)).2.2.1 (by norm_num),
   (tier_limits_within_total 100 100 (1 / 4) (by norm_num) (by norm_num)).1⟩

/-! ### In-tier touches and the fallback of `increasePriority` -/

/-- The effect of `lru_iterator->increasePriority` on the queue of the inner iterator. -/
theorem SLRUFileCachePriority.lruIncreasePriority_eq (s : SLRUFileCachePriority) (it : Nat)
    (t : Tier) (n : Node) (ht : (s.iterators it).lru_iterator = some t)
    (hf : (s.queueOf t).find it = some n) :
    s.lruIncreasePriority it = .ok (s.withQueue t
      { (s.queueOf t) with
        queue := (s.queueOf t).queue.eraseP (fun m => m.it == it) ++
          [{ n with entry := { n.entry with hits := n.entry.hits + 1 } }] }) := by
  simp [SLRUFileCachePriority.lruIncreasePriority, ht, LRUFileCachePriority.increasePriority,
    hf]

/-- How `increasePriority` decides for an entry that is not tagged protected: under
`fallsBack` it is the in-tier touch, otherwise the promotion, after the eviction of the
probationary candidates when a shortfall is to be freed. -/
theorem SLRUFileCachePriority.increasePriority_eq (s : SLRUFileCachePriority)
    (releasable : Nat → Bool) (it : Nat) (entry : Entry)
    (hp : (s.iterators it).is_protected = false)
    (hg : SLRUIterator.getEntry s it = .ok entry) :
    s.increasePriority releasable it =
      if s.fallsBack releasable entry.size then s.lruIncreasePriority it
      else if SLRUFileCachePriority.sizeToFree
          (s.protected_queue.collectCandidatesForEviction releasable entry.size
            FileCacheReserveStat.empty [] none).2.1 entry.size ≠ 0 then
        match SLRUFileCachePriority.evict
          (s.probationary_queue.collectCandidatesForEviction releasable
            (SLRUFileCachePriority.sizeToFree
              (s.protected_queue.collectCandidatesForEviction releasable entry.size
                FileCacheReserveStat.empty [] none).2.1 entry.size)
            FileCacheReserveStat.empty [] none).2.2 s with
        | .error e => .error e
        | .ok s1 => s1.promote it
            (s.protected_queue.collectCandidatesForEviction releasable entry.size
              FileCacheReserveStat.empty [] none).2.2
      else s.promote it
        (s.protected_queue.collectCandidatesForEviction releasable entry.size
          FileCacheReserveStat.empty [] none).2.2 := by
  unfold SLRUFileCachePriority.increasePriority SLRUFileCachePriority.fallsBack
    SLRUFileCachePriority.sizeToFree
  simp only [hp, hg, Bool.false_eq_true, if_false]
  generalize (if
      (s.protected_queue.collectCandidatesForEviction releasable entry.size
          FileCacheReserveStat.empty [] none).2.1.stat.releasable_count ≠ 0 ∧
        (s.protected_queue.collectCandidatesForEviction releasable entry.size
          FileCacheReserveStat.empty [] none).2.1.stat.releasable_count > entry.size
    then
      (s.protected_queue.collectCandidatesForEviction releasable entry.size
          FileCacheReserveStat.empty [] none).2.1.stat.releasable_count - entry.size
    else 0) = stf
  by_cases h1 : entry.size > s.protected_queue.getSizeLimit
  · simp [h1]
  · by_cases h2 : (s.protected_queue.collectCandidatesForEviction releasable entry.size
        FileCacheReserveStat.empty [] none).1 = true
    · by_cases h3 : stf ≠ 0
      · by_cases h4 : (s.probationary_queue.collectCandidatesForEviction releasable stf
            FileCacheReserveStat.empty [] none).1 = true
        · simp [h1, h2, h3, h4]
        · simp [h1, h2, h3, h4]
      · simp [h1, h2, h3]
    · simp [h1, h2]

/-- A touch of a probationary entry under `fallsBack` returns normally and is exactly the
in-tier touch: the entry, with one more hit, moves to the MRU end of the probationary
queue; nothing else in the policy changes. -/
theorem SLRUIterator.touch_falls_back (s : SLRUFileCachePriority) (releasable : Nat → Bool)
    (it : Nat) (n : Node)
    (hit : s.iterators it = ⟨some Tier.PROBATIONARY, false⟩)
    (hfind : s.probationary_queue.find it = some n)
    (hfb : s.fallsBack releasable n.entry.size = true) :
    ∃ hits, SLRUIterator.increasePriority s releasable it =
      .ok ({ s with
             probationary_queue :=
               { s.probationary_queue with
                 queue := s.probationary_queue.queue.eraseP (fun m => m.it == it) ++
                   [{ n with entry := { n.entry with hits := n.entry.hits + 1 } }] } },
           hits) := by
  have hnit : n.it = it := (LRUFileCachePriority.find_some hfind).1
  have hvalid : SLRUIterator.assertValid s it = .ok () := by
    simp [SLRUIterator.assertValid, hit]
  have hget : SLRUIterator.getEntry s it = .ok n.entry := by
    simp [SLRUIterator.getEntry, hvalid, SLRUFileCachePriority.lruGetEntry, hit,
      SLRUFileCachePriority.queueOf, hfind]
  have hinc : s.increasePriority releasable it = s.lruIncreasePriority it := by
    rw [SLRUFileCachePriority.increasePriority_eq s releasable it n.entry (by rw [hit]) hget,
      if_pos hfb]
  have htouch := SLRUFileCachePriority.lruIncreasePriority_eq s it Tier.PROBATIONARY n
    (by rw [hit]) hfind
  have hfind2 : ∃ m, List.find? (fun m => m.it == it)
      (s.probationary_queue.queue.eraseP (fun m => m.it == it) ++
        [{ n with entry := { n.entry with hits := n.entry.hits + 1 } }]) = some m := by
    rw [List.find?_append]
    cases hfe : List.find? (fun m => m.it == it)
        (s.probationary_queue.queue.eraseP (fun m => m.it == it)) with
    | some m => exact ⟨m, by simp⟩
    | none =>
      exact ⟨{ n with entry := { n.entry with hits := n.entry.hits + 1 } }, by simp [hnit]⟩
  obtain ⟨m, hm⟩ := hfind2
  refine ⟨m.entry.hits, ?_⟩
  unfold SLRUIterator.increasePriority
  rw [hvalid, hinc, htouch]
  simp [SLRUIterator.getEntry, SLRUIterator.assertValid, SLRUFileCachePriority.lruGetEntry,
    SLRUFileCachePriority.queueOf, SLRUFileCachePriority.withQueue, LRUFileCachePriority.find,
    hit, hm]

/-- C12: an oversized entry stays probationary.  For a probationary entry `n` that is
strictly larger than the byte limit of the protected queue, the touch returns normally;
the protected queue and every iterator (so the tag of the touched one, probationary) are
unchanged, and in the probationary queue the entry has moved to the MRU end, the other
entries keeping their order and the totals their values. -/
theorem oversized_stays_probationary (s : SLRUFileCachePriority) (releasable : Nat → Bool)
    (it : Nat) (n : Node)
    (hit : s.iterators it = ⟨some Tier.PROBATIONARY, false⟩)
    (hfind : s.probationary_queue.find it = some n)
    (hbig : n.entry.size > s.protected_queue.max_size) :
    ∃ s1 hits, SLRUIterator.increasePriority s releasable it = .ok (s1, hits) ∧
      s1.protected_queue = s.protected_queue ∧
      s1.iterators = s.iterators ∧
      s1.probationary_queue.queue =
        s.probationary_queue.queue.eraseP (fun m => m.it == it) ++
          [{ n with entry := { n.entry with hits := n.entry.hits + 1 } }] ∧
      s1.probationary_queue.current_size = s.probationary_queue.current_size ∧
      s1.probationary_queue.current_elements_num =
        s.probationary_queue.current_elements_num := by
  have hfb : s.fallsBack releasable n.entry.size = true := by
    simp [SLRUFileCachePriority.fallsBack, LRUFileCachePriority.getSizeLimit, hbig]
  obtain ⟨hits, h⟩ := SLRUIterator.touch_falls_back s releasable it n hit hfind hfb
  exact ⟨_, hits, h, rfl, rfl, rfl, rfl, rfl⟩

/-- C12 at a concrete input, scenario 6 of the spec: `E` (30 bytes) against a protected
limit of 20 bytes. -/
theorem oversized_stays_probationary_witness :
    ∃ s1 hits, SLRUIterator.increasePriority scenario6 allReleasable 0 = .ok (s1, hits) ∧
      s1.protected_queue = scenario6.protected_queue ∧
      s1.iterators 0 = ⟨some Tier.PROBATIONARY, false⟩ ∧
      s1.probationary_queue.queue = [⟨0, ⟨1, 0, 30, 1⟩⟩] := by
  obtain ⟨s1, hits, h1, h2, h3, h4, -, -⟩ :=
    oversized_stays_probationary scenario6 allReleasable 0 ⟨0, ⟨1, 0, 30, 0⟩⟩ rfl rfl
      (by decide)
  exact ⟨s1, hits, h1, h2, by rw [h3]; rfl, by rw [h4]; rfl⟩

/-- The two fallback branches of `increasePriority` (lines 151-158 and 174-181).  For a
probationary entry `n`, when the collection from the protected queue fails, or the
collection that the code runs on the probationary queue fails (for the shortfall it
computes, with no reservee), the touch returns normally having done only the in-tier
touch: the protected queue and every iterator (every tier tag) are unchanged, nothing is
evicted or moved between the queues, and the probationary queue holds the same entries
with the touched one moved to the MRU end. -/
theorem fallback_is_in_tier_touch (s : SLRUFileCachePriority) (releasable : Nat → Bool)
    (it : Nat) (n : Node)
    (hit : s.iterators it = ⟨some Tier.PROBATIONARY, false⟩)
    (hfind : s.probationary_queue.find it = some n)
    (hfall :
      (s.protected_queue.collectCandidatesForEviction releasable n.entry.size
        FileCacheReserveStat.empty [] none).1 = false ∨
      (SLRUFileCachePriority.sizeToFree
          (s.protected_queue.collectCandidatesForEviction releasable n.entry.size
            FileCacheReserveStat.empty [] none).2.1 n.entry.size ≠ 0 ∧
        (s.probationary_queue.collectCandidatesForEviction releasable
          (SLRUFileCachePriority.sizeToFree
            (s.protected_queue.collectCandidatesForEviction releasable n.entry.size
              FileCacheReserveStat.empty [] none).2.1 n.entry.size)
          FileCacheReserveStat.empty [] none).1 = false)) :
    ∃ s1 hits, SLRUIterator.increasePriority s releasable it = .ok (s1, hits) ∧
      s1.protected_queue = s.protected_queue ∧
      s1.iterators = s.iterators ∧
      s1.probationary_queue.queue =
        s.probationary_queue.queue.eraseP (fun m => m.it == it) ++
          [{ n with entry := { n.entry with hits := n.entry.hits + 1 } }] ∧
      s1.probationary_queue.current_size = s.probationary_queue.current_size ∧
      s1.probationary_queue.current_elements_num =
        s.probationary_queue.current_elements_num := by
  have hfb : s.fallsBack releasable n.entry.size = true := by
    unfold SLRUFileCachePriority.fallsBack
    rcases hfall with h | ⟨h1, h2⟩
    · simp [h]
    · simp [h1, h2]
  obtain ⟨hits, h⟩ := SLRUIterator.touch_falls_back s releasable it n hit hfind hfb
  exact ⟨_, hits, h, rfl, rfl, rfl, rfl, rfl⟩

/-- The first fallback branch at a concrete input: protected `[X(30)]` with `X` pinned,
probationary `[B(30)]`; the protected queue cannot yield 30 releasable bytes and
`touch(B)` stays in tier. -/
theorem fallback_is_in_tier_touch_witness :
    (oneEach.protected_queue.collectCandidatesForEviction nothingReleasable 30
        FileCacheReserveStat.empty [] none).1 = false ∧
    ∃ s1 hits, SLRUIterator.increasePriority oneEach nothingReleasable 1 = .ok (s1, hits) ∧
      s1.protected_queue = oneEach.protected_queue ∧
      s1.iterators = oneEach.iterators ∧
      s1.probationary_queue.queue = [⟨1, ⟨2, 0, 30, 1⟩⟩] := by
  obtain ⟨s1, hits, h1, h2, h3, h4, -, -⟩ :=
    fallback_is_in_tier_touch oneEach nothingReleasable 1 ⟨1, ⟨2, 0, 30, 0⟩⟩ rfl rfl
      (Or.inl rfl)
  exact ⟨rfl, s1, hits, h1, h2, h3, by rw [h4]; rfl⟩

/-- The constructor with 4 bytes, 4 elements and ratio 0.5 builds the 2/2 policy. -/
theorem create_4_half : SLRUFileCachePriority.create 4 4 (1 / 2) = emptyPolicy2 := by
  have h1 : getRatio 4 (1 / 2) = 2 :=
    getRatio_eq_of_natCast 4 2 (1 / 2) (by norm_num) (by norm_num) (by norm_num)
  have h2 : getRatio 4 (roundDouble (1 - 1 / 2)) = 2 := by
    rw [show (1 : ℚ) - 1 / 2 = 1 / 2 by norm_num, roundDouble_one_half]
    exact h1
  unfold SLRUFileCachePriority.create emptyPolicy2
  rw [h1, h2]

/-- The shortfall of `increasePriority` is the one computed by `sizeToFree` from the
statistics of the downgrade candidates. -/
theorem SLRUFileCachePriority.increasePriority_shortfall (s : SLRUFileCachePriority)
    (releasable : Nat → Bool) (it : Nat) (entry : Entry)
    (hp : (s.iterators it).is_protected = false)
    (hg : SLRUIterator.getEntry s it = .ok entry)
    (hfb : s.fallsBack releasable entry.size = false)
    (h0 : SLRUFileCachePriority.sizeToFree
      (s.protected_queue.collectCandidatesForEviction releasable entry.size
        FileCacheReserveStat.empty [] none).2.1 entry.size = 0) :
    s.increasePriority releasable it = s.promote it
      (s.protected_queue.collectCandidatesForEviction releasable entry.size
        FileCacheReserveStat.empty [] none).2.2 := by
  rw [SLRUFileCachePriority.increasePriority_eq s releasable it entry hp hg]
  simp [hfb, h0]

/-- C14 at the failing input: in a fresh policy (100 bytes, ratio 0.5) `X` (40 bytes) is
added and promoted, then `Y` (30) and `Z` (20) are added, so that protected = `[X]` and
probationary = `[Y, Z]` is full.  For `touch(Z)` the downgrade set is `X`: it releases
`D = 40` bytes in one entry.  The shortfall the code computes for `s = 20` is 0 (from the
count 1), not `D - s = 20`; nothing is evicted from the probationary queue, and after the
promotion it holds `Y` and `X`, 70 bytes against its limit of 50. -/
theorem shortfall_from_count :
    ∃ s, Reachable (SLRUFileCachePriority.create 100 100 (1 / 2)) s ∧
      SLRUIterator.getEntry s 2 = .ok ⟨3, 0, 20, 0⟩ ∧
      (s.protected_queue.collectCandidatesForEviction allReleasable 20
        FileCacheReserveStat.empty [] none).2.1 = ⟨⟨40, 1⟩⟩ ∧
      SLRUFileCachePriority.sizeToFree ⟨⟨40, 1⟩⟩ 20 = 0 ∧
      s.increasePriority allReleasable 2 = s.promote 2 [(1, [0])] ∧
      ∃ s1, SLRUIterator.increasePriority s allReleasable 2 = .ok (s1, 0) ∧
        s1.probationary_queue.queue = [⟨1, ⟨2, 0, 30, 0⟩⟩, ⟨0, ⟨1, 0, 40, 0⟩⟩] ∧
        s1.probationary_queue.current_size = 70 ∧
        s1.probationary_queue.max_size = 50 := by
  have h : ∃ sa, step (SLRUFileCachePriority.create 100 100 (1 / 2)) allReleasable
      (Call.add 1 0 40) = .ok sa ∧
      ∃ sb, step sa allReleasable (Call.touch 0) = .ok sb ∧
      ∃ sc, step sb allReleasable (Call.add 2 0 30) = .ok sc ∧
      ∃ s, step sc allReleasable (Call.add 3 0 20) = .ok s ∧
        SLRUIterator.getEntry s 2 = .ok ⟨3, 0, 20, 0⟩ ∧
        (s.iterators 2).is_protected = false ∧
        s.fallsBack allReleasable 20 = false ∧
        (s.protected_queue.collectCandidatesForEviction allReleasable 20
          FileCacheReserveStat.empty [] none) = (true, ⟨⟨40, 1⟩⟩, [(1, [0])]) ∧
        ∃ s1, SLRUIterator.increasePriority s allReleasable 2 = .ok (s1, 0) ∧
          s1.probationary_queue.queue = [⟨1, ⟨2, 0, 30, 0⟩⟩, ⟨0, ⟨1, 0, 40, 0⟩⟩] ∧
          s1.probationary_queue.current_size = 70 ∧
          s1.probationary_queue.max_size = 50 := by
    rw [create_100_half]
    exact ⟨_, rfl, _, rfl, _, rfl, _, rfl, rfl, rfl, rfl, rfl, _, rfl, rfl, rfl, rfl⟩
  obtain ⟨sa, ha, sb, hb, sc, hc, s, hs, hg, hp, hfb, hd, h1⟩ := h
  refine ⟨s, ?_, hg, by rw [hd], rfl, ?_, h1⟩
  · exact ReachableVia.call allReleasable (Call.add 3 0 20)
      (ReachableVia.call allReleasable (Call.add 2 0 30)
        (ReachableVia.call allReleasable (Call.touch 0)
          (ReachableVia.call allReleasable (Call.add 1 0 40) ReachableVia.init ha trivial)
          hb trivial) hc trivial) hs trivial
  · have := SLRUFileCachePriority.increasePriority_shortfall s allReleasable 2 ⟨3, 0, 20, 0⟩
      hp hg hfb (by rw [hd]; rfl)
    rw [this, hd]

/-- C15 at the failing input: in a fresh policy (4 bytes, ratio 0.5, so 2 bytes and 2
elements per tier) a 0-byte and a 2-byte segment are added and promoted, then `D` and `E`
(1 byte each, addresses 2 and 3) are added; both queues are full.  For `touch(D)` the
downgrade set has 2 entries, the shortfall is 1, and the candidates collected from the
probationary queue, with no reservee passed, are `D` itself.  The eviction removes `D`
and nulls its iterator, and the touch then fails in `getEntry`. -/
theorem promotion_evicts_promoted :
    ∃ s, Reachable (SLRUFileCachePriority.create 4 4 (1 / 2)) s ∧
      s.probationary_queue.ids = [2, 3] ∧
      s.iterators 2 = ⟨some Tier.PROBATIONARY, false⟩ ∧
      SLRUIterator.getEntry s 2 = .ok ⟨3, 0, 1, 0⟩ ∧
      SLRUFileCachePriority.sizeToFree
        (s.protected_queue.collectCandidatesForEviction allReleasable 1
          FileCacheReserveStat.empty [] none).2.1 1 = 1 ∧
      EvictionCandidates.all (s.probationary_queue.collectCandidatesForEviction allReleasable 1
        FileCacheReserveStat.empty [] none).2.2 = [2] ∧
      (∃ s1, SLRUFileCachePriority.evict
          (s.probationary_queue.collectCandidatesForEviction allReleasable 1
            FileCacheReserveStat.empty [] none).2.2 s = .ok s1 ∧
        s1.probationary_queue.ids = [3] ∧ (s1.iterators 2).lru_iterator = none) ∧
      SLRUIterator.increasePriority s allReleasable 2 = .error Exception.INVALID_ITERATOR := by
  have h : ∃ sa, step (SLRUFileCachePriority.create 4 4 (1 / 2)) allReleasable
      (Call.add 1 0 0) = .ok sa ∧
      ∃ sb, step sa allReleasable (Call.touch 0) = .ok sb ∧
      ∃ sc, step sb allReleasable (Call.add 2 0 2) = .ok sc ∧
      ∃ sd, step sc allReleasable (Call.touch 1) = .ok sd ∧
      ∃ se, step sd allReleasable (Call.add 3 0 1) = .ok se ∧
      ∃ s, step se allReleasable (Call.add 4 0 1) = .ok s ∧
        s.probationary_queue.ids = [2, 3] ∧
        s.iterators 2 = ⟨some Tier.PROBATIONARY, false⟩ ∧
        SLRUIterator.getEntry s 2 = .ok ⟨3, 0, 1, 0⟩ ∧
        SLRUFileCachePriority.sizeToFree
          (s.protected_queue.collectCandidatesForEviction allReleasable 1
            FileCacheReserveStat.empty [] none).2.1 1 = 1 ∧
        EvictionCandidates.all (s.probationary_queue.collectCandidatesForEviction
          allReleasable 1 FileCacheReserveStat.empty [] none).2.2 = [2] ∧
        (∃ s1, SLRUFileCachePriority.evict
            (s.probationary_queue.collectCandidatesForEviction allReleasable 1
              FileCacheReserveStat.empty [] none).2.2 s = .ok s1 ∧
          s1.probationary_queue.ids = [3] ∧ (s1.iterators 2).lru_iterator = none) ∧
        SLRUIterator.increasePriority s allReleasable 2 =
          .error Exception.INVALID_ITERATOR := by
    rw [create_4_half]
    exact ⟨_, rfl, _, rfl, _, rfl, _, rfl, _, rfl, _, rfl, rfl, rfl, rfl, rfl, rfl,
      ⟨_, rfl, rfl, rfl⟩, rfl⟩
  obtain ⟨sa, ha, sb, hb, sc, hc, sd, hd, se, he, s, hs, h1⟩ := h
  refine ⟨s, ?_, h1⟩
  exact ReachableVia.call allReleasable (Call.add 4 0 1)
    (ReachableVia.call allReleasable (Call.add 3 0 1)
      (ReachableVia.call allReleasable (Call.touch 1)
        (ReachableVia.call allReleasable (Call.add 2 0 2)
          (ReachableVia.call allReleasable (Call.touch 0)
            (ReachableVia.call allReleasable (Call.add 1 0 0) ReachableVia.init ha trivial)
            hb trivial) hc trivial) hd trivial) he trivial) hs trivial

/-! ### Lifetime of an iterator -/

/-- The walk succeeds exactly when the bytes already gathered plus the collectable bytes
of the list cover the request. -/
theorem LRUFileCachePriority.collectWalk_ok (releasable : Nat → Bool) (reservee : Option Nat)
    (size : Nat) (l : List Node) :
    ∀ (gathered : Nat) (stat : FileCacheReserveStat) (res : EvictionCandidates),
      (LRUFileCachePriority.collectWalk releasable reservee size l gathered stat res).1 =
        decide (size ≤ gathered +
          LRUFileCachePriority.releasableBytes releasable reservee l) := by
  induction l with
  | nil => intro g st res; simp [collectWalk, releasableBytes]
  | cons n rest ih =>
    intro g st res
    unfold collectWalk releasableBytes
    split
    · rename_i h
      have : size ≤ g + ((if reservee ≠ some n.it ∧ releasable n.it = true then n.entry.size
          else 0) + releasableBytes releasable reservee rest) := by omega
      simp [this]
    · split
      · rename_i h1 h2
        rw [ih]
        simp [h2]
      · split
        · rename_i h1 h2 h3
          rw [ih]
          simp [h2, h3, Nat.add_assoc]
        · rename_i h1 h2 h3
          rw [ih]
          simp [h3]

theorem LRUFileCachePriority.releasableBytes_append (releasable : Nat → Bool)
    (reservee : Option Nat) (l1 l2 : List Node) :
    releasableBytes releasable reservee (l1 ++ l2) =
      releasableBytes releasable reservee l1 + releasableBytes releasable reservee l2 := by
  induction l1 with
  | nil => simp [releasableBytes]
  | cons n rest ih => simp [releasableBytes, ih, Nat.add_assoc]

/-- Moving an entry to the MRU end, with another hit count, keeps the collectable bytes. -/
theorem LRUFileCachePriority.releasableBytes_touch (releasable : Nat → Bool)
    (reservee : Option Nat) (it : Nat) (n m : Node) (hm : m.it = n.it)
    (hs : m.entry.size = n.entry.size) :
    ∀ l : List Node, l.find? (fun a => a.it == it) = some n →
      releasableBytes releasable reservee (l.eraseP (fun a => a.it == it) ++ [m]) =
        releasableBytes releasable reservee l := by
  intro l
  induction l with
  | nil => intro h; simp at h
  | cons a rest ih =>
    intro h
    by_cases ha : a.it = it
    · have hp : (a.it == it) = true := by simpa using ha
      rw [List.find?_cons] at h
      simp only [hp] at h
      injection h with h
      subst h
      rw [List.eraseP_cons]
      simp only [hp, cond_true]
      rw [releasableBytes_append]
      simp only [releasableBytes, hm, hs]
      omega
    · have hp : (a.it == it) = false := by simpa using ha
      rw [List.find?_cons] at h
      simp only [hp] at h
      rw [List.eraseP_cons]
      simp only [hp, cond_false, List.cons_append, releasableBytes]
      rw [ih h]

/-- The outcome of the queue's collect depends on the queue only through its totals, its
limits and its collectable bytes. -/
theorem LRUFileCachePriority.collect_ok_eq (q q1 : LRUFileCachePriority)
    (releasable : Nat → Bool) (size : Nat) (stat : FileCacheReserveStat)
    (res : EvictionCandidates) (reservee : Option Nat)
    (h1 : q1.max_size = q.max_size) (h2 : q1.max_elements = q.max_elements)
    (h3 : q1.current_size = q.current_size)
    (h4 : q1.current_elements_num = q.current_elements_num)
    (h5 : releasableBytes releasable reservee q1.queue =
      releasableBytes releasable reservee q.queue) :
    (q1.collectCandidatesForEviction releasable size stat res reservee).1 =
      (q.collectCandidatesForEviction releasable size stat res reservee).1 := by
  have hfit : q1.canFit size = q.canFit size := by
    simp [canFit, h1, h2, h3, h4]
  unfold collectCandidatesForEviction
  rw [hfit]
  split
  · rfl
  · rw [collectWalk_ok, collectWalk_ok, h5]
/-- A successful promotion leaves the promoted entry at the MRU end of the protected queue
and its iterator tagged protected. -/
theorem SLRUFileCachePriority.promote_shape {s s1 : SLRUFileCachePriority} {it : Nat}
    {cands : EvictionCandidates} (h : s.promote it cands = .ok s1) :
    ∃ l e, s1.protected_queue.queue = l ++ [⟨it, e⟩] ∧
      s1.iterators it = ⟨some Tier.PROTECTED, true⟩ := by
  unfold SLRUFileCachePriority.promote at h
  split at h
  · contradiction
  · rename_i e he
    split at h
    · contradiction
    · split at h
      · contradiction
      · rename_i s3 hs3
        split at h
        · contradiction
        · rename_i q hq
          injection h with h
          subst h
          unfold LRUFileCachePriority.add at hq
          split at hq
          · injection hq with hq
            subst hq
            exact ⟨s3.protected_queue.queue, e, rfl, by simp⟩
          · contradiction

/-- Touching, within its tier, an entry that already is the MRU entry of its queue changes
hit counts only. -/
theorem SLRUIterator.touch_of_mru (s1 : SLRUFileCachePriority) (releasable : Nat → Bool)
    (it : Nat) (t : Tier) (l : List Node) (n1 : Node) (inv : s1.Inv none)
    (ht : (s1.iterators it).lru_iterator = some t)
    (hq : (s1.queueOf t).queue = l ++ [n1]) (hn : n1.it = it)
    (hdec : s1.increasePriority releasable it = s1.lruIncreasePriority it) :
    ∃ s2 hits2, SLRUIterator.increasePriority s1 releasable it = .ok (s2, hits2) ∧
      s1.SameUpToHits s2 := by
  have hnd : ((l ++ [n1]).map (fun n => n.it)).Nodup := by
    have := inv.nodup t
    simpa [SLRUFileCachePriority.queueIds, LRUFileCachePriority.ids, hq] using this
  have hnotin : ∀ b ∈ l, ¬ ((fun a : Node => a.it == it) b = true) := by
    intro b hb hbe
    have hbe : b.it = it := by simpa using hbe
    rw [List.map_append, List.nodup_append] at hnd
    exact hnd.2.2 (List.mem_map.mpr ⟨b, hb, rfl⟩) (by simp [hbe, hn])
  have hfind : (s1.queueOf t).find it = some n1 := by
    unfold LRUFileCachePriority.find
    rw [hq, List.find?_append, List.find?_eq_none.mpr hnotin]
    simp [hn]
  have herase : (s1.queueOf t).queue.eraseP (fun m => m.it == it) = l := by
    rw [hq, List.eraseP_append_right _ hnotin]
    simp [List.eraseP_cons, hn]
  have htouch := SLRUFileCachePriority.lruIncreasePriority_eq s1 it t n1 ht hfind
  rw [herase] at htouch
  have hvalid : SLRUIterator.assertValid s1 it = .ok () := by
    simp [SLRUIterator.assertValid, ht]
  have hfind2 : List.find? (fun m => m.it == it)
      (l ++ [{ n1 with entry := { n1.entry with hits := n1.entry.hits + 1 } }]) =
        some { n1 with entry := { n1.entry with hits := n1.entry.hits + 1 } } := by
    rw [List.find?_append, List.find?_eq_none.mpr hnotin]
    simp [hn]
  refine ⟨s1.withQueue t
        { (s1.queueOf t) with
          queue := l ++ [{ n1 with entry := { n1.entry with hits := n1.entry.hits + 1 } }] },
    n1.entry.hits + 1, ?_, ?_⟩
  · unfold SLRUIterator.increasePriority
    rw [hvalid, hdec, htouch]
    have hit2 : ((s1.withQueue t
        { (s1.queueOf t) with
          queue := l ++ [{ n1 with entry := { n1.entry with hits := n1.entry.hits + 1 } }]
        }).iterators it).lru_iterator = some t := by
      rw [(s1.iterators_withQueue t _).1]; exact ht
    simp [SLRUIterator.getEntry, SLRUIterator.assertValid, SLRUFileCachePriority.lruGetEntry,
      hit2, SLRUFileCachePriority.queueOf_withQueue, LRUFileCachePriority.find, hfind2]
  · cases t with
    | PROTECTED =>
      have hq1 : s1.protected_queue.queue = l ++ [n1] := hq
      refine ⟨?_, rfl, rfl, rfl⟩
      simp [SLRUFileCachePriority.withQueue, SLRUFileCachePriority.queueOf,
        LRUFileCachePriority.forgetHits, hq1, Node.forgetHits]
    | PROBATIONARY =>
      have hq1 : s1.probationary_queue.queue = l ++ [n1] := hq
      refine ⟨rfl, ?_, rfl, rfl⟩
      simp [SLRUFileCachePriority.withQueue, SLRUFileCachePriority.queueOf,
        LRUFileCachePriority.forgetHits, hq1, Node.forgetHits]
theorem find_of_mru {l : List Node} {n1 : Node} {it : Nat}
    (hnd : ((l ++ [n1]).map (fun n => n.it)).Nodup) (hn : n1.it = it) :
    (l ++ [n1]).find? (fun m => m.it == it) = some n1 := by
  have hnotin : ∀ b ∈ l, ¬ ((fun a : Node => a.it == it) b = true) := by
    intro b hb hbe
    have hbe : b.it = it := by simpa using hbe
    rw [List.map_append, List.nodup_append] at hnd
    exact hnd.2.2 (List.mem_map.mpr ⟨b, hb, rfl⟩) (by simp [hbe, hn])
  rw [List.find?_append, List.find?_eq_none.mpr hnotin]
  simp [hn]

/-- The state an in-tier touch returns. -/
theorem SLRUFileCachePriority.lruIncreasePriority_shape {s s1 : SLRUFileCachePriority}
    {it : Nat} (h : s.lruIncreasePriority it = .ok s1) :
    ∃ t n, (s.iterators it).lru_iterator = some t ∧ (s.queueOf t).find it = some n ∧
      s1 = s.withQueue t
        { (s.queueOf t) with
          queue := (s.queueOf t).queue.eraseP (fun m => m.it == it) ++
            [{ n with entry := { n.entry with hits := n.entry.hits + 1 } }] } := by
  cases ht : (s.iterators it).lru_iterator with
  | none => simp [SLRUFileCachePriority.lruIncreasePriority, ht] at h
  | some t =>
    cases hf : (s.queueOf t).find it with
    | none =>
      simp [SLRUFileCachePriority.lruIncreasePriority, ht,
        LRUFileCachePriority.increasePriority, hf] at h
    | some n =>
      rw [SLRUFileCachePriority.lruIncreasePriority_eq s it t n ht hf] at h
      injection h with h
      exact ⟨t, n, rfl, hf, h.symm⟩

theorem SLRUFileCachePriority.increasePriority_of_protected (s : SLRUFileCachePriority)
    (releasable : Nat → Bool) (it : Nat) (hp : (s.iterators it).is_protected = true) :
    s.increasePriority releasable it = s.lruIncreasePriority it := by
  unfold SLRUFileCachePriority.increasePriority
  rw [if_pos hp]

/-- C13 (touch idempotence for recency): in every state reachable from a freshly
constructed policy, when a touch of an iterator returns normally, a second touch of the
same iterator (same releasability) returns normally as well and changes hit counts only:
both queues hold the same entries in the same order with the same totals, and every
iterator keeps its tag. -/
theorem touch_twice_same_recency (max_size max_elements : Nat) (size_ratio : ℚ)
    (s s1 : SLRUFileCachePriority) (releasable : Nat → Bool) (it hits1 : Nat)
    (hreach : Reachable (SLRUFileCachePriority.create max_size max_elements size_ratio) s)
    (h1 : SLRUIterator.increasePriority s releasable it = .ok (s1, hits1)) :
    ∃ s2 hits2, SLRUIterator.increasePriority s1 releasable it = .ok (s2, hits2) ∧
      s1.SameUpToHits s2 := by
  have inv : s.Inv none :=
    reachableVia_inv (SLRUFileCachePriority.create_inv max_size max_elements size_ratio) hreach
  obtain ⟨hlive, hi, -⟩ := SLRUIterator.touch_ok h1
  have inv1 : s1.Inv none := SLRUFileCachePriority.increasePriority_inv inv hi
  -- an in-tier touch leaves the entry at the MRU end of its queue
  have in_tier : s.lruIncreasePriority it = .ok s1 →
      ∃ t n l n1, (s.iterators it).lru_iterator = some t ∧ (s.queueOf t).find it = some n ∧
        s1 = s.withQueue t
          { (s.queueOf t) with
            queue := (s.queueOf t).queue.eraseP (fun m => m.it == it) ++
              [{ n with entry := { n.entry with hits := n.entry.hits + 1 } }] } ∧
        (s1.iterators it).lru_iterator = some t ∧
        (s1.queueOf t).queue = l ++ [n1] ∧ n1.it = it ∧
        n1.entry.size = n.entry.size ∧ s1.iterators = s.iterators := by
    intro h
    obtain ⟨t, n, ht, hf, hs1⟩ := SLRUFileCachePriority.lruIncreasePriority_shape h
    have hnit : n.it = it := (LRUFileCachePriority.find_some hf).1
    refine ⟨t, n, (s.queueOf t).queue.eraseP (fun m => m.it == it),
      { n with entry := { n.entry with hits := n.entry.hits + 1 } }, ht, hf, hs1, ?_, ?_,
      hnit, rfl, ?_⟩
    · rw [hs1, (s.iterators_withQueue t _).1]; exact ht
    · rw [hs1, SLRUFileCachePriority.queueOf_withQueue]; simp
    · rw [hs1, (s.iterators_withQueue t _).1]
  by_cases hp : (s.iterators it).is_protected = true
  · rw [SLRUFileCachePriority.increasePriority_of_protected s releasable it hp] at hi
    obtain ⟨t, n, l, n1, -, -, -, ht1, hq1, hn1, -, hits⟩ := in_tier hi
    exact SLRUIterator.touch_of_mru s1 releasable it t l n1 inv1 ht1 hq1 hn1
      (SLRUFileCachePriority.increasePriority_of_protected s1 releasable it
        (by rw [hits]; exact hp))
  · have hpf : (s.iterators it).is_protected = false := by simpa using hp
    cases hg : SLRUIterator.getEntry s it with
    | error e =>
      simp [SLRUFileCachePriority.increasePriority, hpf, hg] at hi
    | ok entry =>
      rw [SLRUFileCachePriority.increasePriority_eq s releasable it entry hpf hg] at hi
      by_cases hfb : s.fallsBack releasable entry.size = true
      · rw [if_pos hfb] at hi
        obtain ⟨t, n, l, n1, ht, hf, hs1, ht1, hq1, hn1, hsz, hits⟩ := in_tier hi
        -- the entry is in the probationary queue
        have htier : t = Tier.PROBATIONARY := by
          have hmem : it ∈ s.queueIds t := LRUFileCachePriority.find_mem_ids hf
          have htag := inv.tag t it hmem
          rw [htag] at hpf
          cases t with
          | PROTECTED => simp [tagOf] at hpf
          | PROBATIONARY => rfl
        subst htier
        have hentry : entry = n.entry := by
          have : SLRUIterator.getEntry s it = .ok n.entry := by
            simp [SLRUIterator.getEntry, SLRUIterator.assertValid,
              SLRUFileCachePriority.lruGetEntry, ht, hf]
          rw [hg] at this
          injection this
        have hnd1 : ((l ++ [n1]).map (fun n => n.it)).Nodup := by
          have := inv1.nodup Tier.PROBATIONARY
          simpa [SLRUFileCachePriority.queueIds, LRUFileCachePriority.ids, hq1] using this
        have hg1 : SLRUIterator.getEntry s1 it = .ok n1.entry := by
          have hfind1 : (s1.queueOf Tier.PROBATIONARY).find it = some n1 := by
            unfold LRUFileCachePriority.find
            rw [hq1]
            exact find_of_mru hnd1 hn1
          simp [SLRUIterator.getEntry, SLRUIterator.assertValid,
            SLRUFileCachePriority.lruGetEntry, ht1, hfind1]
        have hprot : s1.protected_queue = s.protected_queue := by
          rw [hs1]; rfl
        have hfb1 : s1.fallsBack releasable n1.entry.size = true := by
          have hcollect : ∀ size', (s1.probationary_queue.collectCandidatesForEviction
              releasable size' FileCacheReserveStat.empty [] none).1 =
              (s.probationary_queue.collectCandidatesForEviction
                releasable size' FileCacheReserveStat.empty [] none).1 := by
            intro size'
            apply LRUFileCachePriority.collect_ok_eq
            · rw [hs1]; rfl
            · rw [hs1]; rfl
            · rw [hs1]; rfl
            · rw [hs1]; rfl
            · rw [hs1]
              exact LRUFileCachePriority.releasableBytes_touch releasable none it n
                { n with entry := { n.entry with hits := n.entry.hits + 1 } } rfl rfl _ hf
          rw [hsz, ← hentry, ← hfb]
          unfold SLRUFileCachePriority.fallsBack
          rw [hprot, hcollect]
        have hdec : s1.increasePriority releasable it = s1.lruIncreasePriority it := by
          rw [SLRUFileCachePriority.increasePriority_eq s1 releasable it n1.entry
            (by rw [hits]; exact hpf) hg1, if_pos hfb1]
        exact SLRUIterator.touch_of_mru s1 releasable it Tier.PROBATIONARY l n1 inv1 ht1 hq1
          hn1 hdec
      · rw [if_neg hfb] at hi
        have hprom : ∃ s0 cands, SLRUFileCachePriority.promote s0 it cands = .ok s1 := by
          split at hi
          · split at hi
            · contradiction
            · exact ⟨_, _, hi⟩
          · exact ⟨_, _, hi⟩
        obtain ⟨s0, cands, hprom⟩ := hprom
        obtain ⟨l, e, hq1, hit1⟩ := SLRUFileCachePriority.promote_shape hprom
        exact SLRUIterator.touch_of_mru s1 releasable it Tier.PROTECTED l ⟨it, e⟩ inv1
          (by rw [hit1]) hq1 rfl
          (SLRUFileCachePriority.increasePriority_of_protected s1 releasable it
            (by rw [hit1]))

/-- C13 at a concrete input: a fresh policy (100 bytes, ratio 0.5) with one 30-byte
segment; the first touch promotes it, the second changes hit counts only. -/
theorem touch_twice_same_recency_witness :
    ∃ s s1, Reachable (SLRUFileCachePriority.create 100 100 (1 / 2)) s ∧
      SLRUIterator.increasePriority s allReleasable 0 = .ok (s1, 0) ∧
      s1.protected_queue.ids = [0] ∧
      ∃ s2 hits2, SLRUIterator.increasePriority s1 allReleasable 0 = .ok (s2, hits2) ∧
        s1.SameUpToHits s2 := by
  have h : ∃ s, step (SLRUFileCachePriority.create 100 100 (1 / 2)) allReleasable
      (Call.add 1 0 30) = .ok s ∧
      ∃ s1, SLRUIterator.increasePriority s allReleasable 0 = .ok (s1, 0) ∧
        s1.protected_queue.ids = [0] := by
    rw [create_100_half]
    exact ⟨_, rfl, _, rfl, rfl⟩
  obtain ⟨s, hs, s1, h1, hids⟩ := h
  have hr : Reachable (SLRUFileCachePriority.create 100 100 (1 / 2)) s :=
    ReachableVia.call allReleasable (Call.add 1 0 30) ReachableVia.init hs trivial
  exact ⟨s, s1, hr, h1, hids,
    touch_twice_same_recency 100 100 (1 / 2) s s1 allReleasable 0 0 hr h1⟩

/-! ### Viability of an eviction plan -/

theorem LRUFileCachePriority.collectWalk_stat (releasable : Nat → Bool)
    (reservee : Option Nat) (size : Nat) (l : List Node) :
    ∀ (gathered : Nat) (stat : FileCacheReserveStat) (res : EvictionCandidates),
      (collectWalk releasable reservee size l gathered stat res).2.1.stat.releasable_size =
        stat.stat.releasable_size + totalSize (walkNodes releasable reservee size l gathered) ∧
      ((collectWalk releasable reservee size l gathered stat res).1 = true →
        size ≤ gathered + totalSize (walkNodes releasable reservee size l gathered)) ∧
      List.Perm
        (EvictionCandidates.all (collectWalk releasable reservee size l gathered stat res).2.2)
        (EvictionCandidates.all res ++
          (walkNodes releasable reservee size l gathered).map (fun n => n.it)) := by
  induction l with
  | nil =>
    intro g st res
    simp [collectWalk, walkNodes, totalSize]
  | cons n rest ih =>
    intro g st res
    unfold collectWalk walkNodes
    split
    · rename_i h
      simp [totalSize]
      omega
    · split
      · exact ih g st res
      · split
        · obtain ⟨h1, h2, h3⟩ := ih (g + n.entry.size) (st.update n.entry.size)
            (EvictionCandidates.add res n.entry.key n.it)
          refine ⟨?_, ?_, ?_⟩
          · rw [h1]
            simp [FileCacheReserveStat.update, totalSize]
            omega
          · intro hok
            have := h2 hok
            simp [totalSize] at this ⊢
            omega
          · refine h3.trans ?_
            have hp := EvictionCandidates.perm_all_add res n.entry.key n.it
            simp only [List.map_cons]
            exact (List.Perm.append_right _ hp).trans
              (by simpa using (List.perm_middle).symm)
        · exact ih g st res

theorem LRUFileCachePriority.walkNodes_sublist (releasable : Nat → Bool)
    (reservee : Option Nat) (size : Nat) (l : List Node) :
    ∀ gathered, List.Sublist (walkNodes releasable reservee size l gathered) l := by
  induction l with
  | nil => intro g; simp [walkNodes]
  | cons n rest ih =>
    intro g
    unfold walkNodes
    split
    · exact List.nil_sublist _
    · split
      · exact (ih g).cons n
      · split
        · exact (ih _).cons₂ n
        · exact (ih g).cons n

theorem totalSize_sublist {l1 l2 : List Node} (h : List.Sublist l1 l2) :
    totalSize l1 ≤ totalSize l2 := by
  unfold totalSize
  exact List.Sublist.sum_le_sum (h.map _) (fun a _ => Nat.zero_le a)

theorem LRUFileCachePriority.find_of_mem_nodup {q : LRUFileCachePriority} {n : Node}
    (hnd : q.ids.Nodup) (hn : n ∈ q.queue) : q.find n.it = some n := by
  unfold LRUFileCachePriority.find
  unfold LRUFileCachePriority.ids at hnd
  generalize q.queue = l at hnd hn
  induction l with
  | nil => simp at hn
  | cons a rest ih =>
    rw [List.map_cons, List.nodup_cons] at hnd
    rcases List.mem_cons.mp hn with h | h
    · subst h; simp
    · have hne : a.it ≠ n.it := by
        intro e
        exact hnd.1 (List.mem_map.mpr ⟨n, h, e.symm⟩)
      have hb : (a.it == n.it) = false := by simpa using hne
      rw [List.find?_cons]
      simp only [hb]
      exact ih hnd.2 h

/-- The candidates of a walk, looked up in the queue in iteration order, have the total
size of the walked nodes. -/
theorem LRUFileCachePriority.totalSize_candidates {q : LRUFileCachePriority}
    (hnd : q.ids.Nodup) {wn : List Node} (hsub : List.Sublist wn q.queue) {cs : List Nat}
    (hperm : List.Perm cs (wn.map (fun n => n.it))) :
    totalSize (cs.filterMap q.find) = totalSize wn := by
  have h1 : List.Perm (cs.filterMap q.find) ((wn.map (fun n => n.it)).filterMap q.find) :=
    hperm.filterMap _
  have h2 : (wn.map (fun n => n.it)).filterMap q.find = wn := by
    rw [List.filterMap_map]
    have : ∀ n ∈ wn, (q.find ∘ fun n => n.it) n = some n := by
      intro n hn
      exact find_of_mem_nodup hnd (hsub.subset hn)
    rw [List.filterMap_congr this]
    simp
  rw [h2] at h1
  unfold totalSize
  exact (h1.map _).sum_eq

/-- A run of removals over distinct probationary entries succeeds, leaves the protected
queue alone and takes the total size of the removed entries off the probationary total. -/
theorem SLRUFileCachePriority.evictions_effect :
    ∀ (cs : List Nat) (s : SLRUFileCachePriority), s.Inv none → cs.Nodup →
      (∀ c ∈ cs, c ∈ s.probationary_queue.ids) →
      ∃ s1, SLRUFileCachePriority.forKeyCandidates SLRUIterator.remove cs s = .ok s1 ∧
        s1.Inv none ∧
        s1.protected_queue = s.protected_queue ∧
        s1.probationary_queue.max_size = s.probationary_queue.max_size ∧
        s1.probationary_queue.current_size = s.probationary_queue.current_size -
          totalSize (cs.filterMap s.probationary_queue.find) := by
  intro cs
  induction cs with
  | nil =>
    intro s inv _ _
    exact ⟨s, rfl, inv, rfl, rfl, by simp [totalSize]⟩
  | cons c cs ih =>
    intro s inv hnd hmem
    have hc : c ∈ s.probationary_queue.ids := hmem c (List.mem_cons_self _ _)
    obtain ⟨n, hn⟩ := LRUFileCachePriority.find_of_mem_ids hc
    have hlive : (s.iterators c).lru_iterator = some Tier.PROBATIONARY :=
      InvCore.mem_live inv (t := Tier.PROBATIONARY) hc
    have hstep : SLRUIterator.remove s c = .ok
        { s with
          probationary_queue :=
            { s.probationary_queue with
              queue := s.probationary_queue.queue.eraseP (fun m => m.it == c),
              current_size := s.probationary_queue.current_size - n.entry.size,
              current_elements_num := s.probationary_queue.current_elements_num - 1 },
          iterators := Function.update s.iterators c
            { s.iterators c with lru_iterator := none } } := by
      simp [SLRUIterator.remove, SLRUIterator.assertValid, hlive,
        SLRUFileCachePriority.lruRemove, SLRUFileCachePriority.queueOf,
        LRUFileCachePriority.remove, hn, SLRUFileCachePriority.withQueue]
    have inv2 := SLRUIterator.remove_inv inv hstep
    have hcs : c ∉ cs := (List.nodup_cons.mp hnd).1
    have hnd2 : cs.Nodup := (List.nodup_cons.mp hnd).2
    have hfm : cs.filterMap (LRUFileCachePriority.find
          { s.probationary_queue with
            queue := s.probationary_queue.queue.eraseP (fun m => m.it == c),
            current_size := s.probationary_queue.current_size - n.entry.size,
            current_elements_num := s.probationary_queue.current_elements_num - 1 }) =
        cs.filterMap s.probationary_queue.find := by
      apply List.filterMap_congr
      intro b hb
      exact find_eraseP_ne _ c b (fun e => hcs (e ▸ hb))
    have hmem2 : ∀ b ∈ cs, b ∈ LRUFileCachePriority.ids
          { s.probationary_queue with
            queue := s.probationary_queue.queue.eraseP (fun m => m.it == c),
            current_size := s.probationary_queue.current_size - n.entry.size,
            current_elements_num := s.probationary_queue.current_elements_num - 1 } := by
      intro b hb
      have hbc : b ≠ c := fun e => hcs (e ▸ hb)
      have : b ∈ s.probationary_queue.ids := hmem b (List.mem_cons_of_mem _ hb)
      simp only [LRUFileCachePriority.ids, ids_eraseP]
      exact (List.mem_erase_of_ne hbc).mpr this
    obtain ⟨s1, h1, h2, h3, h4, h5⟩ := ih _ inv2 hnd2 hmem2
    simp only [hfm] at h5
    simp only at h3 h4 h5
    refine ⟨s1, ?_, h2, h3, h4, ?_⟩
    · simp only [SLRUFileCachePriority.forKeyCandidates, hstep]
      exact h1
    · rw [h5]
      simp only [List.filterMap_cons, hn, totalSize, List.map_cons, List.sum_cons]
      rw [Nat.sub_sub]

/-- The part of a collection that matters for the bytes of a plan: when the queue cannot
fit the request, the candidates are a permutation of the identifiers of a sublist of the
queue whose total size is the gathered `releasable_size`, and a `true` result means that
this total covers the request. -/
theorem LRUFileCachePriority.collect_walked (q : LRUFileCachePriority)
    (releasable : Nat → Bool) (size : Nat) (reservee : Option Nat)
    (hfit : q.canFit size = false) :
    ∃ wn : List Node, List.Sublist wn q.queue ∧
      (q.collectCandidatesForEviction releasable size FileCacheReserveStat.empty []
        reservee).2.1.stat.releasable_size = totalSize wn ∧
      ((q.collectCandidatesForEviction releasable size FileCacheReserveStat.empty []
        reservee).1 = true → size ≤ totalSize wn) ∧
      List.Perm
        (EvictionCandidates.all (q.collectCandidatesForEviction releasable size
          FileCacheReserveStat.empty [] reservee).2.2)
        (wn.map (fun n => n.it)) := by
  have hd : q.collectCandidatesForEviction releasable size FileCacheReserveStat.empty []
      reservee = collectWalk releasable reservee size q.queue 0 FileCacheReserveStat.empty [] := by
    unfold LRUFileCachePriority.collectCandidatesForEviction
    simp [hfit]
  rw [hd]
  obtain ⟨h1, h2, h3⟩ := collectWalk_stat releasable reservee size q.queue 0
    FileCacheReserveStat.empty []
  refine ⟨walkNodes releasable reservee size q.queue 0,
    walkNodes_sublist releasable reservee size q.queue 0, ?_, ?_, ?_⟩
  · rw [h1]; simp [FileCacheReserveStat.empty]
  · intro h; simpa using h2 h
  · simpa [EvictionCandidates.all] using h3

/-- Bytes moved by a finalize action whose candidates are the identifiers of a sublist
`wn` of the protected queue. -/
theorem SLRUFileCachePriority.finalize_bytes (s : SLRUFileCachePriority)
    (cands : EvictionCandidates) (wn : List Node) (inv : s.Inv none)
    (hnd : (EvictionCandidates.all cands).Nodup)
    (hsub : List.Sublist wn s.protected_queue.queue)
    (hperm : List.Perm (EvictionCandidates.all cands) (wn.map (fun n => n.it))) :
    ∃ s1, SLRUFileCachePriority.runFinalize (some cands) s = .ok s1 ∧
      s1.protected_queue.current_size = s.protected_queue.current_size - totalSize wn ∧
      s1.probationary_queue.current_size = s.probationary_queue.current_size + totalSize wn ∧
      s1.protected_queue.max_size = s.protected_queue.max_size ∧
      s1.probationary_queue.max_size = s.probationary_queue.max_size := by
  have hndP : s.protected_queue.ids.Nodup := inv.nodup Tier.PROTECTED
  have hmem : ∀ c ∈ EvictionCandidates.all cands, c ∈ s.protected_queue.ids := by
    intro c hc
    obtain ⟨n, hn, rfl⟩ := List.mem_map.mp (hperm.subset hc)
    exact List.mem_map.mpr ⟨n, hsub.subset hn, rfl⟩
  obtain ⟨s1, h1, -, -, -, h5, h6, -⟩ :=
    SLRUFileCachePriority.downgrades_effect _ s none inv hnd hmem
  obtain ⟨-, hsh, hmax, -⟩ := SLRUFileCachePriority.downgrades_ok _ _ _ h1
  have htot := LRUFileCachePriority.totalSize_candidates hndP hsub hperm
  unfold totalSize at htot
  refine ⟨s1, ?_, ?_, ?_, hsh.1, hmax⟩
  · unfold SLRUFileCachePriority.runFinalize
    simp only
    rw [SLRUFileCachePriority.forCandidates_eq_all]
    exact h1
  · rw [h5, htot]; rfl
  · rw [h6, htot]; rfl

/-- C17 (plan viability in bytes).  Take a well-formed policy state whose two byte totals
are the sums of the entry sizes (the data-model invariants) and lie within the byte
limits, and a reservee tagged protected.  If `collectCandidatesForEviction` returns
`true` for a fresh request, then evicting the returned candidates and invoking the
finalize action (if one was set) succeeds, the limits are unchanged, the probationary
total is within its limit and the protected total plus `size` is within its limit. -/
theorem plan_is_viable (s : SLRUFileCachePriority) (releasable : Nat → Bool)
    (size it : Nat) (inv : s.Inv none)
    (hcp : s.protected_queue.SizeConsistent) (hcb : s.probationary_queue.SizeConsistent)
    (hbp : s.protected_queue.current_size ≤ s.protected_queue.max_size)
    (hbb : s.probationary_queue.current_size ≤ s.probationary_queue.max_size)
    (hp : (s.iterators it).is_protected = true)
    (hok : (s.collectCandidatesForEviction releasable size FileCacheReserveStat.empty []
      (some it) none).ok = true) :
    ∃ s1, s.reserve releasable size (some it) = .ok s1 ∧
      s1.probationary_queue.max_size = s.probationary_queue.max_size ∧
      s1.protected_queue.max_size = s.protected_queue.max_size ∧
      s1.probationary_queue.current_size ≤ s1.probationary_queue.max_size ∧
      s1.protected_queue.current_size + size ≤ s1.protected_queue.max_size := by
  have hndP : s.protected_queue.ids.Nodup := inv.nodup Tier.PROTECTED
  have hndB : s.probationary_queue.ids.Nodup := inv.nodup Tier.PROBATIONARY
  by_cases hfit : s.protected_queue.canFit size = true
  · have hcol : s.collectCandidatesForEviction releasable size FileCacheReserveStat.empty []
        (some it) none = ⟨true, s, FileCacheReserveStat.empty, [], none⟩ := by
      simp [SLRUFileCachePriority.collectCandidatesForEviction, hp, hfit]
    refine ⟨s, ?_, rfl, rfl, hbb, ?_⟩
    · simp only [SLRUFileCachePriority.reserve, hcol]
      rfl
    · simp [LRUFileCachePriority.canFit] at hfit
      exact hfit.1
  · have hfit2 : s.protected_queue.canFit size = false := by simpa using hfit
    obtain ⟨wp, hsubp, hDp, hokp, hpermp⟩ :=
      LRUFileCachePriority.collect_walked s.protected_queue releasable size (some it) hfit2
    have hndS := LRUFileCachePriority.collect_nodup s.protected_queue releasable size
      FileCacheReserveStat.empty (some it) hndP
    have hwp : totalSize wp ≤ s.protected_queue.current_size := by
      rw [hcp]; exact totalSize_sublist hsubp
    unfold SLRUFileCachePriority.collectCandidatesForEviction at hok
    simp only [hp, hfit2, Bool.not_true, Bool.false_eq_true, if_false] at hok
    generalize hd : s.protected_queue.collectCandidatesForEviction releasable size
      FileCacheReserveStat.empty [] (some it) = d at hDp hokp hpermp hndS hok
    cases hd1 : d.1 with
    | false => simp [hd1] at hok
    | true =>
      have hsz : size ≤ totalSize wp := hokp hd1
      simp only [hd1, Bool.not_true, Bool.false_eq_true, if_false] at hok
      by_cases hfb : s.probationary_queue.canFit d.2.1.stat.releasable_size = true
      · have hcol : s.collectCandidatesForEviction releasable size FileCacheReserveStat.empty
            [] (some it) none = ⟨true, s, FileCacheReserveStat.empty, [], some d.2.2⟩ := by
          simp [SLRUFileCachePriority.collectCandidatesForEviction, hp, hfit2, hd, hd1, hfb]
        obtain ⟨s1, h1, h2, h3, h4, h5⟩ :=
          SLRUFileCachePriority.finalize_bytes s d.2.2 wp inv hndS hsubp hpermp
        refine ⟨s1, ?_, h5, h4, ?_, ?_⟩
        · simp only [SLRUFileCachePriority.reserve, hcol]
          exact h1
        · rw [h3, h5]
          simp [LRUFileCachePriority.canFit] at hfb
          rw [hDp] at hfb
          exact hfb.1
        · rw [h2, h4]
          omega
      · have hfb2 : s.probationary_queue.canFit d.2.1.stat.releasable_size = false := by
          simpa using hfb
        obtain ⟨wb, hsubb, hDb, hokb, hpermb⟩ :=
          LRUFileCachePriority.collect_walked s.probationary_queue releasable
            d.2.1.stat.releasable_size (some it) hfb2
        have hndR := LRUFileCachePriority.collect_nodup s.probationary_queue releasable
          d.2.1.stat.releasable_size FileCacheReserveStat.empty (some it) hndB
        have hwb : totalSize wb ≤ s.probationary_queue.current_size := by
          rw [hcb]; exact totalSize_sublist hsubb
        simp only [hfb2, Bool.false_eq_true, if_false] at hok
        generalize hr : s.probationary_queue.collectCandidatesForEviction releasable
          d.2.1.stat.releasable_size FileCacheReserveStat.empty [] (some it) = r
          at hDb hokb hpermb hndR hok
        cases hr1 : r.1 with
        | false => simp [hr1] at hok
        | true =>
          have hcol : s.collectCandidatesForEviction releasable size
              FileCacheReserveStat.empty [] (some it) none =
              ⟨true, s, r.2.1, r.2.2, some d.2.2⟩ := by
            simp [SLRUFileCachePriority.collectCandidatesForEviction, hp, hfit2, hd, hd1,
              hfb2, hr, hr1]
          have hDE : totalSize wp ≤ totalSize wb := by
            have := hokb hr1
            rw [hDp] at this
            exact this
          have hmemR : ∀ c ∈ EvictionCandidates.all r.2.2, c ∈ s.probationary_queue.ids := by
            intro c hc
            obtain ⟨n, hn, rfl⟩ := List.mem_map.mp (hpermb.subset hc)
            exact List.mem_map.mpr ⟨n, hsubb.subset hn, rfl⟩
          obtain ⟨s2, e1, inv2, e3, e4, e5⟩ :=
            SLRUFileCachePriority.evictions_effect _ s inv hndR hmemR
          rw [LRUFileCachePriority.totalSize_candidates hndB hsubb hpermb] at e5
          have hsubp2 : List.Sublist wp s2.protected_queue.queue := by rw [e3]; exact hsubp
          obtain ⟨s1, h1, h2, h3, h4, h5⟩ :=
            SLRUFileCachePriority.finalize_bytes s2 d.2.2 wp inv2 hndS hsubp2 hpermp
          rw [e3] at h2 h4
          refine ⟨s1, ?_, h5.trans e4, h4, ?_, ?_⟩
          · simp only [SLRUFileCachePriority.reserve, hcol, SLRUFileCachePriority.evict]
            rw [SLRUFileCachePriority.forCandidates_eq_all]
            simp only [e1, if_true]
            exact h1
          · rw [h3, h5, e5, e4]
            omega
          · rw [h2, h4]
            omega

theorem bothTiersBusy_inv : bothTiersBusy.Inv none := by
  refine ⟨?_, ?_, ?_, ?_, ?_⟩
  · intro t; cases t <;> decide
  · intro t id hid
    cases t with
    | PROTECTED =>
      have : id = 0 ∨ id = 1 := by
        simpa [SLRUFileCachePriority.queueIds, SLRUFileCachePriority.queueOf, bothTiersBusy,
          LRUFileCachePriority.ids] using hid
      rcases this with h | h <;> subst h <;> rfl
    | PROBATIONARY =>
      have : id = 2 := by
        simpa [SLRUFileCachePriority.queueIds, SLRUFileCachePriority.queueOf, bothTiersBusy,
          LRUFileCachePriority.ids] using hid
      subst this
      rfl
  · intro id hid
    by_cases h : id = 0 ∨ id = 1
    · refine Or.inl ⟨Tier.PROTECTED, ?_⟩
      simpa [SLRUFileCachePriority.queueIds, SLRUFileCachePriority.queueOf, bothTiersBusy,
        LRUFileCachePriority.ids] using h
    · by_cases h2 : id = 2
      · refine Or.inl ⟨Tier.PROBATIONARY, ?_⟩
        simpa [SLRUFileCachePriority.queueIds, SLRUFileCachePriority.queueOf, bothTiersBusy,
          LRUFileCachePriority.ids] using h2
      · simp [bothTiersBusy, h, h2] at hid
  · intro id hx
    exact absurd hx (by simp)
  · intro id hid
    have h : ¬ (id = 0 ∨ id = 1) := by
      have : 3 ≤ id := hid
      omega
    have h2 : ¬ id = 2 := by
      have : 3 ≤ id := hid
      omega
    simp [bothTiersBusy, h, h2]

/-- C17 at a concrete input: protected `[X(30), R(20)]` and probationary `[Y(40)]`, 50
bytes per tier, `R` asks for 10 more bytes.  The plan evicts `Y` and downgrades `X`;
afterwards the probationary queue holds 30 of 50 bytes and the protected queue 20, which
leaves room for the 10 requested bytes. -/
theorem plan_is_viable_witness :
    (bothTiersBusy.iterators 1).is_protected = true ∧
    (bothTiersBusy.collectCandidatesForEviction allReleasable 10 FileCacheReserveStat.empty []
      (some 1) none).ok = true ∧
    (bothTiersBusy.collectCandidatesForEviction allReleasable 10 FileCacheReserveStat.empty []
      (some 1) none).res = [(3, [2])] ∧
    ∃ s1, bothTiersBusy.reserve allReleasable 10 (some 1) = .ok s1 ∧
      s1.probationary_queue.max_size = bothTiersBusy.probationary_queue.max_size ∧
      s1.protected_queue.max_size = bothTiersBusy.protected_queue.max_size ∧
      s1.probationary_queue.current_size ≤ s1.probationary_queue.max_size ∧
      s1.protected_queue.current_size + 10 ≤ s1.protected_queue.max_size :=
  ⟨rfl, rfl, rfl,
    plan_is_viable bothTiersBusy allReleasable 10 1 bothTiersBusy_inv rfl rfl (by decide)
      (by decide) rfl rfl⟩

/-! ### Reading a key -/

theorem holds_lt {P : Char → Bool} {file : List Char} {i : Nat}
    (h : holds P file i = true) : i < file.length := by
  unfold holds at h
  split at h
  · rename_i c hc
    exact (List.getElem?_eq_some.mp hc).1
  · simp at h

theorem holds_getD {P : Char → Bool} {file : List Char} {i : Nat} (d : Char)
    (h : i < file.length) : holds P file i = P (file.getD i d) := by
  unfold holds
  rw [List.getD_eq_getElem?_getD, List.getElem?_eq_getElem h]
  rfl

theorem BoundsSafeCharacterFinder.find_first_from_spec (needles : List Char) :
    ∀ (l : List Char) (i : Nat),
      (find_first_from needles l i = none →
        ∀ k, holds (fun c => needles.contains c) l k = false) ∧
      (∀ j, find_first_from needles l i = some j →
        ∃ k, j = i + k ∧ holds (fun c => needles.contains c) l k = true ∧
          ∀ k1, k1 < k → holds (fun c => needles.contains c) l k1 = false) := by
  intro l
  induction l with
  | nil =>
    intro i
    simp [find_first_from, holds]
  | cons c rest ih =>
    intro i
    unfold find_first_from
    by_cases hc : needles.contains c = true
    · simp only [hc, if_true]
      refine ⟨by simp, ?_⟩
      intro j hj
      injection hj with hj
      have h0 : holds (fun c => needles.contains c) (c :: rest) 0 = true := by
        simp only [holds, List.getElem?_cons_zero]
        exact hc
      exact ⟨0, by omega, h0, by simp⟩
    · have hc2 : needles.contains c = false := by simpa using hc
      simp only [hc2, Bool.false_eq_true, if_false]
      have h0 : holds (fun c => needles.contains c) (c :: rest) 0 = false := by
        simp only [holds, List.getElem?_cons_zero]
        exact hc2
      have hs : ∀ k, holds (fun c => needles.contains c) (c :: rest) (k + 1) =
          holds (fun c => needles.contains c) rest k := by
        intro k
        simp only [holds, List.getElem?_cons_succ]
      obtain ⟨h1, h2⟩ := ih (i + 1)
      refine ⟨?_, ?_⟩
      · intro hn k
        cases k with
        | zero => exact h0
        | succ k => rw [hs]; exact h1 hn k
      · intro j hj
        obtain ⟨k, e, hk, hlt⟩ := h2 j hj
        refine ⟨k + 1, by omega, by rw [hs]; exact hk, ?_⟩
        intro k1 hk1
        cases k1 with
        | zero => exact h0
        | succ k1 => rw [hs]; exact hlt k1 (by omega)

theorem holds_drop (P : Char → Bool) (file : List Char) (pos k : Nat) :
    holds P (file.drop pos) k = holds P file (pos + k) := by
  unfold holds
  rw [List.getElem?_drop]

/-- The finder returns the least index at or after `pos` that holds a needle. -/
theorem BoundsSafeCharacterFinder.find_first_spec (file : List Char) (pos : Nat)
    (needles : List Char) :
    (find_first file pos needles = none →
      ∀ i, pos ≤ i → holds (fun c => needles.contains c) file i = false) ∧
    (∀ j, find_first file pos needles = some j →
      pos ≤ j ∧ holds (fun c => needles.contains c) file j = true ∧
        ∀ i, pos ≤ i → i < j → holds (fun c => needles.contains c) file i = false) := by
  unfold find_first
  by_cases hp : pos < file.length
  · simp only [hp, if_true]
    obtain ⟨h1, h2⟩ := find_first_from_spec needles (file.drop pos) pos
    refine ⟨?_, ?_⟩
    · intro hn i hi
      have := h1 hn (i - pos)
      rw [holds_drop] at this
      rwa [show pos + (i - pos) = i by omega] at this
    · intro j hj
      obtain ⟨k, e, hk, hlt⟩ := h2 j hj
      subst e
      rw [holds_drop] at hk
      refine ⟨by omega, hk, ?_⟩
      intro i hi hij
      have := hlt (i - pos) (by omega)
      rw [holds_drop] at this
      rwa [show pos + (i - pos) = i by omega] at this
  · simp only [hp, if_false]
    refine ⟨?_, by simp⟩
    intro _ i hi
    cases h : holds (fun c => needles.contains c) file i with
    | false => rfl
    | true => exact absurd (holds_lt h) (by omega)

theorem holds_of_getD {P : Char → Bool} {file : List Char} {i : Nat}
    (h : holds P file i = true) : P (file.getD i (Char.ofNat 0)) = true := by
  rw [holds_getD (Char.ofNat 0) (holds_lt h)] at h
  exact h

theorem slice_length (file : List Char) (a b : Nat) (hb : b ≤ file.length) :
    (slice file a b).length = b - a := by
  unfold slice
  rw [List.length_take, List.length_drop]
  omega

theorem slice_self (file : List Char) (a : Nat) : slice file a a = [] := by
  simp [slice]

/-- C20 (quoted key reading).  On an input with `pos ≤ |file|` and no escape character at
or after `pos`, `readEnclosed` returns a result `r`.  If no index at or after `pos` holds
a quoting character, `r` is `(|file|, END)` with the empty key.  If `p` is the least such
index, `r` is `(p + 1, WAITING_KEY)` with the empty key when `p = pos`, and
`(p + 1, READING_KV_DELIMITER)` with the key `file[pos..p)` otherwise.  The returned
position is at most `|file|`, and it is greater than `pos` unless the state is `END` and
`pos = |file|`. -/
theorem quoted_key_reading (configuration : ExtractorConfiguration) (ESCAPE_CHARACTER : Char)
    (escaped_read : List Char → Nat → Nat × List Char) (file : List Char) (pos : Nat)
    (hpos : pos ≤ file.length)
    (hesc : ∀ i, pos ≤ i → i < file.length →
      holds (fun c => c == ESCAPE_CHARACTER) file i = false) :
    ∃ r, InlineEscapingKeyStateHandler.readEnclosed configuration ESCAPE_CHARACTER
        escaped_read file pos = some r ∧
      ((∀ i, pos ≤ i → i < file.length →
          holds (fun c => configuration.quoting_characters.contains c) file i = false) →
        r = (⟨file.length, State.END⟩, [])) ∧
      (∀ p, pos ≤ p →
        holds (fun c => configuration.quoting_characters.contains c) file p = true →
        (∀ i, pos ≤ i → i < p →
          holds (fun c => configuration.quoting_characters.contains c) file i = false) →
        r = if p = pos then (⟨p + 1, State.WAITING_KEY⟩, [])
            else (⟨p + 1, State.READING_KV_DELIMITER⟩, slice file pos p)) ∧
      r.1.position_in_string ≤ file.length ∧
      (pos < r.1.position_in_string ∨ (r.1.state = State.END ∧ pos = file.length)) := by
  obtain ⟨hnone, hsome⟩ := BoundsSafeCharacterFinder.find_first_spec file pos
    (buildReadEnclosedRuntimeConfig ESCAPE_CHARACTER configuration)
  have hneedle : ∀ c, (buildReadEnclosedRuntimeConfig ESCAPE_CHARACTER configuration).contains c
      = (c == ESCAPE_CHARACTER || configuration.quoting_characters.contains c) := by
    intro c
    show (ESCAPE_CHARACTER :: configuration.quoting_characters).contains c = _
    exact List.contains_cons
  unfold InlineEscapingKeyStateHandler.readEnclosed
    InlineEscapingKeyStateHandler.readEnclosedLoop
  cases hf : BoundsSafeCharacterFinder.find_first file pos
      (buildReadEnclosedRuntimeConfig ESCAPE_CHARACTER configuration) with
  | none =>
    refine ⟨_, rfl, fun _ => rfl, ?_, Nat.le_refl _, ?_⟩
    · intro p hp hq _
      have hn := hnone hf p hp
      have hc := holds_of_getD hq
      rw [holds_getD (Char.ofNat 0) (holds_lt hq), hneedle] at hn
      rw [hc] at hn
      simp at hn
    · show pos < file.length ∨ (State.END = State.END ∧ pos = file.length)
      rcases Nat.lt_or_ge pos file.length with h | h
      · exact Or.inl h
      · exact Or.inr ⟨rfl, by omega⟩
  | some q =>
    obtain ⟨hpq, hq, hlt⟩ := hsome q hf
    have hqlt : q < file.length := holds_lt hq
    have hqc := holds_of_getD hq
    simp only [hneedle] at hqc
    have hne : (file.getD q (Char.ofNat 0) == ESCAPE_CHARACTER) = false := by
      have := hesc q hpq hqlt
      rwa [holds_getD (Char.ofNat 0) hqlt] at this
    have hquo : configuration.quoting_characters.contains (file.getD q (Char.ofNat 0))
        = true := by
      rw [hne] at hqc
      simpa using hqc
    have hqq : holds (fun c => configuration.quoting_characters.contains c) file q = true := by
      rw [holds_getD (Char.ofNat 0) hqlt]
      exact hquo
    have hres : (match some q with
        | none => some ((⟨file.length, State.END⟩ : NextState), ([] : List Char))
        | some character_position =>
          let character := file.getD character_position (Char.ofNat 0)
          let next_pos := character_position + 1
          if (character == ESCAPE_CHARACTER) = true then
            let key1 := [] ++ slice file pos character_position
            let r := escaped_read file character_position
            if r.2.isEmpty = true then some (⟨r.1, State.WAITING_KEY⟩, key1)
            else
              InlineEscapingKeyStateHandler.readEnclosedLoop configuration ESCAPE_CHARACTER
                escaped_read file file.length r.1 (key1 ++ r.2)
          else if configuration.quoting_characters.contains character = true then
            let key1 := [] ++ slice file pos character_position
            if key1.isEmpty = true then some (⟨next_pos, State.WAITING_KEY⟩, key1)
            else some (⟨next_pos, State.READING_KV_DELIMITER⟩, key1)
          else
            InlineEscapingKeyStateHandler.readEnclosedLoop configuration ESCAPE_CHARACTER
              escaped_read file file.length next_pos []) =
        some (if q = pos then (⟨q + 1, State.WAITING_KEY⟩, [])
            else (⟨q + 1, State.READING_KV_DELIMITER⟩, slice file pos q)) := by
      simp only [hne, hquo, Bool.false_eq_true, if_false, if_true, List.nil_append]
      by_cases hqp : q = pos
      · subst hqp
        simp [slice_self]
      · have hlen := slice_length file pos q (by omega)
        have hnil : (slice file pos q).isEmpty = false := by
          cases hs : slice file pos q with
          | nil => rw [hs] at hlen; simp at hlen; omega
          | cons a b => rfl
        simp [hqp, hnil]
    refine ⟨_, hres, ?_, ?_, ?_, ?_⟩
    · intro hno
      have := hno q hpq hqlt
      rw [hqq] at this
      exact absurd this (by simp)
    · intro p hp hpquo hpl
      have hpq2 : p = q := by
        rcases Nat.lt_trichotomy p q with h | h | h
        · have hn := hlt p hp h
          have hc := holds_of_getD hpquo
          rw [holds_getD (Char.ofNat 0) (holds_lt hpquo), hneedle] at hn
          rw [hc] at hn
          simp at hn
        · exact h
        · have := hpl q hpq h
          rw [hqq] at this
          exact absurd this (by simp)
      subst hpq2
      rfl
    · by_cases hqp : q = pos
      · rw [if_pos hqp]
        show q + 1 ≤ file.length
        omega
      · rw [if_neg hqp]
        show q + 1 ≤ file.length
        omega
    · left
      by_cases hqp : q = pos
      · rw [if_pos hqp]
        show pos < q + 1
        omega
      · rw [if_neg hqp]
        show pos < q + 1
        omega

theorem readNeedle (configuration : ExtractorConfiguration) (ESCAPE_CHARACTER c : Char) :
    (buildReadRuntimeConfig ESCAPE_CHARACTER configuration).contains c =
      (c == ESCAPE_CHARACTER || (configuration.isDelimiter c ||
        configuration.quoting_characters.contains c)) := by
  unfold buildReadRuntimeConfig ExtractorConfiguration.isDelimiter
  simp only [List.contains_eq_any_beq, List.any_append, List.any_cons, List.any_nil,
    Bool.or_false]
  cases (c == ESCAPE_CHARACTER) <;> cases (c == configuration.key_value_delimiter) <;>
    cases (configuration.quoting_characters.any fun x => c == x) <;>
    cases (configuration.pair_delimiters.any fun x => c == x) <;> rfl

/-- The loop of `read`, started with an empty key at `cur` with enough fuel on an input
without escape characters from `cur` on. -/
theorem InlineEscapingKeyStateHandler.readLoop_spec (configuration : ExtractorConfiguration)
    (ESCAPE_CHARACTER : Char) (escaped_read : List Char → Nat → Nat × List Char)
    (file : List Char) :
    ∀ (fuel cur : Nat), cur ≤ file.length → file.length < fuel + cur →
      (∀ i, cur ≤ i → i < file.length →
        holds (fun c => c == ESCAPE_CHARACTER) file i = false) →
      ∃ r, readLoop configuration ESCAPE_CHARACTER escaped_read file fuel cur [] = some r ∧
        ((∀ i, cur ≤ i → i < file.length →
            holds configuration.isDelimiter file i = false) →
          r = (⟨file.length, State.END⟩, [])) ∧
        (∀ p, cur ≤ p → holds configuration.isDelimiter file p = true →
          (∀ i, cur ≤ i → i < p → holds configuration.isDelimiter file i = false) →
          (holds (fun c => c == configuration.key_value_delimiter) file p = false →
            r = (⟨p + 1, State.WAITING_KEY⟩, [])) ∧
          (holds (fun c => c == configuration.key_value_delimiter) file p = true →
            ∀ s, cur ≤ s → s ≤ p →
              (s = cur ∨ (cur < s ∧
                holds (fun c => configuration.quoting_characters.contains c) file (s - 1)
                  = true)) →
              (∀ i, s ≤ i → i < p →
                holds (fun c => configuration.quoting_characters.contains c) file i
                  = false) →
              r = (⟨p + 1, State.WAITING_VALUE⟩, slice file s p))) := by
  intro fuel
  induction fuel with
  | zero =>
    intro cur h1 h2
    omega
  | succ fuel ih =>
    intro cur hcur hfuel hesc
    obtain ⟨hnone, hsome⟩ := BoundsSafeCharacterFinder.find_first_spec file cur
      (buildReadRuntimeConfig ESCAPE_CHARACTER configuration)
    -- an index that holds a delimiter or a quoting character holds a needle
    have hdel : ∀ i, holds configuration.isDelimiter file i = true →
        holds (fun c => (buildReadRuntimeConfig ESCAPE_CHARACTER configuration).contains c)
          file i = true := by
      intro i hi
      have hc := holds_of_getD hi
      rw [holds_getD (Char.ofNat 0) (holds_lt hi), readNeedle, hc]
      simp
    have hquo : ∀ i,
        holds (fun c => configuration.quoting_characters.contains c) file i = true →
        holds (fun c => (buildReadRuntimeConfig ESCAPE_CHARACTER configuration).contains c)
          file i = true := by
      intro i hi
      have hc := holds_of_getD hi
      rw [holds_getD (Char.ofNat 0) (holds_lt hi), readNeedle, hc]
      simp
    unfold InlineEscapingKeyStateHandler.readLoop
    cases hf : BoundsSafeCharacterFinder.find_first file cur
        (buildReadRuntimeConfig ESCAPE_CHARACTER configuration) with
    | none =>
      refine ⟨_, rfl, fun _ => rfl, ?_⟩
      intro p hp hpd _
      have := hnone hf p hp
      rw [hdel p hpd] at this
      exact absurd this (by simp)
    | some q =>
      obtain ⟨hcq, hq, hlt⟩ := hsome q hf
      have hqlt : q < file.length := holds_lt hq
      have hqc := holds_of_getD hq
      simp only [readNeedle] at hqc
      have hne : (file.getD q (Char.ofNat 0) == ESCAPE_CHARACTER) = false := by
        have := hesc q hcq hqlt
        rwa [holds_getD (Char.ofNat 0) hqlt] at this
      rw [hne, Bool.false_or] at hqc
      -- no index before `q` holds a delimiter or a quoting character
      have hbefore_d : ∀ i, cur ≤ i → i < q → holds configuration.isDelimiter file i = false := by
        intro i h1 h2
        cases h : holds configuration.isDelimiter file i with
        | false => rfl
        | true =>
          have := hlt i h1 h2
          rw [hdel i h] at this
          exact absurd this (by simp)
      have hbefore_q : ∀ i, cur ≤ i → i < q →
          holds (fun c => configuration.quoting_characters.contains c) file i = false := by
        intro i h1 h2
        cases h : holds (fun c => configuration.quoting_characters.contains c) file i with
        | false => rfl
        | true =>
          have := hlt i h1 h2
          rw [hquo i h] at this
          exact absurd this (by simp)
      simp only [hne, Bool.false_eq_true, if_false, List.nil_append]
      cases hd : configuration.isDelimiter (file.getD q (Char.ofNat 0)) with
      | true =>
        have hqd : holds configuration.isDelimiter file q = true := by
          rw [holds_getD (Char.ofNat 0) hqlt]; exact hd
        have hpq : ∀ p, cur ≤ p → holds configuration.isDelimiter file p = true →
            (∀ i, cur ≤ i → i < p → holds configuration.isDelimiter file i = false) →
            p = q := by
          intro p hp hpd hpl
          rcases Nat.lt_trichotomy p q with h | h | h
          · have := hbefore_d p hp h
            rw [hpd] at this
            exact absurd this (by simp)
          · exact h
          · have := hpl q hcq h
            rw [hqd] at this
            exact absurd this (by simp)
        have hnoend : ¬ (∀ i, cur ≤ i → i < file.length →
            holds configuration.isDelimiter file i = false) := by
          intro hno
          have := hno q hcq hqlt
          rw [hqd] at this
          exact absurd this (by simp)
        cases hkv : (file.getD q (Char.ofNat 0) == configuration.key_value_delimiter) with
        | true =>
          simp only [if_true]
          refine ⟨_, rfl, fun hno => absurd hno hnoend, ?_⟩
          intro p hp hpd hpl
          have := hpq p hp hpd hpl
          subst this
          refine ⟨?_, ?_⟩
          · intro h
            rw [holds_getD (Char.ofNat 0) hqlt, hkv] at h
            exact absurd h (by simp)
          · intro _ s hs hsp hstart _
            have hsc : s = cur := by
              rcases hstart with h | ⟨h1, h2⟩
              · exact h
              · have := hbefore_q (s - 1) (by omega) (by omega)
                rw [h2] at this
                exact absurd this (by simp)
            subst hsc
            rfl
        | false =>
          have hpair : configuration.pair_delimiters.contains (file.getD q (Char.ofNat 0))
              = true := by
            unfold ExtractorConfiguration.isDelimiter at hd
            rw [hkv, Bool.false_or] at hd
            exact hd
          simp only [hpair, Bool.false_eq_true, if_false, if_true]
          refine ⟨_, rfl, fun hno => absurd hno hnoend, ?_⟩
          intro p hp hpd hpl
          have := hpq p hp hpd hpl
          subst this
          refine ⟨fun _ => rfl, ?_⟩
          intro h
          rw [holds_getD (Char.ofNat 0) hqlt, hkv] at h
          exact absurd h (by simp)
      | false =>
        have hkv : (file.getD q (Char.ofNat 0) == configuration.key_value_delimiter)
            = false := by
          unfold ExtractorConfiguration.isDelimiter at hd
          exact (Bool.or_eq_false_iff.mp hd).1
        have hpair : configuration.pair_delimiters.contains (file.getD q (Char.ofNat 0))
            = false := by
          unfold ExtractorConfiguration.isDelimiter at hd
          exact (Bool.or_eq_false_iff.mp hd).2
        have hqq : holds (fun c => configuration.quoting_characters.contains c) file q
            = true := by
          rw [holds_getD (Char.ofNat 0) hqlt]
          rw [hd, Bool.false_or] at hqc
          exact hqc
        have hqd : holds configuration.isDelimiter file q = false := by
          rw [holds_getD (Char.ofNat 0) hqlt]; exact hd
        simp only [hkv, hpair, Bool.false_eq_true, if_false]
        obtain ⟨r, hr, hend, hp⟩ := ih (q + 1) (by omega) (by omega)
          (fun i h1 h2 => hesc i (by omega) h2)
        refine ⟨r, hr, ?_, ?_⟩
        · intro hno
          exact hend (fun i h1 h2 => hno i (by omega) h2)
        · intro p hcp hpd hpl
          have hqp : q < p := by
            rcases Nat.lt_trichotomy p q with h | h | h
            · have := hbefore_d p hcp h
              rw [hpd] at this
              exact absurd this (by simp)
            · subst h
              rw [hpd] at hqd
              exact absurd hqd (by simp)
            · exact h
          obtain ⟨hA, hB⟩ := hp p (by omega) hpd (fun i h1 h2 => hpl i (by omega) h2)
          refine ⟨hA, ?_⟩
          intro hk s hs hsp hstart hnoq
          have hqs : q < s := by
            rcases Nat.lt_or_ge q s with h | h
            · exact h
            · have := hnoq q h hqp
              rw [hqq] at this
              exact absurd this (by simp)
          refine hB hk s (by omega) hsp ?_ hnoq
          rcases hstart with h | ⟨h1, h2⟩
          · omega
          · rcases Nat.lt_or_ge (q + 1) s with h | h
            · exact Or.inr ⟨h, h2⟩
            · exact Or.inl (by omega)

/-- C19 (unquoted key reading).  On an input with `pos ≤ |file|` and no escape character
at or after `pos`, `read` returns a result `r`.  If no index at or after `pos` holds the
key-value delimiter or a pair delimiter, `r` is `(|file|, END)` with the empty key.  If
`p` is the least such index and `file[p]` is not the key-value delimiter, `r` is
`(p + 1, WAITING_KEY)` with the empty key.  If `file[p]` is the key-value delimiter, `r`
is `(p + 1, WAITING_VALUE)` with the key `file[s..p)`, where `s = pos` when no quoting
character occurs in `[pos, p)` and otherwise `s` is one past the last quoting character
in `[pos, p)`. -/
theorem unquoted_key_reading (configuration : ExtractorConfiguration)
    (ESCAPE_CHARACTER : Char) (escaped_read : List Char → Nat → Nat × List Char)
    (file : List Char) (pos : Nat) (hpos : pos ≤ file.length)
    (hesc : ∀ i, pos ≤ i → i < file.length →
      holds (fun c => c == ESCAPE_CHARACTER) file i = false) :
    ∃ r, InlineEscapingKeyStateHandler.read configuration ESCAPE_CHARACTER escaped_read
        file pos = some r ∧
      ((∀ i, pos ≤ i → i < file.length →
          holds configuration.isDelimiter file i = false) →
        r = (⟨file.length, State.END⟩, [])) ∧
      (∀ p, pos ≤ p → holds configuration.isDelimiter file p = true →
        (∀ i, pos ≤ i → i < p → holds configuration.isDelimiter file i = false) →
        (holds (fun c => c == configuration.key_value_delimiter) file p = false →
          r = (⟨p + 1, State.WAITING_KEY⟩, [])) ∧
        (holds (fun c => c == configuration.key_value_delimiter) file p = true →
          ∀ s, pos ≤ s → s ≤ p →
            (s = pos ∨ (pos < s ∧
              holds (fun c => configuration.quoting_characters.contains c) file (s - 1)
                = true)) →
            (∀ i, s ≤ i → i < p →
              holds (fun c => configuration.quoting_characters.contains c) file i
                = false) →
            r = (⟨p + 1, State.WAITING_VALUE⟩, slice file s p))) :=
  InlineEscapingKeyStateHandler.readLoop_spec configuration ESCAPE_CHARACTER escaped_read
    file (file.length + 1) pos hpos (by omega) hesc

/-- C19 at a concrete input: in `a*key:v,` read from position 0, the first delimiter is
the `:` at index 5 and the last quoting character before it is at index 1, so the key is
`key` and the handler waits for a value at position 6. -/
theorem unquoted_key_reading_witness :
    (∀ i, 0 ≤ i → i < plainSample.length →
      holds (fun c => c == Char.ofNat 92) plainSample i = false) ∧
    holds sampleConfiguration.isDelimiter plainSample 5 = true ∧
    (∀ i, 0 ≤ i → i < 5 → holds sampleConfiguration.isDelimiter plainSample i = false) ∧
    InlineEscapingKeyStateHandler.read sampleConfiguration (Char.ofNat 92) sampleEscapedRead
      plainSample 0 = some (⟨6, State.WAITING_VALUE⟩, ['k', 'e', 'y']) := by
  refine ⟨by decide, by decide, by decide, ?_⟩
  obtain ⟨r, hr, -, hp⟩ := unquoted_key_reading sampleConfiguration (Char.ofNat 92)
    sampleEscapedRead plainSample 0 (by decide) (by decide)
  rw [hr, (hp 5 (by decide) (by decide) (by decide)).2 (by decide) 2 (by decide) (by decide)
    (Or.inr (by decide)) (by decide)]
  rfl

/-- C20 at a concrete input: in `key*:v` read from position 0, the first quoting
character is at index 3, so the key is `key` and the handler goes on to read the
key-value delimiter at position 4. -/
theorem quoted_key_reading_witness :
    (∀ i, 0 ≤ i → i < enclosedSample.length →
      holds (fun c => c == Char.ofNat 92) enclosedSample i = false) ∧
    holds (fun c => sampleConfiguration.quoting_characters.contains c) enclosedSample 3
      = true ∧
    InlineEscapingKeyStateHandler.readEnclosed sampleConfiguration (Char.ofNat 92)
      sampleEscapedRead enclosedSample 0 =
        some (⟨4, State.READING_KV_DELIMITER⟩, ['k', 'e', 'y']) := by
  refine ⟨by decide, by decide, ?_⟩
  obtain ⟨r, hr, -, hp, -, -⟩ := quoted_key_reading sampleConfiguration (Char.ofNat 92)
    sampleEscapedRead enclosedSample 0 (by decide) (by decide)
  rw [hr, hp 3 (by decide) (by decide) (by decide)]
  rfl

/-! ### The state a throwing call leaves behind -/

theorem SLRUFileCachePriority.forKeyCandidatesRun_spec
    (f : SLRUFileCachePriority → Nat → Except Exception SLRUFileCachePriority) :
    ∀ (cs : List Nat) (s : SLRUFileCachePriority),
      (∀ s1, forKeyCandidates f cs s = .ok s1 → forKeyCandidatesRun f cs s = (s1, none)) ∧
      (∀ e, forKeyCandidates f cs s = .error e →
        ∃ s1, forKeyCandidatesRun f cs s = (s1, some e)) := by
  intro cs
  induction cs with
  | nil =>
    intro s
    refine ⟨?_, ?_⟩
    · intro s1 h
      injection h with h
      subst h
      rfl
    · intro e h
      exact absurd h (by simp [forKeyCandidates])
  | cons c cs ih =>
    intro s
    unfold forKeyCandidates forKeyCandidatesRun
    cases hf : f s c with
    | error e0 =>
      refine ⟨?_, ?_⟩
      · intro s1 h
        exact absurd h (by simp)
      · intro e h
        injection h with h
        subst h
        exact ⟨s, rfl⟩
    | ok s2 => exact ih s2

theorem SLRUFileCachePriority.forCandidatesRun_spec
    (f : SLRUFileCachePriority → Nat → Except Exception SLRUFileCachePriority) :
    ∀ (res : EvictionCandidates) (s : SLRUFileCachePriority),
      (∀ s1, forCandidates f res s = .ok s1 → forCandidatesRun f res s = (s1, none)) ∧
      (∀ e, forCandidates f res s = .error e →
        ∃ s1, forCandidatesRun f res s = (s1, some e)) := by
  intro res
  induction res with
  | nil =>
    intro s
    refine ⟨?_, ?_⟩
    · intro s1 h
      injection h with h
      subst h
      rfl
    · intro e h
      exact absurd h (by simp [forCandidates])
  | cons kc rest ih =>
    intro s
    obtain ⟨h1, h2⟩ := forKeyCandidatesRun_spec f kc.2 s
    unfold forCandidates forCandidatesRun
    cases hk : forKeyCandidates f kc.2 s with
    | error e0 =>
      obtain ⟨s2, hs2⟩ := h2 e0 hk
      rw [hs2]
      refine ⟨?_, ?_⟩
      · intro s1 h
        exact absurd h (by simp)
      · intro e h
        injection h with h
        subst h
        exact ⟨s2, rfl⟩
    | ok s2 =>
      rw [h1 s2 hk]
      exact ih s2

theorem SLRUFileCachePriority.promoteRun_spec (s : SLRUFileCachePriority) (iterator : Nat)
    (cands : EvictionCandidates) :
    (∀ s1, s.promote iterator cands = .ok s1 → s.promoteRun iterator cands = (s1, none)) ∧
    (∀ e, s.promote iterator cands = .error e →
      ∃ s1, s.promoteRun iterator cands = (s1, some e)) := by
  unfold promote promoteRun
  cases hg : SLRUIterator.getEntry s iterator with
  | error e0 =>
    refine ⟨fun s1 h => absurd h (by simp), ?_⟩
    intro e h
    injection h with h
    subst h
    exact ⟨s, rfl⟩
  | ok entry =>
    cases hr : s.lruRemove iterator with
    | error e0 =>
      refine ⟨fun s1 h => absurd h (by simp), ?_⟩
      intro e h
      injection h with h
      subst h
      exact ⟨s, rfl⟩
    | ok s1 =>
      obtain ⟨h1, h2⟩ := forCandidatesRun_spec downgrade cands s1
      cases hd : forCandidates downgrade cands s1 with
      | error e0 =>
        obtain ⟨s2, hs2⟩ := h2 e0 hd
        simp only [hd, hs2]
        refine ⟨fun s1 h => absurd h (by simp), ?_⟩
        intro e h
        injection h with h
        subst h
        exact ⟨s2, rfl⟩
      | ok s2 =>
        simp only [hd, h1 s2 hd]
        cases ha : s2.protected_queue.add ⟨iterator, entry⟩ with
        | error e0 =>
          simp only [ha]
          refine ⟨fun s1 h => absurd h (by simp), ?_⟩
          intro e h
          injection h with h
          subst h
          exact ⟨s2, rfl⟩
        | ok q =>
          simp only [ha]
          refine ⟨?_, fun e h => absurd h (by simp)⟩
          intro s3 h
          injection h with h
          subst h
          rfl

theorem SLRUFileCachePriority.lruIncreasePriorityRun_spec (s : SLRUFileCachePriority)
    (iterator : Nat) :
    (∀ s1, s.lruIncreasePriority iterator = .ok s1 →
      s.lruIncreasePriorityRun iterator = (s1, none)) ∧
    (∀ e, s.lruIncreasePriority iterator = .error e →
      ∃ s1, s.lruIncreasePriorityRun iterator = (s1, some e)) := by
  unfold lruIncreasePriorityRun
  cases h : s.lruIncreasePriority iterator with
  | error e0 =>
    refine ⟨fun s1 h => absurd h (by simp), ?_⟩
    intro e h
    injection h with h
    subst h
    exact ⟨s, rfl⟩
  | ok s1 =>
    refine ⟨?_, fun e h => absurd h (by simp)⟩
    intro s2 h
    injection h with h
    subst h
    rfl

/-- The state-keeping version of `increasePriority` agrees with the function itself: it
ends in the returned state when the call returns, and with the same exception when the
call throws. -/
theorem SLRUFileCachePriority.increasePriorityRun_spec (s : SLRUFileCachePriority)
    (releasable : Nat → Bool) (iterator : Nat) :
    (∀ s1, s.increasePriority releasable iterator = .ok s1 →
      s.increasePriorityRun releasable iterator = (s1, none)) ∧
    (∀ e, s.increasePriority releasable iterator = .error e →
      ∃ s1, s.increasePriorityRun releasable iterator = (s1, some e)) := by
  unfold increasePriority increasePriorityRun
  split
  · exact lruIncreasePriorityRun_spec s iterator
  · cases hg : SLRUIterator.getEntry s iterator with
    | error e0 =>
      refine ⟨fun s1 h => absurd h (by simp), ?_⟩
      intro e h
      injection h with h
      subst h
      exact ⟨s, rfl⟩
    | ok entry =>
      simp only
      by_cases hbig : entry.size > s.protected_queue.getSizeLimit
      · simp only [if_pos hbig]
        exact lruIncreasePriorityRun_spec s iterator
      · simp only [if_neg hbig]
        generalize s.protected_queue.collectCandidatesForEviction releasable entry.size
          FileCacheReserveStat.empty [] none = d
        by_cases hd : (!d.1) = true
        · simp only [if_pos hd]
          exact lruIncreasePriorityRun_spec s iterator
        · simp only [if_neg hd]
          generalize (if d.2.1.stat.releasable_count ≠ 0 ∧
              d.2.1.stat.releasable_count > entry.size
            then d.2.1.stat.releasable_count - entry.size else 0) = size_to_free
          by_cases hs : size_to_free ≠ 0
          · simp only [if_pos hs]
            generalize s.probationary_queue.collectCandidatesForEviction releasable
              size_to_free FileCacheReserveStat.empty [] none = r
            by_cases hr : (!r.1) = true
            · simp only [if_pos hr]
              exact lruIncreasePriorityRun_spec s iterator
            · simp only [if_neg hr]
              obtain ⟨h1, h2⟩ := forCandidatesRun_spec SLRUIterator.remove r.2.2 s
              unfold evict
              cases he : forCandidates SLRUIterator.remove r.2.2 s with
              | error e0 =>
                obtain ⟨s2, hs2⟩ := h2 e0 he
                simp only [hs2]
                refine ⟨fun s1 h => absurd h (by simp), ?_⟩
                intro e h
                injection h with h
                subst h
                exact ⟨s2, rfl⟩
              | ok s2 =>
                simp only [h1 s2 he]
                exact promoteRun_spec s2 iterator _
          · simp only [if_neg hs]
            exact promoteRun_spec s iterator _

theorem SLRUIterator.touchRun_spec (s : SLRUFileCachePriority)
    (releasable : Nat → Bool) (it : Nat) :
    (∀ s1 hits, SLRUIterator.increasePriority s releasable it = .ok (s1, hits) →
      SLRUIterator.increasePriorityRun s releasable it = (s1, none)) ∧
    (∀ e, SLRUIterator.increasePriority s releasable it = .error e →
      ∃ s1, SLRUIterator.increasePriorityRun s releasable it = (s1, some e)) := by
  unfold SLRUIterator.increasePriority SLRUIterator.increasePriorityRun
  cases hv : SLRUIterator.assertValid s it with
  | error e0 =>
    refine ⟨fun s1 hits h => absurd h (by simp), ?_⟩
    intro e h
    injection h with h
    subst h
    exact ⟨s, rfl⟩
  | ok u =>
    obtain ⟨h1, h2⟩ := SLRUFileCachePriority.increasePriorityRun_spec s releasable it
    cases hi : s.increasePriority releasable it with
    | error e0 =>
      obtain ⟨s2, hs2⟩ := h2 e0 hi
      simp only [hi, hs2]
      refine ⟨fun s1 hits h => absurd h (by simp), ?_⟩
      intro e h
      injection h with h
      subst h
      exact ⟨s2, rfl⟩
    | ok s2 =>
      simp only [hi, h1 s2 hi]
      cases hg : SLRUIterator.getEntry s2 it with
      | error e0 =>
        simp only [hg]
        refine ⟨fun s1 hits h => absurd h (by simp), ?_⟩
        intro e h
        injection h with h
        subst h
        exact ⟨s2, rfl⟩
      | ok entry =>
        simp only [hg]
        refine ⟨?_, fun e h => absurd h (by simp)⟩
        intro s3 hits h
        injection h with h
        injection h with h h'
        subst h
        rfl

/-- C2 at the failing input: in a fresh policy (4 bytes, 4 elements, ratio 0.5, so 2
elements per tier) three empty segments are added and the first two promoted; the
protected queue then holds its 2 elements.  `touch` of the third finds nothing to
downgrade for 0 bytes, removes the entry from the probationary queue (line 189) and
throws in `protected_queue.add` (line 201).  The state the call leaves has the iterator
alive (the validity check passes), tagged probationary, and its entry in neither queue. -/
theorem throwing_touch_breaks_tag :
    ∃ s, Reachable (SLRUFileCachePriority.create 4 4 (1 / 2)) s ∧
      s.protected_queue.ids = [0, 1] ∧
      s.probationary_queue.ids = [2] ∧
      s.iterators 2 = ⟨some Tier.PROBATIONARY, false⟩ ∧
      SLRUIterator.increasePriority s allReleasable 2 = .error Exception.LIMIT_EXCEEDED ∧
      ∃ s1, SLRUIterator.increasePriorityRun s allReleasable 2 =
          (s1, some Exception.LIMIT_EXCEEDED) ∧
        SLRUIterator.assertValid s1 2 = .ok () ∧
        s1.iterators 2 = ⟨some Tier.PROBATIONARY, false⟩ ∧
        s1.probationary_queue.ids = [] ∧
        s1.protected_queue.ids = [0, 1] ∧
        ¬ ((s1.iterators 2).is_protected = false ↔ 2 ∈ s1.probationary_queue.ids) := by
  have h : ∃ sa, step (SLRUFileCachePriority.create 4 4 (1 / 2)) allReleasable
      (Call.add 1 0 0) = .ok sa ∧
      ∃ sb, step sa allReleasable (Call.touch 0) = .ok sb ∧
      ∃ sc, step sb allReleasable (Call.add 2 0 0) = .ok sc ∧
      ∃ sd, step sc allReleasable (Call.touch 1) = .ok sd ∧
      ∃ s, step sd allReleasable (Call.add 3 0 0) = .ok s ∧
        s.protected_queue.ids = [0, 1] ∧
        s.probationary_queue.ids = [2] ∧
        s.iterators 2 = ⟨some Tier.PROBATIONARY, false⟩ ∧
        SLRUIterator.increasePriority s allReleasable 2 = .error Exception.LIMIT_EXCEEDED ∧
        ∃ s1, SLRUIterator.increasePriorityRun s allReleasable 2 =
            (s1, some Exception.LIMIT_EXCEEDED) ∧
          SLRUIterator.assertValid s1 2 = .ok () ∧
          s1.iterators 2 = ⟨some Tier.PROBATIONARY, false⟩ ∧
          s1.probationary_queue.ids = [] ∧
          s1.protected_queue.ids = [0, 1] ∧
          ¬ ((s1.iterators 2).is_protected = false ↔ 2 ∈ s1.probationary_queue.ids) := by
    rw [create_4_half]
    exact ⟨_, rfl, _, rfl, _, rfl, _, rfl, _, rfl, rfl, rfl, rfl, rfl,
      ⟨_, rfl, rfl, rfl, rfl, rfl, by decide⟩⟩
  obtain ⟨sa, ha, sb, hb, sc, hc, sd, hd, s, hs, h1⟩ := h
  refine ⟨s, ?_, h1⟩
  exact ReachableVia.call allReleasable (Call.add 3 0 0)
    (ReachableVia.call allReleasable (Call.touch 1)
      (ReachableVia.call allReleasable (Call.add 2 0 0)
        (ReachableVia.call allReleasable (Call.touch 0)
          (ReachableVia.call allReleasable (Call.add 1 0 0) ReachableVia.init ha trivial)
          hb trivial) hc trivial) hd trivial) hs trivial

/-- C16 at the failing inputs.  First, the policy of C15 (2 bytes and 2 elements per
tier, protected `[A(0), B(2)]`, probationary `[D(1), E(1)]`) with `E` pinned: for
`touch(D)` the downgrade set releases 2 bytes, the shortfall is 1 byte, and the
probationary queue cannot free it without `D` (its collection with `D` as reservee
fails); the touch does not promote, yet it evicts `D` and throws.  Second, the policy of
C14 (protected `[X(40)]`, probationary `[Y(30), Z(20)]`, 50 bytes per tier) with `Y`
pinned: for `touch(Z)` the shortfall is `40 - 20 = 20` bytes, which the probationary
queue cannot free without `Z`; the touch does not fall back but moves `X` and `Z`
between the tiers and leaves 70 bytes in the probationary queue. -/
theorem fallback_not_in_tier :
    (∃ s, Reachable (SLRUFileCachePriority.create 4 4 (1 / 2)) s ∧
      s.protected_queue.ids = [0, 1] ∧
      s.probationary_queue.ids = [2, 3] ∧
      s.iterators 2 = ⟨some Tier.PROBATIONARY, false⟩ ∧
      SLRUIterator.getEntry s 2 = .ok ⟨3, 0, 1, 0⟩ ∧
      (s.protected_queue.collectCandidatesForEviction (allReleasableBut 3) 1
        FileCacheReserveStat.empty [] none).2.1 = ⟨⟨2, 2⟩⟩ ∧
      (s.probationary_queue.collectCandidatesForEviction (allReleasableBut 3) 1
        FileCacheReserveStat.empty [] (some 2)).1 = false ∧
      SLRUIterator.increasePriority s (allReleasableBut 3) 2 =
        .error Exception.INVALID_ITERATOR ∧
      ∃ s1, SLRUIterator.increasePriorityRun s (allReleasableBut 3) 2 =
          (s1, some Exception.INVALID_ITERATOR) ∧
        s1.protected_queue.ids = [0, 1] ∧
        s1.probationary_queue.ids = [3] ∧
        (s1.iterators 2).lru_iterator = none) ∧
    (∃ s, Reachable (SLRUFileCachePriority.create 100 100 (1 / 2)) s ∧
      s.protected_queue.ids = [0] ∧
      s.probationary_queue.ids = [1, 2] ∧
      s.iterators 2 = ⟨some Tier.PROBATIONARY, false⟩ ∧
      SLRUIterator.getEntry s 2 = .ok ⟨3, 0, 20, 0⟩ ∧
      (s.protected_queue.collectCandidatesForEviction (allReleasableBut 1) 20
        FileCacheReserveStat.empty [] none).2.1 = ⟨⟨40, 1⟩⟩ ∧
      (s.probationary_queue.collectCandidatesForEviction (allReleasableBut 1) (40 - 20)
        FileCacheReserveStat.empty [] (some 2)).1 = false ∧
      ∃ s1, SLRUIterator.increasePriority s (allReleasableBut 1) 2 = .ok (s1, 0) ∧
        s1.protected_queue.ids = [2] ∧
        s1.probationary_queue.ids = [1, 0] ∧
        s1.iterators 0 = ⟨some Tier.PROBATIONARY, false⟩ ∧
        s1.iterators 2 = ⟨some Tier.PROTECTED, true⟩ ∧
        s1.probationary_queue.current_size = 70 ∧
        s1.probationary_queue.max_size = 50) := by
  constructor
  · have h : ∃ sa, step (SLRUFileCachePriority.create 4 4 (1 / 2)) allReleasable
        (Call.add 1 0 0) = .ok sa ∧
        ∃ sb, step sa allReleasable (Call.touch 0) = .ok sb ∧
        ∃ sc, step sb allReleasable (Call.add 2 0 2) = .ok sc ∧
        ∃ sd, step sc allReleasable (Call.touch 1) = .ok sd ∧
        ∃ se, step sd allReleasable (Call.add 3 0 1) = .ok se ∧
        ∃ s, step se allReleasable (Call.add 4 0 1) = .ok s ∧
          s.protected_queue.ids = [0, 1] ∧
          s.probationary_queue.ids = [2, 3] ∧
          s.iterators 2 = ⟨some Tier.PROBATIONARY, false⟩ ∧
          SLRUIterator.getEntry s 2 = .ok ⟨3, 0, 1, 0⟩ ∧
          (s.protected_queue.collectCandidatesForEviction (allReleasableBut 3) 1
            FileCacheReserveStat.empty [] none).2.1 = ⟨⟨2, 2⟩⟩ ∧
          (s.probationary_queue.collectCandidatesForEviction (allReleasableBut 3) 1
            FileCacheReserveStat.empty [] (some 2)).1 = false ∧
          SLRUIterator.increasePriority s (allReleasableBut 3) 2 =
            .error Exception.INVALID_ITERATOR ∧
          ∃ s1, SLRUIterator.increasePriorityRun s (allReleasableBut 3) 2 =
              (s1, some Exception.INVALID_ITERATOR) ∧
            s1.protected_queue.ids = [0, 1] ∧
            s1.probationary_queue.ids = [3] ∧
            (s1.iterators 2).lru_iterator = none := by
      rw [create_4_half]
      exact ⟨_, rfl, _, rfl, _, rfl, _, rfl, _, rfl, _, rfl, rfl, rfl, rfl, rfl, rfl, rfl, rfl,
        ⟨_, rfl, rfl, rfl, rfl⟩⟩
    obtain ⟨sa, ha, sb, hb, sc, hc, sd, hd, se, he, s, hs, h1⟩ := h
    refine ⟨s, ?_, h1⟩
    exact ReachableVia.call allReleasable (Call.add 4 0 1)
      (ReachableVia.call allReleasable (Call.add 3 0 1)
        (ReachableVia.call allReleasable (Call.touch 1)
          (ReachableVia.call allReleasable (Call.add 2 0 2)
            (ReachableVia.call allReleasable (Call.touch 0)
              (ReachableVia.call allReleasable (Call.add 1 0 0) ReachableVia.init ha trivial)
              hb trivial) hc trivial) hd trivial) he trivial) hs trivial
  · have h : ∃ sa, step (SLRUFileCachePriority.create 100 100 (1 / 2)) allReleasable
        (Call.add 1 0 40) = .ok sa ∧
        ∃ sb, step sa allReleasable (Call.touch 0) = .ok sb ∧
        ∃ sc, step sb allReleasable (Call.add 2 0 30) = .ok sc ∧
        ∃ s, step sc allReleasable (Call.add 3 0 20) = .ok s ∧
          s.protected_queue.ids = [0] ∧
          s.probationary_queue.ids = [1, 2] ∧
          s.iterators 2 = ⟨some Tier.PROBATIONARY, false⟩ ∧
          SLRUIterator.getEntry s 2 = .ok ⟨3, 0, 20, 0⟩ ∧
          (s.protected_queue.collectCandidatesForEviction (allReleasableBut 1) 20
            FileCacheReserveStat.empty [] none).2.1 = ⟨⟨40, 1⟩⟩ ∧
          (s.probationary_queue.collectCandidatesForEviction (allReleasableBut 1) (40 - 20)
            FileCacheReserveStat.empty [] (some 2)).1 = false ∧
          ∃ s1, SLRUIterator.increasePriority s (allReleasableBut 1) 2 = .ok (s1, 0) ∧
            s1.protected_queue.ids = [2] ∧
            s1.probationary_queue.ids = [1, 0] ∧
            s1.iterators 0 = ⟨some Tier.PROBATIONARY, false⟩ ∧
            s1.iterators 2 = ⟨some Tier.PROTECTED, true⟩ ∧
            s1.probationary_queue.current_size = 70 ∧
            s1.probationary_queue.max_size = 50 := by
      rw [create_100_half]
      exact ⟨_, rfl, _, rfl, _, rfl, _, rfl, rfl, rfl, rfl, rfl, rfl, rfl,
        ⟨_, rfl, rfl, rfl, rfl, rfl, rfl, rfl⟩⟩
    obtain ⟨sa, ha, sb, hb, sc, hc, s, hs, h1⟩ := h
    refine ⟨s, ?_, h1⟩
    exact ReachableVia.call allReleasable (Call.add 3 0 20)
      (ReachableVia.call allReleasable (Call.add 2 0 30)
        (ReachableVia.call allReleasable (Call.touch 0)
          (ReachableVia.call allReleasable (Call.add 1 0 40) ReachableVia.init ha trivial)
          hb trivial) hc trivial) hs trivial

end DB
